import Mathlib

/-!
# httpserver: audit log, PUT/GET handlers and request parser

A shallow embedding of `src/methods.cpp` and of the request handling of `src/worker.cpp`.

Conventions of the embedding

* A byte is a natural number below 256. A `char *` argument is the list of the bytes that
  precede its terminating NUL; a NULL pointer is `none`.
* Plain `char` is signed, as on the x86 and x86-64 Linux targets the server is written for
  (it uses the GNU `strerror_r`), so a byte of value 128 or more read through a `char *` is a
  negative `char`.
* The log file is observed through the list of its successful `pwrite` calls, in program
  order; `logContent` replays them into the bytes of the file.
* `pwrite` at a negative offset fails with `EINVAL` and returns `-1` (POSIX); every other
  `pwrite` succeeds in full.
* The offset counter and the file offsets are integers; the reservation size that `log_put`
  computes from the client's content length is computed in 32-bit `int` arithmetic.
-/

namespace HttpServer

/-! ## Bytes, strings and `printf` conversions -/

/-- The bytes of a string literal. -/
def str (s : String) : List Nat := s.toList.map Char.toNat

/-- Reduction of an integer to the range of a 32-bit C `int`. -/
def wrap32 (x : Int) : Int := (x + 2147483648) % 4294967296 - 2147483648

/-- Sum of two C `int`s. -/
def iadd (a b : Int) : Int := wrap32 (a + b)

/-- Product of two C `int`s. -/
def imul (a b : Int) : Int := wrap32 (a * b)

/-- Decimal digits (ASCII, most significant first) of a natural number, by repeated division. -/
def decAux : Nat → Nat → List Nat → List Nat
  | 0, _, acc => acc
  | fuel + 1, n, acc =>
    if n < 10 then (48 + n) :: acc else decAux fuel (n / 10) ((48 + n % 10) :: acc)

/-- Decimal representation of a natural number. -/
def dec (n : Nat) : List Nat := decAux (n + 1) n []

/-- One lowercase hexadecimal digit. -/
def hexDigit (d : Nat) : Nat := if d < 10 then 48 + d else 87 + d

/-- Hexadecimal digits (ASCII, lowercase, most significant first) of a natural number. -/
def hexAux : Nat → Nat → List Nat → List Nat
  | 0, _, acc => acc
  | fuel + 1, n, acc =>
    if n < 16 then hexDigit n :: acc else hexAux fuel (n / 16) (hexDigit (n % 16) :: acc)

/-- Hexadecimal representation of a natural number. -/
def hex (n : Nat) : List Nat := hexAux (n + 1) n []

/-- Left padding with the character 0 up to a minimum width. -/
def zeroPad (width : Nat) (ds : List Nat) : List Nat :=
  List.replicate (width - ds.length) 48 ++ ds

/-- The conversion `%d`. -/
def fmt_d (v : Int) : List Nat :=
  if v < 0 then 45 :: dec v.natAbs else dec v.toNat

/-- The conversion `%08d`: the sign counts in the width of 8. -/
def fmt_08d (v : Int) : List Nat :=
  if v < 0 then 45 :: zeroPad 7 (dec v.natAbs) else zeroPad 8 (dec v.toNat)

/-- The conversion `%02x` of an `unsigned int`. -/
def fmt_02x (v : Nat) : List Nat := zeroPad 2 (hex v)

/-- What `snprintf(buf, size, ...)` stores before the terminating NUL: at most `size - 1`
characters of the formatted text. -/
def snprintf (size : Nat) (text : List Nat) : List Nat := text.take (size - 1)

/-- The `count` bytes that `pwrite` takes from a heap buffer into which `text` was formatted:
the text, then the terminator and the bytes after it (shown as 0) when the text is shorter. -/
def bufBytes (count : Int) (text : List Nat) : List Nat :=
  text.take count.toNat ++ List.replicate (count.toNat - text.length) 0

/-- Conversion of a byte read through `char *` to `unsigned int` (`byte = content[i]`):
the signed `char` is sign-extended, then taken modulo 2^32. -/
def charToUnsigned (b : Nat) : Nat := if b < 128 then b else b + 4294967040

/-! ## Files, connections and the process state -/

/-- A file of the storage directory: its permission bits for the server and its bytes. -/
structure File where
  readable : Bool
  writable : Bool
  content : List Nat
deriving DecidableEq, Repr

/-- The process-wide state: the log descriptor, the log offset counter, the successful
positional writes to the log, and the storage directory. -/
structure World where
  log_fd : Int
  log_offset : Int
  log : List (Int × List Nat)
  files : List (List Nat × File)
  creatable : Bool
deriving DecidableEq, Repr

/-- State of `main` after start-up: counter 0, log disabled unless `-l` opened a log file. -/
def World.init (log_fd : Int) (files : List (List Nat × File)) (creatable : Bool) : World :=
  { log_fd := log_fd, log_offset := 0, log := [], files := files, creatable := creatable }

/-- The call `pwrite(log_fd, buf, |buf|, offset)`. -/
def pwrite (w : World) (buf : List Nat) (offset : Int) : World × Int :=
  if offset < 0 then (w, -1)
  else ({ w with log := w.log ++ [(offset, buf)] }, (buf.length : Int))

/-- Overwrite of a sparse file image at a position; `none` is a byte never written. -/
def overwrite (file : List (Option Nat)) (off : Nat) (data : List Nat) : List (Option Nat) :=
  (file ++ List.replicate (off - file.length) none).take off
    ++ data.map some ++ file.drop (off + data.length)

/-- The file image produced by a list of positional writes. -/
def logContent (writes : List (Int × List Nat)) : List (Option Nat) :=
  writes.foldl (fun file p => overwrite file p.1.toNat p.2) []

/-! ## The audit log (`methods.cpp`) -/

/-- The function `log_get`. -/
def log_get (w : World) (resource : List Nat) : World :=
  if w.log_fd < 0 then w
  else
    let size_of_first_line : Int := 41
    let size_of_separator : Int := 9
    let size_of_reservation := iadd size_of_first_line size_of_separator
    let local_log_offset := w.log_offset
    let w1 := { w with log_offset := w.log_offset + size_of_reservation }
    let log_line := snprintf (size_of_reservation + 1).toNat
      (str "GET " ++ resource ++ str " length 0\n========\n")
    (pwrite w1 (bufBytes size_of_reservation log_line) local_log_offset).1

/-- The size `log_put` reserves for a content length. -/
def log_put_size (content_length : Int) : Int :=
  let content_length_length : Int := ((fmt_d content_length).length : Int)
  let size_of_first_line := iadd (iadd 39 content_length_length) 1
  let size_of_content_line : Int := 69
  let amount_of_content_lines := Int.tdiv content_length 20
  let size_of_partial_content_line : Int :=
    if Int.tmod content_length 20 > 0 then iadd 9 (imul (Int.tmod content_length 20) 3) else 0
  let size_of_separator : Int := 9
  iadd (iadd (iadd size_of_first_line (imul size_of_content_line amount_of_content_lines))
    size_of_partial_content_line) size_of_separator

/-- The function `log_put`: returns the state and the offset after the header line. -/
def log_put (w : World) (resource : List Nat) (content_length : Int) : World × Int :=
  if w.log_fd < 0 ∨ content_length < 0 then (w, -1)
  else
    let content_length_length : Int := ((fmt_d content_length).length : Int)
    let size_of_first_line := iadd (iadd 39 content_length_length) 1
    let size_of_reservation := log_put_size content_length
    let local_log_offset := w.log_offset
    let w1 := { w with log_offset := w.log_offset + size_of_reservation }
    let log_line := snprintf (size_of_first_line + 1).toNat
      (str "PUT " ++ resource ++ str " length " ++ fmt_d content_length ++ str "\n")
    let r := pwrite w1 (bufBytes size_of_first_line log_line) local_log_offset
    (r.1, local_log_offset + r.2)

/-- The function `log`: dispatch on the method name. -/
def log (w : World) (method : List Nat) (resource : List Nat) (content_length : Int) :
    World × Int :=
  if method = str "GET" then (log_get w resource, 0)
  else if method = str "PUT" then log_put w resource content_length
  else (w, 1)

/-- Loop state of `write_hex_to_log`. -/
structure HexState where
  w : World
  bytes : Int
  char_cur : Nat
  new_offset : Int
deriving DecidableEq, Repr

/-- The inner loop `for(j = 0; j < upto; j++)` of `write_hex_to_log`; the first argument
counts the iterations left. -/
def hexBytes (content : List Nat) (upto : Int) : Nat → Int → HexState → HexState
  | 0, _, s => s
  | k + 1, j, s =>
    let byte := charToUnsigned (content.getD s.char_cur 0)
    let hex_char := snprintf 3 (fmt_02x byte)
    let r := pwrite s.w hex_char s.new_offset
    let off1 := s.new_offset + r.2
    let s1 : HexState :=
      if j < upto - 1 then
        { s with w := (pwrite r.1 [32] off1).1, char_cur := s.char_cur + 1,
                 new_offset := off1 + 1 }
      else
        { s with w := r.1, char_cur := s.char_cur + 1, new_offset := off1 }
    hexBytes content upto k (j + 1) s1

/-- The outer loop `for(i = 0; i < lines; i++)` of `write_hex_to_log`; the first argument
counts the iterations left. -/
def hexLines (content : List Nat) (bytes_read lines : Int) : Nat → Int → HexState → HexState
  | 0, _, s => s
  | k + 1, i, s =>
    let byte_number_fmt := snprintf 10 (fmt_08d s.bytes ++ [32])
    let r := pwrite s.w byte_number_fmt s.new_offset
    let s1 : HexState := { s with w := r.1, new_offset := s.new_offset + r.2 }
    let upto : Int := if i = lines - 1 then bytes_read - 20 * i else 20
    let s2 := hexBytes content upto upto.toNat 0 s1
    let s3 : HexState :=
      { s2 with bytes := s2.bytes + 20, w := (pwrite s2.w [10] s2.new_offset).1,
                new_offset := s2.new_offset + 1 }
    hexLines content bytes_read lines k (i + 1) s3

/-- The function `write_hex_to_log`. -/
def write_hex_to_log (w : World) (bytes_read total_bytes_read offset : Int)
    (content : List Nat) : World × Int :=
  if w.log_fd < 0 then (w, -1)
  else
    let bytes := total_bytes_read - bytes_read
    let lines : Int :=
      if Int.tmod bytes_read 20 > 0 then Int.tdiv bytes_read 20 + 1 else Int.tdiv bytes_read 20
    let s := hexLines content bytes_read lines lines.toNat 0
      { w := w, bytes := bytes, char_cur := 0, new_offset := offset }
    (s.w, s.new_offset)

/-- The function `log_error`. -/
def log_error (w : World) (method : List Nat) (resource : List Nat) (code : Int) : World :=
  if w.log_fd < 0 then w
  else
    let size_of_first_line : Int := 10 + (resource.length : Int) + 27
    let size_of_separator : Int := 9
    let size_of_reservation := size_of_first_line + size_of_separator
    let local_log_offset := w.log_offset
    let w1 := { w with log_offset := w.log_offset + size_of_reservation }
    let log_line := snprintf (size_of_reservation + 1).toNat
      (str "FAIL: " ++ method ++ str " " ++ resource ++ str " HTTP/1.1 --- response "
        ++ fmt_d code ++ str "\n========\n")
    (pwrite w1 (bufBytes size_of_reservation log_line) local_log_offset).1

/-! ## Connections and the storage directory -/

/-- What a blocking `read` on a client socket finds next: bytes sent by the peer, or a
failure (return value -1, for instance the receive timeout). -/
inductive Recv where
  | data (bs : List Nat)
  | error
deriving DecidableEq, Repr

/-- A client connection: what is still to arrive, the bytes the server has written to it, and
whether the server has closed it. Once `incoming` is used up the peer has shut down its side
and `read` returns 0. -/
structure Conn where
  incoming : List Recv
  sent : List Nat
  closed : Bool
deriving DecidableEq, Repr

/-- The call `read(fd, buf, count)` on the socket; `none` is the return value -1. Bytes of a
segment that do not fit in `count` stay queued. -/
def Conn.read (c : Conn) (count : Nat) : Conn × Option (List Nat) :=
  match c.incoming with
  | [] => (c, some [])
  | Recv.error :: rest => ({ c with incoming := rest }, none)
  | Recv.data bs :: rest =>
    if bs.length ≤ count then ({ c with incoming := rest }, some bs)
    else ({ c with incoming := Recv.data (bs.drop count) :: rest }, some (bs.take count))

/-- The call `write(fd, buf, |buf|)` on the socket, which succeeds in full. -/
def Conn.write (c : Conn) (buf : List Nat) : Conn := { c with sent := c.sent ++ buf }

/-- The call `close(fd)`. -/
def Conn.close (c : Conn) : Conn := { c with closed := true }

/-- Lookup of a name in the storage directory. -/
def findFile : List (List Nat × File) → List Nat → Option File
  | [], _ => none
  | (n, f) :: rest, name => if n = name then some f else findFile rest name

/-- Replacement or creation of a directory entry. -/
def storeFile : List (List Nat × File) → List Nat → File → List (List Nat × File)
  | [], name, f => [(name, f)]
  | (n, g) :: rest, name, f =>
    if n = name then (n, f) :: rest else (n, g) :: storeFile rest name f

/-- The test `access(resource, F_OK) != -1`. -/
def access_F_OK (w : World) (resource : List Nat) : Bool := (findFile w.files resource).isSome

/-- The test `access(resource, R_OK) != -1`. -/
def access_R_OK (w : World) (resource : List Nat) : Bool :=
  match findFile w.files resource with
  | some f => f.readable
  | none => false

/-- The test `access(resource, W_OK) != -1`. -/
def access_W_OK (w : World) (resource : List Nat) : Bool :=
  match findFile w.files resource with
  | some f => f.writable
  | none => false

/-- The call `open(resource, O_RDONLY)`: the bytes of the file, or `none` on failure. -/
def open_rdonly (w : World) (resource : List Nat) : Option (List Nat) :=
  match findFile w.files resource with
  | some f => if f.readable then some f.content else none
  | none => none

/-- The call `open(resource, O_RDWR | O_CREAT | O_TRUNC, 0644)`: the state with the file
emptied or created, or `none` on failure. An existing file must be readable and writable;
a new one needs a directory that allows creation. -/
def open_trunc (w : World) (resource : List Nat) : Option World :=
  match findFile w.files resource with
  | some f =>
    if f.readable ∧ f.writable then
      some { w with files := storeFile w.files resource { f with content := [] } }
    else none
  | none =>
    if w.creatable then
      let f : File := { readable := true, writable := true, content := [] }
      some { w with files := storeFile w.files resource f }
    else none

/-- The call `write(filefd, buf, |buf|)` on the file opened by `put`, which appends at the
file position and succeeds in full. -/
def file_write (w : World) (resource : List Nat) (buf : List Nat) : World :=
  match findFile w.files resource with
  | some f => { w with files := storeFile w.files resource { f with content := f.content ++ buf } }
  | none => w

/-- The text `strerror_r` gives for the `errno` of a failed `open`. -/
def open_error_text : List Nat := str "Permission denied"

/-! ## Responses and handlers (`methods.cpp`) -/

/-- The buffer capacity `BUF_SIZE`. -/
def BUF_SIZE : Nat := 8000

/-- A byte of the class `[a-zA-Z0-9_-]`. -/
def nameChar (ch : Nat) : Bool :=
  (97 ≤ ch && ch ≤ 122) || (65 ≤ ch && ch ≤ 90) || (48 ≤ ch && ch ≤ 57) || ch == 95 || ch == 45

/-- Whether `regexec` finds a match of `^[a-zA-Z0-9_-]+$` (extended syntax, C locale, no
flags): the string is not empty and all its bytes are in the class. -/
def regexec_name (filename : List Nat) : Bool := !filename.isEmpty && filename.all nameChar

/-- The function `valid_filename`. -/
def valid_filename (filename : List Nat) : Bool :=
  if filename.length ≠ 27 then false
  else if regexec_name filename then true
  else false

/-- The function `base_response`. -/
def base_response (c : Conn) (code : Int) (status message : List Nat) (_close : Bool) : Conn :=
  let reply := snprintf 512
    (str "HTTP/1.1 " ++ fmt_d code ++ str " " ++ status ++ str "\r\n"
      ++ str "Content-Length: " ++ fmt_d (wrap32 ((message.length : Int) + 2)) ++ str "\r\n"
      ++ str "\r\n" ++ message ++ str "\r\n")
  let c1 := c.write reply
  if _close then c1.close else c1

/-- The function `ok`. -/
def ok (c : Conn) (message : List Nat) (close : Bool) : Conn :=
  base_response c 200 (str "OK") message close

/-- The function `ok_send_payload`. -/
def ok_send_payload (c : Conn) (length : Int) : Conn :=
  c.write (snprintf 512
    (str "HTTP/1.1 200 OK\r\n" ++ str "Content-Length: " ++ fmt_d length ++ str "\r\n" ++ str "\r\n"))

/-- The function `created`. -/
def created (c : Conn) (message : List Nat) : Conn :=
  base_response c 201 (str "Created") message true

/-- The function `bad_request`. -/
def bad_request (c : Conn) (message : List Nat) : Conn :=
  base_response c 400 (str "Bad Request") message true

/-- The function `forbidden`. -/
def forbidden (c : Conn) (message : List Nat) : Conn :=
  base_response c 403 (str "Forbidden") message true

/-- The function `not_found`. -/
def not_found (c : Conn) (message : List Nat) : Conn :=
  base_response c 404 (str "Not Found") message true

/-- The function `internal_server_error`. -/
def internal_server_error (c : Conn) (message : List Nat) : Conn :=
  base_response c 500 (str "Internal Server Error") message true

/-- The transfer loop `do ... while(total_bytes_read < content_length)` of `get`: `remaining`
is the part of the file after the read position, and a `read` of the file returns its next
`BUF_SIZE` bytes or what is left of it. The result is `none` when the fuel runs out. -/
def get_loop (content_length : Int) : Nat → List Nat → Int → Conn → Option Conn
  | 0, _, _, _ => none
  | fuel + 1, remaining, total_bytes_read, c =>
    let buf := remaining.take BUF_SIZE
    let total := total_bytes_read + (buf.length : Int)
    let c1 := c.write buf
    if total < content_length then get_loop content_length fuel (remaining.drop BUF_SIZE) total c1
    else some c1

/-- The function `get`; `none` when the fuel runs out. -/
def get (w : World) (c : Conn) (resource : List Nat) (fuel : Nat) : Option (World × Conn) :=
  if !valid_filename resource then
    some (log_error w (str "GET") resource 400, bad_request c (str "Invalid resource name"))
  else if access_F_OK w resource then
    if !access_R_OK w resource then
      some (log_error w (str "GET") resource 403, forbidden c (str "No permission to read"))
    else
      match open_rdonly w resource with
      | none =>
        some (log_error w (str "GET") resource 500, internal_server_error c open_error_text)
      | some content =>
        let w1 := (log w (str "GET") resource 0).1
        let content_length := wrap32 (content.length : Int)
        let c1 := ok_send_payload c content_length
        match get_loop content_length fuel content 0 c1 with
        | none => none
        | some c2 => some (w1, c2.close)
  else
    some (w, not_found c (str "Resource not available"))

/-- How a receive loop of `put` ends: the connection was dropped after a failed `read`, or
the loop ran to its end with the log offset it reached. -/
inductive LoopEnd where
  | aborted (w : World) (c : Conn)
  | finished (w : World) (c : Conn) (offset : Int)
deriving DecidableEq, Repr

/-- The loop `do ... while(bytes_read == BUF_SIZE)` of `put` for an unspecified content
length; `none` when the fuel runs out. -/
def put_unspecified (resource : List Nat) :
    Nat → World → Conn → Int → Int → Option LoopEnd
  | 0, _, _, _, _ => none
  | fuel + 1, w, c, total_bytes_read, offset =>
    match c.read BUF_SIZE with
    | (c1, none) => some (LoopEnd.aborted w c1.close)
    | (c1, some buf) =>
      let bytes_read : Int := (buf.length : Int)
      let total := total_bytes_read + bytes_read
      let w1 := file_write w resource buf
      let r := write_hex_to_log w1 bytes_read total offset buf
      if bytes_read = (BUF_SIZE : Int) then put_unspecified resource fuel r.1 c1 total r.2
      else some (LoopEnd.finished r.1 c1 r.2)

/-- The loop `while(total_bytes_read < content_length)` of `put` for a known content length;
`none` when the fuel runs out. -/
def put_known (resource : List Nat) (content_length : Int) :
    Nat → World → Conn → Int → Int → Option LoopEnd
  | 0, _, _, _, _ => none
  | fuel + 1, w, c, total_bytes_read, offset =>
    if total_bytes_read < content_length then
      let count : Int :=
        if content_length - total_bytes_read < (BUF_SIZE : Int) then content_length - total_bytes_read
        else (BUF_SIZE : Int)
      match c.read count.toNat with
      | (c1, none) => some (LoopEnd.aborted w c1.close)
      | (c1, some buf) =>
        let bytes_read : Int := (buf.length : Int)
        let total := total_bytes_read + bytes_read
        let w1 := file_write w resource buf
        let r := write_hex_to_log w1 bytes_read total offset buf
        put_known resource content_length fuel r.1 c1 total r.2
    else some (LoopEnd.finished w c offset)

/-- The function `put`; `none` when the fuel runs out. -/
def put (w : World) (c : Conn) (resource : List Nat) (content_length : Int) (fuel : Nat) :
    Option (World × Conn) :=
  if !valid_filename resource then
    some (log_error w (str "PUT") resource 400, bad_request c (str "Invalid resource name"))
  else if access_F_OK w resource && !access_W_OK w resource then
    some (log_error w (str "PUT") resource 403, forbidden c (str "No permission to write"))
  else
    match open_trunc w resource with
    | none =>
      some (log_error w (str "PUT") resource 500, internal_server_error c open_error_text)
    | some w1 =>
      let r := log w1 (str "PUT") resource content_length
      let loop : Option LoopEnd :=
        if content_length = 0 then some (LoopEnd.finished (file_write r.1 resource []) c r.2)
        else if content_length < 0 then put_unspecified resource fuel r.1 c 0 r.2
        else put_known resource content_length fuel r.1 c 0 r.2
      match loop with
      | none => none
      | some (LoopEnd.aborted w2 c2) => some (w2, c2)
      | some (LoopEnd.finished w2 c2 offset) =>
        let w3 := if offset ≠ -1 then (pwrite w2 (str "========\n") offset).1 else w2
        some (w3, created c2 resource)

/-! ## The request parser and dispatch (`worker.cpp`) -/

/-- The C string held by a buffer: its bytes before the first NUL. -/
def cstr (buf : List Nat) : List Nat := buf.takeWhile (fun b => b ≠ 0)

/-- The tokens `strtok_r` returns one after the other for a C string: the maximal runs of
bytes that are not delimiters. The second argument is the run being read. -/
def tokensAux (isDelim : Nat → Bool) : List Nat → List Nat → List (List Nat)
  | [], cur => if cur.isEmpty then [] else [cur]
  | b :: rest, cur =>
    if isDelim b then
      if cur.isEmpty then tokensAux isDelim rest [] else cur :: tokensAux isDelim rest []
    else tokensAux isDelim rest (cur ++ [b])

/-- Tokens of a C string for a delimiter set. -/
def tokens (isDelim : Nat → Bool) (s : List Nat) : List (List Nat) := tokensAux isDelim s []

/-- The delimiter set `"\r\n"`. -/
def isCRLF (b : Nat) : Bool := b == 13 || b == 10

/-- The delimiter set `" "`. -/
def isSP (b : Nat) : Bool := b == 32

/-- The C predicate `isspace` in the C locale. -/
def isspace (b : Nat) : Bool := b == 32 || (9 ≤ b && b ≤ 13)

/-- The digits at the start of a string, accumulated in base ten. -/
def atoiDigits : List Nat → Nat → Nat
  | [], acc => acc
  | d :: rest, acc => if 48 ≤ d ∧ d ≤ 57 then atoiDigits rest (acc * 10 + (d - 48)) else acc

/-- The function `atoi` of the C library, as `(int) strtol(s, NULL, 10)`: leading white
space, an optional sign, digits; the `long` result saturates and is then cut to 32 bits. -/
def atoi (s : List Nat) : Int :=
  match s.dropWhile isspace with
  | 45 :: r => wrap32 (max (-9223372036854775808) (-(atoiDigits r 0 : Int)))
  | 43 :: r => wrap32 (min 9223372036854775807 (atoiDigits r 0 : Int))
  | r => wrap32 (min 9223372036854775807 (atoiDigits r 0 : Int))

/-- What the parser has found so far: the resource pointer (possibly NULL) and the content
length. -/
structure Parsed where
  resource : Option (List Nat)
  content_length : Int
deriving DecidableEq, Repr

/-- The inner loop of the parser over the tokens of one line. `none` is the call
`atoi(NULL)`, made when `Content-Length:` is the last token of its line. -/
def scanLine : List (List Nat) → Parsed → Option Parsed
  | [], p => some p
  | token2 :: rest, p =>
    if token2 = str "GET" ∨ token2 = str "PUT" then
      match rest with
      | [] => some { p with resource := none }
      | r :: rest1 => scanLine rest1 { p with resource := some r }
    else if token2 = str "Content-Length:" then
      match rest with
      | [] => none
      | v :: rest1 => scanLine rest1 { p with content_length := atoi v }
    else scanLine rest p

/-- The outer loop of the parser over the lines of the request. -/
def scanLines : List (List Nat) → Parsed → Option Parsed
  | [], p => some p
  | token1 :: rest, p =>
    match scanLine (tokens isSP token1) p with
    | none => none
    | some p1 => scanLines rest p1

/-- The parser of `accept_job` applied to the bytes of the first `read`. -/
def parse_request (chunk : List Nat) : Option Parsed :=
  scanLines (tokens isCRLF (cstr chunk)) { resource := none, content_length := -1 }

/-- How the handling of one connection ends. -/
inductive Outcome where
  | done (w : World) (c : Conn)
  | crash
  | out_of_fuel
deriving DecidableEq, Repr

/-- Conversion of a handler result. -/
def Outcome.ofHandler : Option (World × Conn) → Outcome
  | some (w, c) => Outcome.done w c
  | none => Outcome.out_of_fuel

/-- One turn of the loop of `accept_job` for a dequeued connection: first `read`, parse,
dispatch. `crash` is a NULL pointer passed to `atoi` or to `strlen` (in `valid_filename`).
The request is the C string of the bytes of the first `read` (the source stores the
terminator right after them, for a full buffer one byte past its end). -/
def accept_job (w : World) (c : Conn) (fuel : Nat) : Outcome :=
  match c.read BUF_SIZE with
  | (c1, none) => Outcome.done w c1
  | (c1, some chunk) =>
    match parse_request chunk with
    | none => Outcome.crash
    | some p =>
      if (cstr chunk).take 3 = str "GET" then
        match p.resource with
        | none => Outcome.crash
        | some resource => Outcome.ofHandler (get w c1 resource fuel)
      else if (cstr chunk).take 3 = str "PUT" then
        match p.resource with
        | none => Outcome.crash
        | some resource => Outcome.ofHandler (put w c1 resource p.content_length fuel)
      else Outcome.done w (bad_request c1 (str "Unsupported method"))

/-! ## The work queue (`queue.cpp`) -/

/-- A `struct node`: the descriptor and the `next` pointer (`none` is NULL). -/
structure Node where
  fd : Int
  next : Option Nat
deriving DecidableEq, Repr

/-- A block of heap memory obtained from `malloc` for a node: still allocated, or passed to
`free`; a freed block remembers the node it held when it was freed. -/
inductive Cell where
  | live (node : Node)
  | freed (stale : Node)
deriving DecidableEq, Repr

/-- A `struct queue` together with the heap blocks of its nodes; a pointer to a node is the
position of its block in `heap`. -/
structure Queue where
  heap : List Cell
  first : Option Nat
  last : Option Nat
deriving DecidableEq, Repr

/-- What a read through a pointer to freed memory gives: nothing defined (the C standard), or
the bytes the block held when it was freed (an allocator that leaves freed blocks alone). -/
inductive FreedRead where
  | undefined
  | stale
deriving DecidableEq, Repr

/-- A read of the node a pointer refers to; `none` when the read is not defined. -/
def load (r : FreedRead) (heap : List Cell) (p : Nat) : Option Node :=
  match heap[p]? with
  | some (Cell.live node) => some node
  | some (Cell.freed stale) =>
    match r with
    | FreedRead.undefined => none
    | FreedRead.stale => some stale
  | none => none

/-- The function `new_queue`. -/
def new_queue : Queue := { heap := [], first := none, last := none }

/-- The function `queue_is_empty`. -/
def queue_is_empty (q : Queue) : Bool := q.first.isNone

/-- The function `enqueue`; `malloc` returns a block that is not in use, here a new one.
The result is `none` when `queue->last` does not point to an allocated node. -/
def enqueue (q : Queue) (fd : Int) : Option Queue :=
  let new_node := q.heap.length
  let heap1 := q.heap ++ [Cell.live { fd := fd, next := none }]
  match q.last with
  | none => some { heap := heap1, first := some new_node, last := some new_node }
  | some l =>
    match heap1[l]? with
    | some (Cell.live node) =>
      some { heap := heap1.set l (Cell.live { node with next := some new_node }),
             first := q.first, last := some new_node }
    | _ => none

/-- How a call of `dequeue` goes: it returns a descriptor, or it waits on the condition
variable because the queue is empty, or it reads through a pointer whose target is not
defined. -/
inductive Dequeued where
  | value (q : Queue) (fd : Int)
  | waiting
  | undefined
deriving DecidableEq, Repr

/-- The function `dequeue`, in the order of its statements: `fd = queue->first->fd`,
`free(tmp)`, `queue->first = queue->first->next`, then the reset of `last`. -/
def dequeue (r : FreedRead) (q : Queue) : Dequeued :=
  if queue_is_empty q then Dequeued.waiting
  else
    match q.first with
    | none => Dequeued.waiting
    | some tmp =>
      match load r q.heap tmp with
      | none => Dequeued.undefined
      | some node =>
        let fd := node.fd
        let heap1 := q.heap.set tmp (Cell.freed node)
        match load r heap1 tmp with
        | none => Dequeued.undefined
        | some node1 =>
          let first := node1.next
          let last := if first = none then none else q.last
          Dequeued.value { heap := heap1, first := first, last := last } fd

/-- How one pass of the loop of `accept_job` starts: the worker leaves the loop on the
value -2, or has a connection to serve, or waits, or `dequeue` was not defined. -/
inductive Turn where
  | exit (q : Queue)
  | serve (q : Queue) (fd : Int)
  | waiting
  | undefined
deriving DecidableEq, Repr

/-- The head of the loop of `accept_job`: `fd = dequeue(queue); if(fd == -2) break;`. -/
def accept_job_dequeue (r : FreedRead) (q : Queue) : Turn :=
  match dequeue r q with
  | Dequeued.value q1 fd => if fd = -2 then Turn.exit q1 else Turn.serve q1 fd
  | Dequeued.waiting => Turn.waiting
  | Dequeued.undefined => Turn.undefined

/-- A run of calls `enqueue(queue, fd)` for the descriptors of a list, in order. -/
def enqueue_all : Queue → List Int → Option Queue
  | q, [] => some q
  | q, fd :: rest =>
    match enqueue q fd with
    | none => none
    | some q1 => enqueue_all q1 rest

/-- The queue `main` leaves behind when it quits: the accepted connections in the order of
`accept`, then the value -2 once per worker. -/
def main_shutdown (accepted : List Int) (workers : Nat) : Option Queue :=
  enqueue_all new_queue (accepted ++ List.replicate workers (-2))

/-! ## Vocabulary of the statements -/

/-- The field `write_hex_to_log` writes for one payload byte. -/
def hexField (b : Nat) : List Nat := snprintf 3 (fmt_02x (charToUnsigned b))

/-- The index prefix `write_hex_to_log` writes at the start of a line. -/
def linePrefix (bytes : Int) : List Nat := snprintf 10 (fmt_08d bytes ++ [32])

/-- The fields of the bytes of one line, separated by single spaces. -/
def fieldsText : List Nat → List Nat
  | [] => []
  | [b] => hexField b
  | b :: b' :: rest => hexField b ++ [32] ++ fieldsText (b' :: rest)

/-- Positional writes that follow one another without gap or overlap from `off`. -/
def contiguousFrom : Int → List (Int × List Nat) → Prop
  | _, [] => True
  | off, p :: rest => p.1 = off ∧ contiguousFrom (off + (p.2.length : Int)) rest

/-- The bytes of a list of writes, in order. -/
def writtenBytes (ws : List (Int × List Nat)) : List Nat := (ws.map Prod.snd).flatten

/-- The step from `w` to `w1` changed nothing but the log file, by successful positional
writes that are contiguous from `off` and spell `text`. -/
def Wrote (w w1 : World) (off : Int) (text : List Nat) : Prop :=
  ∃ ws, w1 = { w with log := w.log ++ ws } ∧ contiguousFrom off ws ∧ writtenBytes ws = text


/-- One line of the dump as `write_hex_to_log` lays it out for line `i` of a chunk whose
first byte has running index `b0`. -/
def lineAt (b0 : Int) (content : List Nat) (i : Nat) : List Nat :=
  linePrefix (b0 + 20 * (i : Int)) ++ fieldsText ((content.drop (20 * i)).take 20) ++ [10]

/-- The text of the dump of a whole chunk: its lines `0 .. ceil(n/20) - 1` in order. -/
def dumpText (b0 : Int) (content : List Nat) : List Nat :=
  ((List.range ((content.length + 19) / 20)).map (lineAt b0 content)).flatten


/-- Line `i` of the hex dump of a chunk in the words of the specification: the running index
of the first byte of the line as 8 zero-padded decimal digits, a space, the fields of the
bytes `20 i` up to `min (20 i + 20) n` of the chunk separated by single spaces, a newline.
`first` is the number of payload bytes logged before the chunk. -/
def specLine (first : Nat) (chunk : List Nat) (i : Nat) : List Nat :=
  zeroPad 8 (dec (first + 20 * i)) ++ [32]
    ++ (List.intersperse [32] (((chunk.drop (20 * i)).take 20).map hexField)).flatten ++ [10]

/-- A call of one of the three functions that reserve log space. -/
inductive LogCall where
  | get (resource : List Nat)
  | put (resource : List Nat) (content_length : Int)
  | error (method resource : List Nat) (code : Int)
deriving DecidableEq, Repr

/-- The effect of a call on the process state. -/
def LogCall.run (w : World) : LogCall → World
  | LogCall.get resource => log_get w resource
  | LogCall.put resource content_length => (log_put w resource content_length).1
  | LogCall.error method resource code => log_error w method resource code

/-- The state after a sequence of calls, each one atomic in its read-then-add of the counter. -/
def runCalls : World → List LogCall → World
  | w, [] => w
  | w, call :: rest => runCalls (call.run w) rest

/-- The reservations of a sequence of calls: for each call the counter value it read and the
amount it added to the counter. -/
def reservations : World → List LogCall → List (Int × Int)
  | _, [] => []
  | w, call :: rest =>
    (w.log_offset, (call.run w).log_offset - w.log_offset) :: reservations (call.run w) rest

/-- Membership of a byte position in a reserved range `[start, start + size)`. -/
def inRange (r : Int × Int) (x : Int) : Prop := r.1 ≤ x ∧ x < r.1 + r.2

/-- The ranges are pairwise disjoint and their union is `[first, final)`. -/
def Tiles (rs : List (Int × Int)) (first final : Int) : Prop :=
  rs.Pairwise (fun a b => ∀ x, ¬ (inRange a x ∧ inRange b x)) ∧
    ∀ x, (first ≤ x ∧ x < final) ↔ ∃ r ∈ rs, inRange r x

/-- What is observed after a connection was handled: the bytes of the log file and the bytes
sent to the client. -/
def Outcome.observe : Outcome → Option (List (Option Nat) × List Nat)
  | Outcome.done w c => some (logContent w.log, c.sent)
  | Outcome.crash => none
  | Outcome.out_of_fuel => none

/-- A connection on which the request head arrives in a first segment and the payload in the
segments that follow. -/
def requestConn (head : List Nat) (payload : List (List Nat)) : Conn :=
  { incoming := Recv.data head :: payload.map Recv.data, sent := [], closed := false }

/-- No token of the list is one of the method names `GET` and `PUT`. -/
def noMethod (toks : List (List Nat)) : Prop := ∀ t ∈ toks, t ≠ str "GET" ∧ t ≠ str "PUT"

/-- No token of the list is the header name `Content-Length:`. -/
def noLength (toks : List (List Nat)) : Prop := ∀ t ∈ toks, t ≠ str "Content-Length:"

instance (toks : List (List Nat)) : Decidable (noMethod toks) :=
  inferInstanceAs (Decidable (∀ t ∈ toks, t ≠ str "GET" ∧ t ≠ str "PUT"))

instance (toks : List (List Nat)) : Decidable (noLength toks) :=
  inferInstanceAs (Decidable (∀ t ∈ toks, t ≠ str "Content-Length:"))

/-- The number of bytes still to arrive on a connection. -/
def pendingBytes : List Recv → Nat
  | [] => 0
  | Recv.data bs :: rest => bs.length + pendingBytes rest
  | Recv.error :: rest => pendingBytes rest

/-- The process state at the end of a receive loop. -/
def LoopEnd.world : LoopEnd → World
  | LoopEnd.aborted w _ => w
  | LoopEnd.finished w _ _ => w

/-- The connection at the end of a receive loop. -/
def LoopEnd.conn : LoopEnd → Conn
  | LoopEnd.aborted _ c => c
  | LoopEnd.finished _ c _ => c

/-- The results of the successive calls `read(fd, buf, BUF_SIZE)` on a connection, up to and
including the first one that returns fewer than `BUF_SIZE` bytes, with the connection as that
read leaves it; `none` when a read fails before, or when the fuel runs out. -/
def readsUntilShort : Nat → Conn → Option (List (List Nat) × Conn)
  | 0, _ => none
  | fuel + 1, c =>
    match c.read BUF_SIZE with
    | (_, none) => none
    | (c1, some buf) =>
      if buf.length = BUF_SIZE then
        match readsUntilShort fuel c1 with
        | none => none
        | some r => some (buf :: r.1, r.2)
      else some ([buf], c1)

/-- A status response in the words of the specification: the status line
`HTTP/1.1 <code> <reason>`, the header `Content-Length: <n>` where `n` is the length of
the body plus 2, a blank line, the body and a CRLF. -/
def statusReply (code : Nat) (reason body : List Nat) : List Nat :=
  str "HTTP/1.1 " ++ dec code ++ str " " ++ reason ++ str "\r\n"
    ++ str "Content-Length: " ++ dec (body.length + 2) ++ str "\r\n"
    ++ str "\r\n" ++ body ++ str "\r\n"

/-- The nodes reached from the block `a` are allocated, hold the descriptors of the list in
order, are linked towards higher blocks, and end with a NULL `next` at the block `l`. -/
def Chain (heap : List Cell) : Nat → List Int → Nat → Prop
  | _, [], _ => False
  | a, [x], l => heap[a]? = some (Cell.live { fd := x, next := none }) ∧ l = a
  | a, x :: y :: rest, l =>
    ∃ b, heap[a]? = some (Cell.live { fd := x, next := some b }) ∧ a < b ∧
      Chain heap b (y :: rest) l

/-- The queue holds the descriptors of the list, oldest first: `first` and `last` are NULL
for the empty list, and otherwise delimit the chain of its nodes. -/
def Represents (q : Queue) : List Int → Prop
  | [] => q.first = none ∧ q.last = none
  | x :: rest => ∃ a l, q.first = some a ∧ q.last = some l ∧ Chain q.heap a (x :: rest) l

/-- The owner thread and the worker threads around the queue: what `main` still has to
enqueue, which workers are still in their loop, and the connections handed to the request
handling so far, in order. -/
structure Pool where
  queue : Queue
  owner : List Int
  running : List Bool
  served : List Int

/-- The pool when `main` starts to enqueue: the accepted connections, then one value -2 per
worker. -/
def Pool.start (accepted : List Int) (workers : Nat) : Pool :=
  { queue := new_queue, owner := accepted ++ List.replicate workers (-2),
    running := List.replicate workers true, served := [] }

/-- One step of the pool, each under the queue lock: `main` enqueues its next value, or a
worker still in its loop dequeues and either leaves the loop on -2 or takes the
connection. A worker that finds the queue empty waits and makes no step. -/
inductive Pool.Step (r : FreedRead) : Pool → Pool → Prop
  | enqueue (p : Pool) (v : Int) (rest : List Int) (q1 : Queue) :
      p.owner = v :: rest → enqueue p.queue v = some q1 →
      Pool.Step r p { p with queue := q1, owner := rest }
  | exit (p : Pool) (i : Nat) (q1 : Queue) :
      p.running[i]? = some true → accept_job_dequeue r p.queue = Turn.exit q1 →
      Pool.Step r p { p with queue := q1, running := p.running.set i false }
  | serve (p : Pool) (i : Nat) (q1 : Queue) (fd : Int) :
      p.running[i]? = some true → accept_job_dequeue r p.queue = Turn.serve q1 fd →
      Pool.Step r p { p with queue := q1, served := p.served ++ [fd] }

/-- The invariant of the pool: before any worker has left, what was served, what the queue
holds and what `main` still has to enqueue make up the accepted connections followed by the
values -2; afterwards all accepted connections were served and only values -2 remain. -/
def Pool.Inv (accepted : List Int) (workers : Nat) (p : Pool) : Prop :=
  p.running.length = workers ∧ (∀ s ∈ p.served, s ≠ -2) ∧
    ∃ xs, Represents p.queue xs ∧
      ((p.running.count false = 0 ∧
          p.served ++ xs ++ p.owner = accepted ++ List.replicate workers (-2)) ∨
        (p.served = accepted ∧
          List.replicate (p.running.count false) (-2) ++ xs ++ p.owner
            = List.replicate workers (-2)))

/-- The step from `w` to `w1` appended to the log file successful positional writes that are
contiguous from `off` and spell `text`; other parts of the state may have changed. -/
def Logged (w w1 : World) (off : Int) (text : List Nat) : Prop :=
  ∃ ws, w1.log = w.log ++ ws ∧ contiguousFrom off ws ∧ writtenBytes ws = text

/-- The number of decimal digits of a content length. -/
def digits (N : Nat) : Nat := Nat.log 10 N + 1

/-- The size of a PUT record in the words of the specification: the header line of
40 + digits(N) bytes, 69 bytes for each full line of 20 payload bytes, 9 + 3 r bytes for a
last line of r > 0 bytes, and the footer of 9 bytes. -/
def specRecordSize (N : Nat) : Nat :=
  40 + digits N + 69 * (N / 20) + (if N % 20 > 0 then 9 + 3 * (N % 20) else 0) + 9

/-- The text of a PUT record in the words of the specification: the header line, the dump of
the whole payload in lines of 20 bytes indexed from 0, and the footer. -/
def specPutRecord (name payload : List Nat) : List Nat :=
  str "PUT " ++ name ++ str " length " ++ dec payload.length ++ str "\n"
    ++ dumpText 0 payload ++ str "========\n"

/-- The segments in which a payload arrives are such that every `read` of the known-length
loop returns as many bytes as it asks for: each segment but the last is a positive multiple
of the buffer size. -/
def fullReads (segs : List (List Nat)) : Prop :=
  ∀ s ∈ segs.dropLast, s ≠ [] ∧ s.length % BUF_SIZE = 0

/-! ## Positional writes and the hex dump -/

theorem contiguousFrom_append (off : Int) (xs ys : List (Int × List Nat)) :
    contiguousFrom off (xs ++ ys) ↔
      contiguousFrom off xs ∧ contiguousFrom (off + ((writtenBytes xs).length : Int)) ys := by
  induction xs generalizing off with
  | nil => simp [contiguousFrom, writtenBytes]
  | cons p rest ih =>
    have h := ih (off + (p.2.length : Int))
    simp only [writtenBytes] at h ⊢
    simp [contiguousFrom, h, and_assoc, add_assoc]

theorem writtenBytes_append (xs ys : List (Int × List Nat)) :
    writtenBytes (xs ++ ys) = writtenBytes xs ++ writtenBytes ys := by
  simp [writtenBytes]

theorem Wrote.refl (w : World) (off : Int) : Wrote w w off [] :=
  ⟨[], by simp, trivial, rfl⟩

theorem Wrote.trans {w w1 w2 : World} {off : Int} {t1 t2 : List Nat}
    (h1 : Wrote w w1 off t1) (h2 : Wrote w1 w2 (off + (t1.length : Int)) t2) :
    Wrote w w2 off (t1 ++ t2) := by
  obtain ⟨xs, rfl, hc1, rfl⟩ := h1
  obtain ⟨ys, rfl, hc2, rfl⟩ := h2
  refine ⟨xs ++ ys, by simp, ?_, writtenBytes_append xs ys⟩
  exact (contiguousFrom_append off xs ys).2 ⟨hc1, hc2⟩

theorem pwrite_of_nonneg (w : World) (buf : List Nat) {off : Int} (h : 0 ≤ off) :
    pwrite w buf off = ({ w with log := w.log ++ [(off, buf)] }, (buf.length : Int)) := by
  simp [pwrite, not_lt.2 h]

theorem Wrote.pwrite (w : World) (buf : List Nat) {off : Int} (h : 0 ≤ off) :
    Wrote w (pwrite w buf off).1 off buf := by
  rw [pwrite_of_nonneg w buf h]
  exact ⟨[(off, buf)], rfl, ⟨rfl, trivial⟩, by simp [writtenBytes]⟩

theorem zeroPad_length (width : Nat) (ds : List Nat) :
    (zeroPad width ds).length = max width ds.length := by
  simp only [zeroPad, List.length_append, List.length_replicate]
  omega

theorem hexField_length (b : Nat) : (hexField b).length = 2 := by
  simp only [hexField, snprintf, fmt_02x, List.length_take, zeroPad_length]
  omega

theorem linePrefix_length (bytes : Int) : (linePrefix bytes).length = 9 := by
  simp only [linePrefix, snprintf, fmt_08d, List.length_take]
  split <;> simp only [List.length_append, List.length_cons, zeroPad_length, List.length_nil] <;> omega

theorem pwrite_snd (w : World) (buf : List Nat) {off : Int} (h : 0 ≤ off) :
    (pwrite w buf off).2 = (buf.length : Int) := by
  rw [pwrite_of_nonneg w buf h]

theorem fieldsText_cons (b : Nat) (l : List Nat) :
    fieldsText (b :: l) = hexField b ++ (if l = [] then [] else 32 :: fieldsText l) := by
  cases l <;> simp [fieldsText]

theorem drop_eq_getD_cons (content : List Nat) (c : Nat) (h : c < content.length) :
    content.drop c = content.getD c 0 :: content.drop (c + 1) := by
  rw [List.getD_eq_getElem _ _ h]
  exact List.drop_eq_getElem_cons h

theorem hexBytes_spec (content : List Nat) (upto : Int) :
    ∀ (k : Nat) (j : Int) (s : HexState), j + (k : Int) = upto → 0 ≤ s.new_offset →
      s.char_cur + k ≤ content.length →
      Wrote s.w (hexBytes content upto k j s).w s.new_offset
          (fieldsText ((content.drop s.char_cur).take k)) ∧
        (hexBytes content upto k j s).new_offset = s.new_offset +
          ((fieldsText ((content.drop s.char_cur).take k)).length : Int) ∧
        (hexBytes content upto k j s).bytes = s.bytes ∧
        (hexBytes content upto k j s).char_cur = s.char_cur + k := by
  intro k
  induction k with
  | zero =>
    intro j s _ _ _
    simp only [hexBytes, List.take_zero, fieldsText, List.length_nil]
    exact ⟨Wrote.refl _ _, by simp, by trivial, by trivial⟩
  | succ k ih =>
    intro j s hj hoff hlen
    have hc : s.char_cur < content.length := by omega
    rw [drop_eq_getD_cons content s.char_cur hc, List.take_succ_cons, fieldsText_cons]
    simp only [hexBytes]
    generalize content.getD s.char_cur 0 = b
    have hfield : snprintf 3 (fmt_02x (charToUnsigned b)) = hexField b := rfl
    have hl := hexField_length b
    have e2 : (pwrite s.w (hexField b) s.new_offset).2 = 2 := by
      rw [pwrite_snd _ _ hoff, hl]; rfl
    have hw := Wrote.pwrite s.w (hexField b) hoff
    have hsp := Wrote.pwrite (pwrite s.w (hexField b) s.new_offset).1 [32]
      (show (0 : Int) ≤ s.new_offset + 2 by omega)
    simp only [hfield, e2]
    generalize (pwrite s.w (hexField b) s.new_offset).1 = w1 at hw hsp ⊢
    generalize (pwrite w1 [32] (s.new_offset + 2)).1 = w2 at hsp ⊢
    by_cases hk : k = 0
    · subst hk
      have hnot : ¬ (j < upto - 1) := by omega
      simp only [hnot, if_false, hexBytes, List.take_zero, if_true, List.append_nil]
      exact ⟨hw, by rw [hl]; trivial, by trivial, by trivial⟩
    · have hlt : j < upto - 1 := by omega
      have hne : (content.drop (s.char_cur + 1)).take k ≠ [] := by
        intro h
        have := congrArg List.length h
        simp at this
        omega
      simp only [hlt, if_true, hne, if_false]
      obtain ⟨h1, h2, h3, h4⟩ := ih (j + 1)
        { s with w := w2, char_cur := s.char_cur + 1, new_offset := s.new_offset + 2 + 1 }
        (by push_cast at hj ⊢; omega) (by simp only; omega) (by simp only; omega)
      simp only at h1 h2 h3 h4
      refine ⟨?_, ?_, h3, ?_⟩
      · have hh : Wrote s.w w2 s.new_offset (hexField b ++ [32]) :=
          Wrote.trans hw (by rw [hl]; exact hsp)
        have e3 : s.new_offset + ((hexField b ++ [32]).length : Int) = s.new_offset + 2 + 1 := by
          simp only [List.length_append, hl, List.length_singleton]; push_cast; omega
        have := Wrote.trans hh (by rw [e3]; exact h1)
        rw [List.append_assoc] at this
        exact this
      · rw [h2]; simp [hl]; omega
      · rw [h4]; omega
theorem lines_eq (n : Nat) :
    (if Int.tmod (n : Int) 20 > 0 then Int.tdiv (n : Int) 20 + 1 else Int.tdiv (n : Int) 20)
      = (((n + 19) / 20 : Nat) : Int) := by
  rw [Int.tmod_eq_emod (by omega) (by omega), Int.tdiv_eq_ediv (by omega) (by omega)]
  split <;> omega

theorem hexLines_spec (content : List Nat) (b0 : Int) :
    ∀ (k i : Nat) (s : HexState), i + k = (content.length + 19) / 20 →
      (k ≠ 0 → s.char_cur = 20 * i) → s.bytes = b0 + 20 * (i : Int) → 0 ≤ s.new_offset →
      Wrote s.w
          (hexLines content (content.length : Int) (((content.length + 19) / 20 : Nat) : Int)
            k (i : Int) s).w
          s.new_offset (((List.range' i k).map (lineAt b0 content)).flatten) ∧
        (hexLines content (content.length : Int) (((content.length + 19) / 20 : Nat) : Int)
            k (i : Int) s).new_offset
          = s.new_offset + ((((List.range' i k).map (lineAt b0 content)).flatten).length : Int) := by
  intro k
  induction k with
  | zero =>
    intro i s _ _ _ _
    simp only [hexLines, List.range'_zero, List.map_nil, List.flatten_nil, List.length_nil]
    exact ⟨Wrote.refl _ _, by simp⟩
  | succ k ih =>
    intro i s hik hcur hbytes hoff
    replace hcur := hcur (Nat.succ_ne_zero k)
    simp only [hexLines, List.range'_succ, List.map_cons, List.flatten_cons]
    have hpre : snprintf 10 (fmt_08d s.bytes ++ [32]) = linePrefix (b0 + 20 * (i : Int)) := by
      rw [hbytes]; rfl
    have hpl := linePrefix_length (b0 + 20 * (i : Int))
    have e1 : (pwrite s.w (linePrefix (b0 + 20 * (i : Int))) s.new_offset).2 = 9 := by
      rw [pwrite_snd _ _ hoff, hpl]; rfl
    have hw1 := Wrote.pwrite s.w (linePrefix (b0 + 20 * (i : Int))) hoff
    simp only [hpre, e1]
    generalize (pwrite s.w (linePrefix (b0 + 20 * (i : Int))) s.new_offset).1 = w1 at hw1 ⊢
    -- the number of bytes on this line
    generalize hu : (if (i : Int) = (((content.length + 19) / 20 : Nat) : Int) - 1
        then (content.length : Int) - 20 * (i : Int) else 20) = upto
    have hupto : 1 ≤ upto ∧ upto ≤ 20 ∧ 20 * (i : Int) + upto ≤ content.length ∧
        (upto < 20 → 20 * (i : Int) + upto = content.length) ∧ (k ≠ 0 → upto = 20) := by
      rw [← hu]; split <;> omega
    obtain ⟨u, rfl⟩ : ∃ u : Nat, upto = (u : Int) := ⟨upto.toNat, by omega⟩
    have htake : (content.drop (20 * i)).take u = (content.drop (20 * i)).take 20 := by
      by_cases h20 : u = 20
      · rw [h20]
      · have hlen : (content.drop (20 * i)).length ≤ u := by
          simp only [List.length_drop]; omega
        rw [List.take_of_length_le hlen, List.take_of_length_le (by omega)]
    obtain ⟨h1, h2, h3, h4⟩ := hexBytes_spec content (u : Int) u 0
      { s with w := w1, new_offset := s.new_offset + 9 } (by simp) (by simp only; omega)
      (by simp only; omega)
    simp only [Int.toNat_ofNat]
    simp only at h1 h2 h3 h4
    generalize hexBytes content (u : Int) u 0
      { s with w := w1, new_offset := s.new_offset + 9 } = s2 at h1 h2 h3 h4 ⊢
    simp only [hcur, htake] at h1 h2 h4
    have hoff2 : 0 ≤ s2.new_offset := by rw [h2]; omega
    have hw3 := Wrote.pwrite s2.w [10] hoff2
    generalize (pwrite s2.w [10] s2.new_offset).1 = w3 at hw3 ⊢
    obtain ⟨g1, g2⟩ := ih (i + 1)
      { s2 with bytes := s2.bytes + 20, w := w3, new_offset := s2.new_offset + 1 }
      (by omega) (by simp only; intro hk; have := hupto.2.2.2.2 hk; omega) (by simp only; rw [h3, hbytes]; push_cast; omega)
      (by simp only; omega)
    simp only at g1 g2
    have hline : Wrote s.w w3 s.new_offset (lineAt b0 content i) := by
      have ha := Wrote.trans hw1 (by rw [hpl]; exact h1)
      have hlen1 : s.new_offset + ((linePrefix (b0 + 20 * (i : Int)) ++
          fieldsText ((content.drop (20 * i)).take 20)).length : Int) = s2.new_offset := by
        rw [h2, List.length_append, hpl]; push_cast; omega
      have hw3a : Wrote s2.w w3 (s.new_offset + ((linePrefix (b0 + 20 * (i : Int)) ++
          fieldsText ((content.drop (20 * i)).take 20)).length : Int)) [10] := by
        rw [hlen1]; exact hw3
      exact Wrote.trans ha hw3a
    have hlen : s.new_offset + ((lineAt b0 content i).length : Int) = s2.new_offset + 1 := by
      rw [h2]; simp only [lineAt, List.length_append, hpl, List.length_singleton]; push_cast; omega
    refine ⟨Wrote.trans hline (by rw [hlen]; exact_mod_cast g1), ?_⟩
    have g2' := g2
    push_cast at g2' ⊢
    rw [g2', List.length_append]
    push_cast
    omega

theorem write_hex_to_log_wrote (w : World) (chunk : List Nat) (t offset : Int)
    (hfd : 0 ≤ w.log_fd) (hoff : 0 ≤ offset) :
    Wrote w (write_hex_to_log w (chunk.length : Int) t offset chunk).1 offset
        (dumpText (t - (chunk.length : Int)) chunk) ∧
      (write_hex_to_log w (chunk.length : Int) t offset chunk).2
        = offset + ((dumpText (t - (chunk.length : Int)) chunk).length : Int) := by
  have h := hexLines_spec chunk (t - (chunk.length : Int)) ((chunk.length + 19) / 20) 0
    { w := w, bytes := t - (chunk.length : Int), char_cur := 0, new_offset := offset }
    (by omega) (by intro _; rfl) (by simp) hoff
  simp only [write_hex_to_log, not_lt.2 hfd, if_false, lines_eq, Int.toNat_ofNat, dumpText,
    List.range_eq_range']
  exact_mod_cast h

/-! ### Decimal digits -/

theorem decAux_length_le (k : Nat) : ∀ (fuel n : Nat) (acc : List Nat), n < 10 ^ (k + 1) →
    (decAux fuel n acc).length ≤ acc.length + k + 1 := by
  induction k with
  | zero =>
    intro fuel n acc h
    cases fuel with
    | zero => simp [decAux]
    | succ f =>
      have h10 : n < 10 := by simpa using h
      simp [decAux, h10]
  | succ k ih =>
    intro fuel n acc h
    cases fuel with
    | zero => simp only [decAux]; omega
    | succ f =>
      simp only [decAux]
      split
      · simp only [List.length_cons]; omega
      · have hdiv : n / 10 < 10 ^ (k + 1) := by
          rw [Nat.div_lt_iff_lt_mul (by omega)]
          calc n < 10 ^ (k + 1 + 1) := h
            _ = 10 ^ (k + 1) * 10 := by rw [pow_succ]
        have := ih f (n / 10) ((48 + n % 10) :: acc) hdiv
        simp only [List.length_cons] at this
        omega

theorem decAux_length_ge_acc : ∀ (fuel n : Nat) (acc : List Nat),
    acc.length ≤ (decAux fuel n acc).length := by
  intro fuel
  induction fuel with
  | zero => intro n acc; simp [decAux]
  | succ f ih =>
    intro n acc
    simp only [decAux]
    split
    · simp
    · have := ih (n / 10) ((48 + n % 10) :: acc)
      simp only [List.length_cons] at this
      omega

theorem decAux_length_ge (k : Nat) : ∀ (fuel n : Nat) (acc : List Nat), 10 ^ k ≤ n → k < fuel →
    acc.length + k + 1 ≤ (decAux fuel n acc).length := by
  induction k with
  | zero =>
    intro fuel n acc _ hf
    obtain ⟨f, rfl⟩ : ∃ f, fuel = f + 1 := ⟨fuel - 1, by omega⟩
    simp only [decAux]
    split
    · simp
    · have := decAux_length_ge_acc f (n / 10) ((48 + n % 10) :: acc)
      simp only [List.length_cons] at this
      omega
  | succ k ih =>
    intro fuel n acc h hf
    obtain ⟨f, rfl⟩ : ∃ f, fuel = f + 1 := ⟨fuel - 1, by omega⟩
    have h10 : ¬ n < 10 := by
      have : 10 ^ 1 ≤ 10 ^ (k + 1) := Nat.pow_le_pow_right (by omega) (by omega)
      omega
    simp only [decAux, h10, if_false]
    have hdiv : 10 ^ k ≤ n / 10 := by
      rw [Nat.le_div_iff_mul_le (by omega)]
      calc 10 ^ k * 10 = 10 ^ (k + 1) := by rw [pow_succ]
        _ ≤ n := h
    have := ih f (n / 10) ((48 + n % 10) :: acc) hdiv (by omega)
    simp only [List.length_cons] at this
    omega

theorem dec_length_le (k n : Nat) (h : n < 10 ^ (k + 1)) : (dec n).length ≤ k + 1 := by
  have := decAux_length_le k (n + 1) n [] h
  simpa [dec] using this

theorem dec_length_ge (k n : Nat) (h : 10 ^ k ≤ n) : k + 1 ≤ (dec n).length := by
  have hk : k < 10 ^ k := Nat.lt_pow_self (by omega) k
  have := decAux_length_ge k (n + 1) n [] h (by omega)
  simpa [dec] using this

theorem dec_length_eq (k n : Nat) (hlo : 10 ^ k ≤ n) (hhi : n < 10 ^ (k + 1)) :
    (dec n).length = k + 1 :=
  le_antisymm (dec_length_le k n hhi) (dec_length_ge k n hlo)

theorem dec_length_pos (n : Nat) : 1 ≤ (dec n).length := by
  simp only [dec, decAux]
  split
  · simp
  · have := decAux_length_ge_acc n (n / 10) [48 + n % 10]
    simp only [List.length_cons, List.length_nil] at this
    omega

theorem linePrefix_of_lt (idx : Nat) (h : idx < 10 ^ 8) :
    linePrefix (idx : Int) = zeroPad 8 (dec idx) ++ [32] := by
  have hl := dec_length_le 7 idx h
  have hz := zeroPad_length 8 (dec idx)
  simp only [linePrefix, snprintf, fmt_08d, Int.toNat_ofNat]
  rw [if_neg (by omega)]
  apply List.take_of_length_le
  simp only [List.length_append, hz, List.length_singleton]
  omega

theorem fieldsText_eq_intersperse (bs : List Nat) :
    fieldsText bs = (List.intersperse [32] (bs.map hexField)).flatten := by
  induction bs with
  | nil => simp [fieldsText]
  | cons b rest ih =>
    cases rest with
    | nil => simp [fieldsText]
    | cons b1 rest1 =>
      simp only [fieldsText, List.map_cons, List.intersperse_cons_cons, List.flatten_cons] at ih ⊢
      rw [ih]
      simp

theorem lineAt_eq_specLine (first : Nat) (chunk : List Nat) (i : Nat)
    (h : first + 20 * i < 10 ^ 8) :
    lineAt (first : Int) chunk i = specLine first chunk i := by
  have e : (first : Int) + 20 * (i : Int) = ((first + 20 * i : Nat) : Int) := by push_cast; rfl
  simp only [lineAt, specLine, e, linePrefix_of_lt _ h, fieldsText_eq_intersperse]

/-! ## C2: the lines of a hex-dump segment -/

/-- C2. For a chunk of `n ≥ 1` bytes with running total `t` (`n ≤ t < 10^8`),
`write_hex_to_log(n, t, offset, chunk)` with logging enabled writes, contiguously from
`offset`, exactly the `ceil(n/20)` lines of the specification: line `i` is the 8-digit
zero-padded decimal of `t - n + 20 i`, a space, the fields of the bytes `20 i` up to
`min (20 i + 20) n` separated by single spaces, and a newline. Every line but the last holds
20 bytes, the last holds the remainder, and the function returns `offset` plus the number of
bytes written. -/
theorem write_hex_to_log_lines (w : World) (chunk : List Nat) (t : Nat) (offset : Int)
    (hfd : 0 ≤ w.log_fd) (hoff : 0 ≤ offset) (hn : 1 ≤ chunk.length)
    (hnt : chunk.length ≤ t) (ht : t < 10 ^ 8) :
    Wrote w (write_hex_to_log w (chunk.length : Int) (t : Int) offset chunk).1 offset
        ((List.range ((chunk.length + 19) / 20)).map
          (specLine (t - chunk.length) chunk)).flatten ∧
      (write_hex_to_log w (chunk.length : Int) (t : Int) offset chunk).2
        = offset + ((((List.range ((chunk.length + 19) / 20)).map
            (specLine (t - chunk.length) chunk)).flatten).length : Int) ∧
      1 ≤ (chunk.length + 19) / 20 ∧
      (∀ i, i < (chunk.length + 19) / 20 →
        (zeroPad 8 (dec (t - chunk.length + 20 * i))).length = 8 ∧
        ((chunk.drop (20 * i)).take 20).length
          = if i + 1 < (chunk.length + 19) / 20 then 20 else chunk.length - 20 * i) := by
  have hsub : (t : Int) - (chunk.length : Int) = ((t - chunk.length : Nat) : Int) := by omega
  have hmap : (List.range ((chunk.length + 19) / 20)).map
        (lineAt ((t - chunk.length : Nat) : Int) chunk)
      = (List.range ((chunk.length + 19) / 20)).map (specLine (t - chunk.length) chunk) := by
    apply List.map_congr_left
    intro i hi
    rw [List.mem_range] at hi
    exact lineAt_eq_specLine _ _ _ (by omega)
  have h := write_hex_to_log_wrote w chunk (t : Int) offset hfd hoff
  rw [hsub] at h
  simp only [dumpText, hmap] at h
  refine ⟨h.1, h.2, by omega, ?_⟩
  intro i hi
  constructor
  · have := dec_length_le 7 (t - chunk.length + 20 * i) (by omega)
    rw [zeroPad_length]
    omega
  · simp only [List.length_take, List.length_drop]
    split <;> omega

/-- Witness of C2: the chunk `ABCDE` with running total 5 gives the single line
`00000000 41 42 43 44 45`. -/
theorem write_hex_to_log_lines_witness :
    Wrote (World.init 3 [] true)
        (write_hex_to_log (World.init 3 [] true) 5 5 0 (str "ABCDE")).1 0
        (str "00000000 41 42 43 44 45\n") ∧
      (write_hex_to_log (World.init 3 [] true) 5 5 0 (str "ABCDE")).2 = 24 := by
  have h := write_hex_to_log_lines (World.init 3 [] true) (str "ABCDE") 5 0
    (by decide) (by decide) (by decide) (by decide) (by decide)
  have e : ((List.range (((str "ABCDE").length + 19) / 20)).map
      (specLine (5 - (str "ABCDE").length) (str "ABCDE"))).flatten
      = str "00000000 41 42 43 44 45\n" := by decide
  rw [e] at h
  exact ⟨h.1, h.2.1⟩

/-! ## C3: the field of one payload byte -/

theorem hexField_of_lt_128 (b : Nat) (h : b < 128) :
    hexField b = [hexDigit (b / 16), hexDigit (b % 16)] := by
  interval_cases b <;> rfl

theorem hexField_of_ge_128 (b : Nat) (h : 128 ≤ b) (h1 : b < 256) :
    hexField b = str "ff" := by
  interval_cases b <;> rfl

/-- C3 fails on the code: the byte 0x80 is written as the field `ff`, the same field as the
byte 0xff, so the dump of the one-byte payload 0x80 is the line `00000000 ff`. -/
theorem hexField_high_byte :
    hexField 0x80 = str "ff" ∧ hexField 0x80 = hexField 0xff ∧
      logContent (write_hex_to_log (World.init 3 [] true) 1 1 0 [0x80]).1.log
        = (str "00000000 ff\n").map some := by
  decide

/-! ## C6: GET records and error records -/

theorem wrap32_of_range (x : Int) (h1 : -2147483648 ≤ x) (h2 : x < 2147483648) :
    wrap32 x = x := by
  unfold wrap32
  omega

theorem bufBytes_of_length (count : Int) (text : List Nat) (h : (text.length : Int) = count) :
    bufBytes count text = text := by
  have h1 : count.toNat = text.length := by omega
  simp [bufBytes, h1]

theorem snprintf_of_length_lt (size : Nat) (text : List Nat) (h : text.length < size) :
    snprintf size text = text := by
  simp only [snprintf]
  exact List.take_of_length_le (by omega)

theorem str_length_GET : (str "GET").length = 3 := by decide

theorem str_length_PUT : (str "PUT").length = 3 := by decide

theorem log_get_eq (w : World) (name : List Nat) (hfd : 0 ≤ w.log_fd) (hoff : 0 ≤ w.log_offset)
    (hname : name.length = 27) :
    log_get w name = { w with
      log_offset := w.log_offset + 50,
      log := w.log ++ [(w.log_offset, str "GET " ++ name ++ str " length 0\n========\n")] } := by
  have hlen : (str "GET " ++ name ++ str " length 0\n========\n").length = 50 := by
    simp only [List.length_append, hname]; rfl
  have h50 : iadd 41 9 = 50 := by decide
  simp only [log_get, not_lt.2 hfd, if_false, h50]
  rw [snprintf_of_length_lt _ _ (by rw [hlen]; decide), bufBytes_of_length _ _ (by rw [hlen]; rfl),
    pwrite_of_nonneg _ _ hoff]

theorem log_error_eq (w : World) (method resource : List Nat) (code : Nat) (hfd : 0 ≤ w.log_fd)
    (hoff : 0 ≤ w.log_offset) (hmethod : method.length = 3)
    (hcode : 100 ≤ code ∧ code ≤ 999) :
    log_error w method resource (code : Int) = { w with
        log_offset := w.log_offset + (46 + (resource.length : Int)),
        log := w.log ++ [(w.log_offset, str "FAIL: " ++ method ++ str " " ++ resource
          ++ str " HTTP/1.1 --- response " ++ dec code ++ str "\n========\n")] } ∧
      (str "FAIL: " ++ method ++ str " " ++ resource
          ++ str " HTTP/1.1 --- response " ++ dec code ++ str "\n========\n").length
        = 46 + resource.length := by
  have hd : (dec code).length = 3 := dec_length_eq 2 code (by omega) (by omega)
  have hfmt : fmt_d (code : Int) = dec code := by
    simp [fmt_d]
  have hlen : (str "FAIL: " ++ method ++ str " " ++ resource
      ++ str " HTTP/1.1 --- response " ++ dec code ++ str "\n========\n").length
        = 46 + resource.length := by
    have e1 : (str "FAIL: ").length = 6 := by decide
    have e2 : (str " ").length = 1 := by decide
    have e3 : (str " HTTP/1.1 --- response ").length = 23 := by decide
    have e4 : (str "\n========\n").length = 10 := by decide
    simp only [List.length_append, hmethod, hd, e1, e2, e3, e4]
    omega
  refine ⟨?_, hlen⟩
  have hsz : (10 : Int) + (resource.length : Int) + 27 + 9 = 46 + (resource.length : Int) := by
    omega
  simp only [log_error, not_lt.2 hfd, if_false, hfmt, hsz]
  rw [snprintf_of_length_lt _ _ (by rw [hlen]; omega),
    bufBytes_of_length _ _ (by rw [hlen]; push_cast; rfl), pwrite_of_nonneg _ _ hoff]

theorem pwrite_log_offset (w : World) (buf : List Nat) (off : Int) :
    (pwrite w buf off).1.log_offset = w.log_offset := by
  unfold pwrite
  split <;> rfl

theorem log_get_log_offset (w : World) (resource : List Nat) :
    (log_get w resource).log_offset = if w.log_fd < 0 then w.log_offset else w.log_offset + 50 := by
  unfold log_get
  split
  · rfl
  · simp only [pwrite_log_offset]
    have h50 : iadd 41 9 = 50 := by decide
    rw [h50]

theorem log_error_log_offset (w : World) (method resource : List Nat) (code : Int) :
    (log_error w method resource code).log_offset
      = if w.log_fd < 0 then w.log_offset else w.log_offset + (46 + (resource.length : Int)) := by
  unfold log_error
  split
  · rfl
  · simp only [pwrite_log_offset]
    omega

theorem log_put_log_offset (w : World) (resource : List Nat) (content_length : Int) :
    (log_put w resource content_length).1.log_offset
      = if w.log_fd < 0 ∨ content_length < 0 then w.log_offset
        else w.log_offset + log_put_size content_length := by
  unfold log_put
  split
  · rfl
  · simp only [pwrite_log_offset]

/-- C6. With logging enabled, `log_get` for a 27-character name reserves exactly 50 bytes
(the counter advances by 50), the length of the text `GET <name> length 0`, newline,
`========`, newline, and writes exactly that text at the reserved start; `log_error` for
method GET or PUT, any resource string and a three-digit code reserves exactly 46 + length of
the resource, which is the length of the text
`FAIL: <method> <resource> HTTP/1.1 --- response <code>`, newline, `========`, newline, and
writes exactly that text at the reserved start. The writes are those of a reserved start
that is a file position (not negative). -/
theorem log_get_log_error_records (w : World) (name method resource : List Nat) (code : Nat)
    (hfd : 0 ≤ w.log_fd) (hname : name.length = 27)
    (hmethod : method = str "GET" ∨ method = str "PUT") (hcode : 100 ≤ code ∧ code ≤ 999) :
    ((log_get w name).log_offset = w.log_offset + 50 ∧
      (str "GET " ++ name ++ str " length 0\n========\n").length = 50 ∧
      (0 ≤ w.log_offset → log_get w name = { w with
        log_offset := w.log_offset + 50,
        log := w.log ++ [(w.log_offset, str "GET " ++ name ++ str " length 0\n========\n")] })) ∧
    ((log_error w method resource (code : Int)).log_offset
        = w.log_offset + (46 + (resource.length : Int)) ∧
      (str "FAIL: " ++ method ++ str " " ++ resource
          ++ str " HTTP/1.1 --- response " ++ dec code ++ str "\n========\n").length
        = 46 + resource.length ∧
      (0 ≤ w.log_offset → log_error w method resource (code : Int) = { w with
        log_offset := w.log_offset + (46 + (resource.length : Int)),
        log := w.log ++ [(w.log_offset, str "FAIL: " ++ method ++ str " " ++ resource
          ++ str " HTTP/1.1 --- response " ++ dec code ++ str "\n========\n")] })) := by
  have hm : method.length = 3 := by
    rcases hmethod with h | h <;> rw [h] <;> decide
  have hnfd : ¬ w.log_fd < 0 := not_lt.2 hfd
  refine ⟨⟨?_, ?_, fun hoff => log_get_eq w name hfd hoff hname⟩, ?_, ?_,
    fun hoff => (log_error_eq w method resource code hfd hoff hm hcode).1⟩
  · rw [log_get_log_offset, if_neg hnfd]
  · simp only [List.length_append, hname]
    rfl
  · rw [log_error_log_offset, if_neg hnfd]
  · have hd : (dec code).length = 3 := dec_length_eq 2 code (by omega) (by omega)
    have e1 : (str "FAIL: ").length = 6 := by decide
    have e2 : (str " ").length = 1 := by decide
    have e3 : (str " HTTP/1.1 --- response ").length = 23 := by decide
    have e4 : (str "\n========\n").length = 10 := by decide
    simp only [List.length_append, hm, hd, e1, e2, e3, e4]
    omega

/-- Witness of C6: on an empty log the GET record of the name of 27 letters `A` and the error
record of `GET /x` with code 400. -/
theorem log_get_log_error_records_witness :
    (log_get (World.init 3 [] true) (List.replicate 27 65)).log
        = [(0, str "GET AAAAAAAAAAAAAAAAAAAAAAAAAAA length 0\n========\n")] ∧
      (log_error (World.init 3 [] true) (str "GET") (str "/x") 400).log
        = [(0, str "FAIL: GET /x HTTP/1.1 --- response 400\n========\n")] ∧
      (log_error (World.init 3 [] true) (str "GET") (str "/x") 400).log_offset = 48 := by
  have h := log_get_log_error_records (World.init 3 [] true) (List.replicate 27 65) (str "GET")
    (str "/x") 400 (by decide) (by decide) (Or.inl rfl) (by decide)
  have hg := h.1.2.2 (by decide)
  have he := h.2.2.2 (by decide)
  simp only [Nat.cast_ofNat] at he
  refine ⟨?_, ?_, ?_⟩
  · rw [hg]; decide
  · rw [he]; decide
  · rw [he]; decide

/-! ## C5 and C4: the offset counter and the reserved ranges -/

theorem fmt_d_natCast (n : Nat) : fmt_d (n : Int) = dec n := by
  simp [fmt_d]

/-- The reservation of `log_put` where the 32-bit computation does not overflow. -/
theorem log_put_size_of_le (N : Nat) (h : N ≤ 622000000) :
    log_put_size (N : Int) = 40 + ((dec N).length : Int) + 69 * ((N / 20 : Nat) : Int)
      + (if N % 20 > 0 then 9 + 3 * ((N % 20 : Nat) : Int) else 0) + 9 := by
  have hd : (dec N).length ≤ 9 := dec_length_le 8 N (by omega)
  have hdiv : Int.tdiv (N : Int) 20 = ((N / 20 : Nat) : Int) := by
    rw [Int.tdiv_eq_ediv (by omega) (by omega)]; rfl
  have hmod : Int.tmod (N : Int) 20 = ((N % 20 : Nat) : Int) := by
    rw [Int.tmod_eq_emod (by omega) (by omega)]; rfl
  simp only [log_put_size, fmt_d_natCast, hdiv, hmod, iadd, imul]
  have hq : N / 20 ≤ 31100000 := by omega
  have hr : N % 20 < 20 := Nat.mod_lt _ (by omega)
  by_cases hp : N % 20 > 0
  · have hp1 : ((N % 20 : Nat) : Int) > 0 := by omega
    simp only [hp, hp1, if_true]
    rw [wrap32_of_range (39 + ((dec N).length : Int)) (by omega) (by omega),
      wrap32_of_range (39 + ((dec N).length : Int) + 1) (by omega) (by omega),
      wrap32_of_range (69 * ((N / 20 : Nat) : Int)) (by omega) (by omega),
      wrap32_of_range (((N % 20 : Nat) : Int) * 3) (by omega) (by omega),
      wrap32_of_range (9 + ((N % 20 : Nat) : Int) * 3) (by omega) (by omega),
      wrap32_of_range (39 + ((dec N).length : Int) + 1 + 69 * ((N / 20 : Nat) : Int))
        (by omega) (by omega),
      wrap32_of_range (39 + ((dec N).length : Int) + 1 + 69 * ((N / 20 : Nat) : Int)
        + (9 + ((N % 20 : Nat) : Int) * 3)) (by omega) (by omega),
      wrap32_of_range (39 + ((dec N).length : Int) + 1 + 69 * ((N / 20 : Nat) : Int)
        + (9 + ((N % 20 : Nat) : Int) * 3) + 9) (by omega) (by omega)]
    omega
  · have hp1 : ¬ ((N % 20 : Nat) : Int) > 0 := by omega
    simp only [hp, hp1, if_false]
    rw [wrap32_of_range (39 + ((dec N).length : Int)) (by omega) (by omega),
      wrap32_of_range (39 + ((dec N).length : Int) + 1) (by omega) (by omega),
      wrap32_of_range (69 * ((N / 20 : Nat) : Int)) (by omega) (by omega),
      wrap32_of_range (39 + ((dec N).length : Int) + 1 + 69 * ((N / 20 : Nat) : Int))
        (by omega) (by omega),
      wrap32_of_range (39 + ((dec N).length : Int) + 1 + 69 * ((N / 20 : Nat) : Int) + 0)
        (by omega) (by omega),
      wrap32_of_range (39 + ((dec N).length : Int) + 1 + 69 * ((N / 20 : Nat) : Int) + 0 + 9)
        (by omega) (by omega)]
    omega

theorem log_put_size_nonneg (N : Nat) (h : N ≤ 622000000) : 0 ≤ log_put_size (N : Int) := by
  rw [log_put_size_of_le N h]
  split <;> omega

/-- The counter never decreases in `log_get`, in `log_error`, nor in `log_put` for a content
length whose reservation is computed without overflow. -/
theorem log_offset_mono_of_le (w : World) (method resource : List Nat) (code : Int) (N : Nat)
    (h : N ≤ 622000000) :
    w.log_offset ≤ (log_get w resource).log_offset ∧
      w.log_offset ≤ (log_error w method resource code).log_offset ∧
      w.log_offset ≤ (log_put w resource (N : Int)).1.log_offset := by
  have hs := log_put_size_nonneg N h
  rw [log_get_log_offset, log_error_log_offset, log_put_log_offset]
  refine ⟨?_, ?_, ?_⟩ <;> split <;> omega

/-- C5 fails on the code: from counter 0, `log_put` for the content length 700000000 computes
`69 * 35000000` in 32-bit arithmetic, reserves -1879967238 bytes and leaves the counter
below its previous value. -/
theorem log_put_counter_decreases :
    log_put_size 700000000 = -1879967238 ∧
      (log_put (World.init 3 [] true) (List.replicate 27 65) 700000000).1.log_offset
        = -1879967238 ∧
      (log_put (World.init 3 [] true) (List.replicate 27 65) 700000000).1.log_offset
        < (World.init 3 [] true).log_offset := by
  decide

theorem reservations_ge (calls : List LogCall) : ∀ (w : World),
    (∀ r ∈ reservations w calls, 0 ≤ r.2) →
      w.log_offset ≤ (runCalls w calls).log_offset ∧
      ∀ r ∈ reservations w calls, w.log_offset ≤ r.1 ∧ r.1 + r.2 ≤ (runCalls w calls).log_offset := by
  induction calls with
  | nil => intro w _; simp [reservations, runCalls]
  | cons call rest ih =>
    intro w h
    simp only [reservations, List.mem_cons, forall_eq_or_imp] at h
    obtain ⟨h1, h2⟩ := ih (call.run w) h.2
    simp only [reservations, runCalls, List.mem_cons, forall_eq_or_imp]
    refine ⟨by omega, ⟨le_refl _, by omega⟩, ?_⟩
    intro r hr
    have := h2 r hr
    omega

/-- Reservations of non-negative size tile the range from the first counter value to the
last. -/
theorem reservations_tile (calls : List LogCall) : ∀ (w : World),
    (∀ r ∈ reservations w calls, 0 ≤ r.2) →
      Tiles (reservations w calls) w.log_offset (runCalls w calls).log_offset := by
  induction calls with
  | nil =>
    intro w _
    refine ⟨List.Pairwise.nil, ?_⟩
    intro x
    simp only [reservations, runCalls, List.not_mem_nil, false_and, exists_false, iff_false]
    omega
  | cons call rest ih =>
    intro w h
    simp only [reservations, List.mem_cons, forall_eq_or_imp] at h
    obtain ⟨hp, hu⟩ := ih (call.run w) h.2
    obtain ⟨hge, hall⟩ := reservations_ge rest (call.run w) h.2
    refine ⟨?_, ?_⟩
    · simp only [reservations, List.pairwise_cons]
      refine ⟨?_, hp⟩
      intro r hr x hx
      have := hall r hr
      simp only [inRange] at hx
      omega
    · intro x
      simp only [reservations, runCalls, List.mem_cons, exists_eq_or_imp]
      rw [← hu x]
      simp only [inRange]
      constructor
      · intro hx
        by_cases hlt : x < (call.run w).log_offset
        · left; omega
        · right; omega
      · rintro (hx | hx) <;> omega

/-- The reserved ranges tile the log when every `log_put` has a content length whose
reservation is computed without overflow. -/
theorem reservations_tile_of_small (calls : List LogCall) (w : World)
    (h : ∀ resource n, LogCall.put resource n ∈ calls → n ≤ 622000000) :
    Tiles (reservations w calls) w.log_offset (runCalls w calls).log_offset := by
  apply reservations_tile
  induction calls generalizing w with
  | nil => simp [reservations]
  | cons call rest ih =>
    simp only [reservations, List.mem_cons, forall_eq_or_imp]
    refine ⟨?_, ih _ (fun resource n hm => h resource n (List.mem_cons_of_mem _ hm))⟩
    cases call with
    | get resource =>
      simp only [LogCall.run, log_get_log_offset]
      split <;> omega
    | error method resource code =>
      simp only [LogCall.run, log_error_log_offset]
      split <;> omega
    | put resource n =>
      simp only [LogCall.run, log_put_log_offset]
      split
      · omega
      · rename_i hn
        have hn0 : 0 ≤ n := by
          by_contra hc
          exact hn (Or.inr (by omega))
        have hle := h resource n (List.mem_cons_self _ _)
        obtain ⟨N, rfl⟩ : ∃ N : Nat, n = (N : Int) := ⟨n.toNat, by omega⟩
        have := log_put_size_nonneg N (by omega)
        omega

/-- C4 fails on the code: from counter 0, the reservation of `log_put` for the content length
700000000 has the negative size -1879967238, so the reservation of the `log_get` that
follows starts at -1879967238, and the reserved ranges are not a tiling of the bytes from
0 to the final counter value. -/
theorem reservations_not_tiling_after_overflow :
    reservations (World.init 3 [] true)
        [LogCall.put (List.replicate 27 65) 700000000, LogCall.get (List.replicate 27 65)]
        = [(0, -1879967238), (-1879967238, 50)] ∧
      ¬ Tiles
        (reservations (World.init 3 [] true)
          [LogCall.put (List.replicate 27 65) 700000000, LogCall.get (List.replicate 27 65)])
        0
        (runCalls (World.init 3 [] true)
          [LogCall.put (List.replicate 27 65) 700000000,
            LogCall.get (List.replicate 27 65)]).log_offset := by
  have e : reservations (World.init 3 [] true)
        [LogCall.put (List.replicate 27 65) 700000000, LogCall.get (List.replicate 27 65)]
        = [(0, -1879967238), (-1879967238, 50)] := by decide
  refine ⟨e, ?_⟩
  rw [e]
  rintro ⟨_, hu⟩
  have h := (hu (-1879967238)).2 ⟨(-1879967238, 50), by simp, by simp [inRange]⟩
  omega

/-! ## C1 and C7: the PUT record -/

set_option maxRecDepth 100000 in
/-- C1 fails on the code: for a PUT with content length 2 whose two payload bytes arrive in
two reads, `log_put` reserves the 65 bytes from 0 to 65 (header 41, one dump line of two
bytes 15, footer 9), but the handler writes a dump line per read and so 74 bytes: the footer
is written at offset 65, past the end of the reservation, and the client receives 201. -/
theorem put_split_payload_overruns_reservation :
    log_put_size 2 = 65 ∧
      (put (World.init 3 [] true)
          { incoming := [Recv.data [65], Recv.data [66]], sent := [], closed := false }
          (List.replicate 27 65) 2 10).map (fun r => r.1.log_offset) = some 65 ∧
      (put (World.init 3 [] true)
          { incoming := [Recv.data [65], Recv.data [66]], sent := [], closed := false }
          (List.replicate 27 65) 2 10).map (fun r => r.1.log.getLast?)
        = some (some (65, str "========\n")) ∧
      (put (World.init 3 [] true)
          { incoming := [Recv.data [65], Recv.data [66]], sent := [], closed := false }
          (List.replicate 27 65) 2 10).map (fun r => logContent r.1.log)
        = some ((str ("PUT AAAAAAAAAAAAAAAAAAAAAAAAAAA length 2\n"
            ++ "00000000 41\n" ++ "00000001 42\n" ++ "========\n")).map some) ∧
      (str ("PUT AAAAAAAAAAAAAAAAAAAAAAAAAAA length 2\n"
            ++ "00000000 41\n" ++ "00000001 42\n" ++ "========\n")).length = 74 ∧
      (put (World.init 3 [] true)
          { incoming := [Recv.data [65], Recv.data [66]], sent := [], closed := false }
          (List.replicate 27 65) 2 10).map (fun r => r.2.sent.take 12)
        = some (str "HTTP/1.1 201") := by
  refine ⟨by decide, by decide, by decide, by decide, by decide, by decide⟩

set_option maxRecDepth 100000 in
/-- C7 fails on the code as stated: for the request line `PUT /AAA...A HTTP/1.1` the parser
hands the name with its slash (28 characters) to `put`, which rejects it: the log holds the
error record with code 400, not the PUT record, and the client receives 400. -/
theorem example_with_slash_rejected :
    (accept_job (World.init 3 [] true)
        (requestConn
          (str "PUT /AAAAAAAAAAAAAAAAAAAAAAAAAAA HTTP/1.1\r\nContent-Length: 5\r\n\r\n")
          [str "ABCDE"]) 10).observe
      = some ((str ("FAIL: PUT /AAAAAAAAAAAAAAAAAAAAAAAAAAA HTTP/1.1 --- response 400\n"
            ++ "========\n")).map some,
          str "HTTP/1.1 400 Bad Request\r\nContent-Length: 23\r\n\r\nInvalid resource name\r\n") ∧
      (accept_job (World.init 3 [] true)
        (requestConn
          (str "PUT /AAAAAAAAAAAAAAAAAAAAAAAAAAA HTTP/1.1\r\nContent-Length: 5\r\n\r\n")
          [str "ABCDE"]) 10).observe
      ≠ some ((str ("PUT AAAAAAAAAAAAAAAAAAAAAAAAAAA length 5\n"
            ++ "00000000 41 42 43 44 45\n" ++ "========\n")).map some,
          str "HTTP/1.1 201 Created\r\nContent-Length: 29\r\n\r\nAAAAAAAAAAAAAAAAAAAAAAAAAAA\r\n") := by
  decide

set_option maxRecDepth 100000 in
/-- C7 as amended: when the request line names the resource without a slash (`PUT`, a space,
27 letters `A`), with header `Content-Length: 5` and the body `ABCDE` in the following read,
on an empty log, the log afterwards holds exactly the 74 bytes of the PUT header line, the
hex line `00000000 41 42 43 44 45` and the separator, and the client receives 201. -/
theorem example_without_slash_logged :
    (accept_job (World.init 3 [] true)
        (requestConn
          (str "PUT AAAAAAAAAAAAAAAAAAAAAAAAAAA HTTP/1.1\r\nContent-Length: 5\r\n\r\n")
          [str "ABCDE"]) 10).observe
      = some ((str ("PUT AAAAAAAAAAAAAAAAAAAAAAAAAAA length 5\n"
            ++ "00000000 41 42 43 44 45\n" ++ "========\n")).map some,
          str "HTTP/1.1 201 Created\r\nContent-Length: 29\r\n\r\nAAAAAAAAAAAAAAAAAAAAAAAAAAA\r\n") ∧
      (str ("PUT AAAAAAAAAAAAAAAAAAAAAAAAAAA length 5\n"
            ++ "00000000 41 42 43 44 45\n" ++ "========\n")).length = 74 := by
  decide

/-! ## C9: names that `valid_filename` rejects -/

theorem nameChar_iff (ch : Nat) :
    nameChar ch = true ↔
      ((97 ≤ ch ∧ ch ≤ 122) ∨ (65 ≤ ch ∧ ch ≤ 90) ∨ (48 ≤ ch ∧ ch ≤ 57) ∨ ch = 95 ∨ ch = 45) := by
  simp only [nameChar, Bool.or_eq_true, Bool.and_eq_true, decide_eq_true_eq, beq_iff_eq]
  tauto

theorem valid_filename_iff (name : List Nat) :
    valid_filename name = true ↔
      (name.length = 27 ∧ ∀ ch ∈ name,
        (97 ≤ ch ∧ ch ≤ 122) ∨ (65 ≤ ch ∧ ch ≤ 90) ∨ (48 ≤ ch ∧ ch ≤ 57) ∨ ch = 95 ∨ ch = 45) := by
  unfold valid_filename regexec_name
  by_cases hlen : name.length = 27
  · have hne : name.isEmpty = false := by
      cases name with
      | nil => simp at hlen
      | cons _ _ => rfl
    simp only [hlen, ne_eq, not_true_eq_false, if_false, hne, Bool.not_false, Bool.true_and,
      true_and]
    by_cases hall : name.all nameChar = true
    · simp only [hall, if_true, true_iff]
      intro ch hch
      exact (nameChar_iff ch).1 (List.all_eq_true.1 hall ch hch)
    · simp only [hall, if_false, Bool.false_eq_true, false_iff]
      intro h
      exact hall (List.all_eq_true.2 (fun ch hch => (nameChar_iff ch).2 (h ch hch)))
  · simp [hlen]

theorem pwrite_files (w : World) (buf : List Nat) (off : Int) :
    (pwrite w buf off).1.files = w.files ∧ (pwrite w buf off).1.creatable = w.creatable ∧
      (pwrite w buf off).1.log_fd = w.log_fd := by
  unfold pwrite
  split <;> exact ⟨rfl, rfl, rfl⟩

theorem log_error_files (w : World) (method resource : List Nat) (code : Int) :
    (log_error w method resource code).files = w.files ∧
      (log_error w method resource code).creatable = w.creatable := by
  unfold log_error
  split
  · exact ⟨rfl, rfl⟩
  · exact ⟨(pwrite_files _ _ _).1, (pwrite_files _ _ _).2.1⟩

theorem log_error_with_files (w : World) (method resource : List Nat) (code : Int)
    (files : List (List Nat × File)) (creatable : Bool) :
    log_error { w with files := files, creatable := creatable } method resource code
      = { log_error w method resource code with files := files, creatable := creatable } := by
  unfold log_error pwrite
  split
  · rfl
  · simp only
    split <;> rfl

/-- C9. `valid_filename` accepts a name exactly when it has 27 characters all drawn from
`[a-zA-Z0-9_-]`. For every name it rejects, `get` and `put` (with any content length) return
after sending the 400 response and calling `log_error` with code 400 once: with logging
enabled that is exactly one error record, written at the counter; the storage directory is
left as it was, and the outcome is the same for every state of the storage directory. -/
theorem invalid_name_rejected (name : List Nat) :
    (valid_filename name = true ↔
      (name.length = 27 ∧ ∀ ch ∈ name,
        (97 ≤ ch ∧ ch ≤ 122) ∨ (65 ≤ ch ∧ ch ≤ 90) ∨ (48 ≤ ch ∧ ch ≤ 57) ∨ ch = 95 ∨ ch = 45)) ∧
    (valid_filename name = false →
      ∀ (w : World) (c : Conn) (n : Int) (fuel : Nat),
        get w c name fuel
          = some (log_error w (str "GET") name 400, bad_request c (str "Invalid resource name")) ∧
        put w c name n fuel
          = some (log_error w (str "PUT") name 400, bad_request c (str "Invalid resource name")) ∧
        bad_request c (str "Invalid resource name")
          = { c with
              sent := c.sent ++ str ("HTTP/1.1 400 Bad Request\r\nContent-Length: 23\r\n\r\n"
                ++ "Invalid resource name\r\n"),
              closed := true } ∧
        (0 ≤ w.log_fd → 0 ≤ w.log_offset →
          log_error w (str "GET") name 400 = { w with
            log_offset := w.log_offset + (46 + (name.length : Int)),
            log := w.log ++ [(w.log_offset, str "FAIL: GET " ++ name
              ++ str " HTTP/1.1 --- response 400\n========\n")] } ∧
          log_error w (str "PUT") name 400 = { w with
            log_offset := w.log_offset + (46 + (name.length : Int)),
            log := w.log ++ [(w.log_offset, str "FAIL: PUT " ++ name
              ++ str " HTTP/1.1 --- response 400\n========\n")] }) ∧
        (log_error w (str "GET") name 400).files = w.files ∧
        (log_error w (str "PUT") name 400).files = w.files ∧
        (∀ (files : List (List Nat × File)) (creatable : Bool),
          get { w with files := files, creatable := creatable } c name fuel
            = some ({ log_error w (str "GET") name 400 with
                files := files, creatable := creatable },
              bad_request c (str "Invalid resource name")) ∧
          put { w with files := files, creatable := creatable } c name n fuel
            = some ({ log_error w (str "PUT") name 400 with
                files := files, creatable := creatable },
              bad_request c (str "Invalid resource name")))) := by
  refine ⟨valid_filename_iff name, ?_⟩
  intro hinv w c n fuel
  have hget : ∀ w : World, get w c name fuel
      = some (log_error w (str "GET") name 400, bad_request c (str "Invalid resource name")) := by
    intro w
    simp [get, hinv]
  have hput : ∀ w : World, put w c name n fuel
      = some (log_error w (str "PUT") name 400, bad_request c (str "Invalid resource name")) := by
    intro w
    simp [put, hinv]
  refine ⟨hget w, hput w, ?_, ?_, (log_error_files _ _ _ _).1, (log_error_files _ _ _ _).1, ?_⟩
  · have e : snprintf 512
        (str "HTTP/1.1 " ++ fmt_d 400 ++ str " " ++ str "Bad Request" ++ str "\r\n"
          ++ str "Content-Length: "
          ++ fmt_d (wrap32 (((str "Invalid resource name").length : Int) + 2)) ++ str "\r\n"
          ++ str "\r\n" ++ str "Invalid resource name" ++ str "\r\n")
        = str ("HTTP/1.1 400 Bad Request\r\nContent-Length: 23\r\n\r\n"
                ++ "Invalid resource name\r\n") := by decide
    simp only [bad_request, base_response, e, if_true, Conn.write, Conn.close]
  · intro hfd hoff
    have hg := (log_error_eq w (str "GET") name 400 hfd hoff (by decide) (by decide)).1
    have hp := (log_error_eq w (str "PUT") name 400 hfd hoff (by decide) (by decide)).1
    have e1 : ∀ m : List Nat, str "FAIL: " ++ m ++ str " " ++ name
        ++ str " HTTP/1.1 --- response " ++ dec 400 ++ str "\n========\n"
        = str "FAIL: " ++ m ++ str " " ++ name ++ str " HTTP/1.1 --- response 400\n========\n" := by
      intro m
      have : str " HTTP/1.1 --- response 400\n========\n"
          = str " HTTP/1.1 --- response " ++ dec 400 ++ str "\n========\n" := by decide
      rw [this]
      simp only [List.append_assoc]
    have e2 : str "FAIL: GET " = str "FAIL: " ++ str "GET" ++ str " " := by decide
    have e3 : str "FAIL: PUT " = str "FAIL: " ++ str "PUT" ++ str " " := by decide
    simp only [Nat.cast_ofNat, e1] at hg hp
    rw [hg, hp, e2, e3]
    exact ⟨rfl, rfl⟩
  · intro files creatable
    exact ⟨by rw [hget, log_error_with_files], by rw [hput, log_error_with_files]⟩

/-- Witness of C9: the name of the example with its slash has 28 characters and is
rejected. -/
theorem invalid_name_rejected_witness :
    valid_filename (str "/AAAAAAAAAAAAAAAAAAAAAAAAAAA") = false ∧
      get (World.init 3 [] true) { incoming := [], sent := [], closed := false }
          (str "/AAAAAAAAAAAAAAAAAAAAAAAAAAA") 0
        = some (log_error (World.init 3 [] true) (str "GET")
            (str "/AAAAAAAAAAAAAAAAAAAAAAAAAAA") 400,
          bad_request { incoming := [], sent := [], closed := false }
            (str "Invalid resource name")) :=
  ⟨by decide,
    ((invalid_name_rejected (str "/AAAAAAAAAAAAAAAAAAAAAAAAAAA")).2 (by decide)
      (World.init 3 [] true) { incoming := [], sent := [], closed := false } 0 0).1⟩

/-! ## C10: what the parser hands to the handlers -/

theorem decAux_digits : ∀ (fuel n : Nat) (acc : List Nat), (∀ d ∈ acc, 48 ≤ d ∧ d ≤ 57) →
    ∀ d ∈ decAux fuel n acc, 48 ≤ d ∧ d ≤ 57 := by
  intro fuel
  induction fuel with
  | zero => intro n acc h; simpa [decAux] using h
  | succ f ih =>
    intro n acc h
    simp only [decAux]
    split
    · intro d hd
      rcases List.mem_cons.1 hd with rfl | hd
      · omega
      · exact h d hd
    · apply ih
      intro d hd
      rcases List.mem_cons.1 hd with rfl | hd
      · omega
      · exact h d hd

theorem dec_digits (n : Nat) : ∀ d ∈ dec n, 48 ≤ d ∧ d ≤ 57 :=
  decAux_digits (n + 1) n [] (by simp)

theorem decAux_append : ∀ (fuel n : Nat) (acc : List Nat),
    decAux fuel n acc = decAux fuel n [] ++ acc := by
  intro fuel
  induction fuel with
  | zero => intro n acc; simp [decAux]
  | succ f ih =>
    intro n acc
    simp only [decAux]
    split
    · simp
    · rw [ih (n / 10) ((48 + n % 10) :: acc), ih (n / 10) [48 + n % 10]]
      simp

theorem decAux_fuel : ∀ (fuel1 fuel2 n : Nat) (acc : List Nat), n < fuel1 → n < fuel2 →
    decAux fuel1 n acc = decAux fuel2 n acc := by
  intro fuel1
  induction fuel1 with
  | zero => intro fuel2 n acc h; omega
  | succ f1 ih =>
    intro fuel2 n acc h1 h2
    obtain ⟨f2, rfl⟩ : ∃ f2, fuel2 = f2 + 1 := ⟨fuel2 - 1, by omega⟩
    simp only [decAux]
    split
    · rfl
    · exact ih f2 (n / 10) _ (by omega) (by omega)

theorem dec_step (n : Nat) (h : 10 ≤ n) : dec n = dec (n / 10) ++ [48 + n % 10] := by
  have h10 : ¬ n < 10 := by omega
  have e1 : dec n = decAux n (n / 10) [48 + n % 10] := by
    show decAux (n + 1) n [] = _
    simp only [decAux, h10, if_false]
  rw [e1, decAux_append, decAux_fuel n (n / 10 + 1) (n / 10) [] (by omega) (by omega)]
  rfl

theorem dec_small (n : Nat) (h : n < 10) : dec n = [48 + n] := by
  simp [dec, decAux, h]

theorem atoiDigits_append (ds rest : List Nat) : (∀ d ∈ ds, 48 ≤ d ∧ d ≤ 57) →
    ∀ a, atoiDigits (ds ++ rest) a = atoiDigits rest (atoiDigits ds a) := by
  induction ds with
  | nil => intro _ a; rfl
  | cons d tl ih =>
    intro h a
    have hd := h d (List.mem_cons_self _ _)
    simp only [List.cons_append, atoiDigits, hd, and_self, if_true]
    exact ih (fun x hx => h x (List.mem_cons_of_mem _ hx)) _

theorem atoiDigits_dec (n : Nat) : atoiDigits (dec n) 0 = n := by
  induction n using Nat.strong_induction_on with
  | _ n ih =>
    by_cases h : n < 10
    · rw [dec_small n h]
      simp only [atoiDigits]
      have : 48 ≤ 48 + n ∧ 48 + n ≤ 57 := by omega
      simp only [this, and_self, if_true]
      omega
    · rw [dec_step n (by omega), atoiDigits_append _ _ (dec_digits _), ih (n / 10) (by omega)]
      simp only [atoiDigits]
      have : 48 ≤ 48 + n % 10 ∧ 48 + n % 10 ≤ 57 := by omega
      simp only [this, and_self, if_true]
      omega

theorem atoi_dec (n : Nat) (h : n < 2147483648) : atoi (dec n) = (n : Int) := by
  have hpos := dec_length_pos n
  have hdig := dec_digits n
  have hval := atoiDigits_dec n
  generalize dec n = ds at hpos hdig hval
  cases ds with
  | nil => simp at hpos
  | cons d tl =>
    have hd := hdig d (List.mem_cons_self _ _)
    have hsp : isspace d = false := by
      simp only [isspace, Bool.or_eq_false_iff, beq_eq_false_iff_ne, ne_eq, Bool.and_eq_false_imp,
        decide_eq_true_eq, decide_eq_false_iff_not]
      omega
    have h45 : d ≠ 45 := by omega
    have h43 : d ≠ 43 := by omega
    have hdw : (d :: tl).dropWhile isspace = d :: tl := by
      simp [List.dropWhile, hsp]
    unfold atoi
    rw [hdw]
    split
    · rename_i heq; cases heq; exact absurd rfl h45
    · rename_i heq; cases heq; exact absurd rfl h43
    · rw [hval]
      rw [wrap32_of_range _ (by omega) (by omega)]
      omega

theorem scanLine_nonMethod (t : List Nat) (rest : List (List Nat)) (p : Parsed)
    (h : ¬ (t = str "GET" ∨ t = str "PUT")) :
    scanLine (t :: rest) p =
      if t = str "Content-Length:" then
        match rest with
        | [] => none
        | v :: rest1 => scanLine rest1 { p with content_length := atoi v }
      else scanLine rest p := by
  rw [scanLine.eq_def]
  simp only [h, if_false]

theorem scanLine_resource (n : Nat) : ∀ (toks : List (List Nat)) (p p1 : Parsed),
    toks.length ≤ n → noMethod toks → scanLine toks p = some p1 → p1.resource = p.resource := by
  induction n with
  | zero =>
    intro toks p p1 hlen _ h
    have : toks = [] := List.length_eq_zero.1 (by omega)
    subst this
    simp only [scanLine, Option.some.injEq] at h
    rw [← h]
  | succ n ih =>
    intro toks p p1 hlen hno h
    cases toks with
    | nil =>
      simp only [scanLine, Option.some.injEq] at h
      rw [← h]
    | cons t rest =>
      have ht := hno t (List.mem_cons_self _ _)
      have hrest : noMethod rest := fun x hx => hno x (List.mem_cons_of_mem _ hx)
      have hnot : ¬ (t = str "GET" ∨ t = str "PUT") := by tauto
      rw [scanLine_nonMethod t rest p hnot] at h
      simp only [List.length_cons] at hlen
      split at h
      · cases rest with
        | nil => simp at h
        | cons v rest1 =>
          simp only at h
          have := ih rest1 _ p1 (by simp only [List.length_cons] at hlen; omega)
            (fun x hx => hrest x (List.mem_cons_of_mem _ hx)) h
          exact this
      · exact ih rest p p1 (by omega) hrest h

theorem scanLine_plain : ∀ (toks : List (List Nat)) (p : Parsed),
    noMethod toks → noLength toks → scanLine toks p = some p := by
  intro toks
  induction toks with
  | nil => intro p _ _; rfl
  | cons t rest ih =>
    intro p hm hl
    have ht := hm t (List.mem_cons_self _ _)
    have hnot : ¬ (t = str "GET" ∨ t = str "PUT") := by tauto
    have hcl := hl t (List.mem_cons_self _ _)
    rw [scanLine_nonMethod t rest p hnot, if_neg hcl]
    exact ih p (fun x hx => hm x (List.mem_cons_of_mem _ hx))
      (fun x hx => hl x (List.mem_cons_of_mem _ hx))

theorem scanLines_resource : ∀ (ls : List (List Nat)) (p p1 : Parsed),
    (∀ l ∈ ls, noMethod (tokens isSP l)) → scanLines ls p = some p1 →
      p1.resource = p.resource := by
  intro ls
  induction ls with
  | nil =>
    intro p p1 _ h
    simp only [scanLines, Option.some.injEq] at h
    rw [← h]
  | cons l rest ih =>
    intro p p1 hno h
    simp only [scanLines] at h
    split at h
    · simp at h
    · rename_i p2 h2
      have e1 := scanLine_resource _ _ p p2 (le_refl _) (hno l (List.mem_cons_self _ _)) h2
      have e2 := ih p2 p1 (fun x hx => hno x (List.mem_cons_of_mem _ hx)) h
      rw [e2, e1]

theorem scanLines_plain : ∀ (ls : List (List Nat)) (p : Parsed),
    (∀ l ∈ ls, noMethod (tokens isSP l)) → (∀ l ∈ ls, noLength (tokens isSP l)) →
      scanLines ls p = some p := by
  intro ls
  induction ls with
  | nil => intro p _ _; rfl
  | cons l rest ih =>
    intro p hm hl
    simp only [scanLines, scanLine_plain _ p (hm l (List.mem_cons_self _ _))
      (hl l (List.mem_cons_self _ _))]
    exact ih p (fun x hx => hm x (List.mem_cons_of_mem _ hx))
      (fun x hx => hl x (List.mem_cons_of_mem _ hx))

theorem scanLines_append : ∀ (ls1 ls2 : List (List Nat)) (p : Parsed),
    scanLines (ls1 ++ ls2) p = (scanLines ls1 p).bind (scanLines ls2) := by
  intro ls1
  induction ls1 with
  | nil => intro ls2 p; rfl
  | cons l rest ih =>
    intro ls2 p
    simp only [List.cons_append, scanLines]
    split
    · rfl
    · exact ih ls2 _

theorem scanLine_request (M R : List Nat) (rest : List (List Nat)) (p : Parsed)
    (hM : M = str "GET" ∨ M = str "PUT") :
    scanLine (M :: R :: rest) p = scanLine rest { p with resource := some R } := by
  rw [scanLine.eq_def]
  simp only [hM, if_true]

theorem cstr_take3 (chunk M : List Nat) (hM : M = str "GET" ∨ M = str "PUT")
    (hstart : chunk.take 3 = M) : (cstr chunk).take 3 = M := by
  rcases hM with rfl | rfl
  · match chunk, hstart with
    | a :: b :: c :: tl, h =>
      simp only [List.take_succ_cons, List.take_zero] at h
      have h' : [a, b, c] = [71, 69, 84] := h
      simp only [List.cons.injEq, and_true] at h'
      obtain ⟨rfl, rfl, rfl⟩ := h'
      rfl
  · match chunk, hstart with
    | a :: b :: c :: tl, h =>
      simp only [List.take_succ_cons, List.take_zero] at h
      have h' : [a, b, c] = [80, 85, 84] := h
      simp only [List.cons.injEq, and_true] at h'
      obtain ⟨rfl, rfl, rfl⟩ := h'
      rfl

set_option maxRecDepth 100000 in
/-- C10 fails on the code as stated: the request line is `GET AAA...A HTTP/1.1` (27 letters
`A`, an existing readable file), and a later header line holds the tokens `GET BBB...B`. The
parser overwrites the resource with the token after that second `GET`, so the handler is
called with the name of 27 letters `B` and the client receives 404 instead of the file.
Likewise, of two headers `Content-Length: 5` and `Content-Length: 7` the second one gives the
content length, and the decimal 4294967301 gives the content length 5. -/
theorem header_method_token_overrides_resource :
    tokens isSP (str "GET AAAAAAAAAAAAAAAAAAAAAAAAAAA HTTP/1.1")
        = [str "GET", str "AAAAAAAAAAAAAAAAAAAAAAAAAAA", str "HTTP/1.1"] ∧
      parse_request (str ("GET AAAAAAAAAAAAAAAAAAAAAAAAAAA HTTP/1.1\r\n"
          ++ "X-Note: GET BBBBBBBBBBBBBBBBBBBBBBBBBBB\r\n\r\n"))
        = some { resource := some (str "BBBBBBBBBBBBBBBBBBBBBBBBBBB"), content_length := -1 } ∧
      (accept_job
          (World.init 3 [(str "AAAAAAAAAAAAAAAAAAAAAAAAAAA",
            { readable := true, writable := true, content := str "hello" })] true)
          (requestConn (str ("GET AAAAAAAAAAAAAAAAAAAAAAAAAAA HTTP/1.1\r\n"
            ++ "X-Note: GET BBBBBBBBBBBBBBBBBBBBBBBBBBB\r\n\r\n")) []) 10).observe
        = some ([], str ("HTTP/1.1 404 Not Found\r\nContent-Length: 24\r\n\r\n"
            ++ "Resource not available\r\n")) ∧
      ((get
          (World.init 3 [(str "AAAAAAAAAAAAAAAAAAAAAAAAAAA",
            { readable := true, writable := true, content := str "hello" })] true)
          { incoming := [], sent := [], closed := false }
          (str "AAAAAAAAAAAAAAAAAAAAAAAAAAA") 10).map (fun r => r.2.sent))
        = some (str "HTTP/1.1 200 OK\r\nContent-Length: 5\r\n\r\nhello") ∧
      parse_request (str ("PUT AAAAAAAAAAAAAAAAAAAAAAAAAAA HTTP/1.1\r\n"
          ++ "Content-Length: 5\r\nContent-Length: 7\r\n\r\n"))
        = some { resource := some (str "AAAAAAAAAAAAAAAAAAAAAAAAAAA"), content_length := 7 } ∧
      parse_request (str ("PUT AAAAAAAAAAAAAAAAAAAAAAAAAAA HTTP/1.1\r\n"
          ++ "Content-Length: 4294967301\r\n\r\n"))
        = some { resource := some (str "AAAAAAAAAAAAAAAAAAAAAAAAAAA"), content_length := 5 } := by
  refine ⟨by decide, by decide, by decide, by decide, by decide, by decide⟩

/-- C10 as amended. For a first chunk that starts with the request line `M R ...` with `M`
equal to GET or PUT, when no token after `R` in the chunk is `GET` or `PUT`: whenever the
parser returns, the resource it found is `R` and the worker calls the handler of `M` with
`R`; the parser returns with content length -1 when no token after `R` is
`Content-Length:`, and with content length `n` when the only such token starts a header
line `Content-Length: <n>` with `n` a decimal below 2^31. -/
theorem parser_passes_request_line_resource (w : World) (c c1 : Conn)
    (chunk M R reqLine : List Nat) (rest headers : List (List Nat)) (fuel : Nat)
    (hread : c.read BUF_SIZE = (c1, some chunk))
    (hM : M = str "GET" ∨ M = str "PUT")
    (hstart : chunk.take 3 = M)
    (hlines : tokens isCRLF (cstr chunk) = reqLine :: headers)
    (hreq : tokens isSP reqLine = M :: R :: rest)
    (hrest : noMethod rest)
    (hhdr : ∀ l ∈ headers, noMethod (tokens isSP l)) :
    (∀ p, parse_request chunk = some p →
      p.resource = some R ∧
      accept_job w c fuel = Outcome.ofHandler
        (if M = str "GET" then get w c1 R fuel else put w c1 R p.content_length fuel)) ∧
    (noLength rest → (∀ l ∈ headers, noLength (tokens isSP l)) →
      parse_request chunk = some { resource := some R, content_length := -1 }) ∧
    (∀ (before after : List (List Nat)) (clLine : List Nat) (n : Nat),
      headers = before ++ clLine :: after →
      tokens isSP clLine = [str "Content-Length:", dec n] → n < 2147483648 →
      noLength rest → (∀ l ∈ before ++ after, noLength (tokens isSP l)) →
      parse_request chunk = some { resource := some R, content_length := (n : Int) }) := by
  have hparse : parse_request chunk
      = (scanLine rest { resource := some R, content_length := -1 }).bind (scanLines headers) := by
    simp only [parse_request, hlines, scanLines, hreq, scanLine_request M R rest _ hM]
    cases scanLine rest { resource := some R, content_length := -1 } <;> rfl
  refine ⟨?_, ?_, ?_⟩
  · intro p hp
    have hres : p.resource = some R := by
      rw [hparse] at hp
      cases h1 : scanLine rest { resource := some R, content_length := -1 } with
      | none => rw [h1] at hp; simp at hp
      | some p1 =>
        rw [h1] at hp
        have e1 := scanLine_resource _ _ _ p1 (le_refl _) hrest h1
        have e2 := scanLines_resource headers p1 p hhdr hp
        rw [e2, e1]
    refine ⟨hres, ?_⟩
    have h3 := cstr_take3 chunk M hM hstart
    simp only [accept_job, hread, hp, h3, hres]
    rcases hM with rfl | rfl
    · simp
    · have hne : ¬ (str "PUT" = str "GET") := by decide
      simp [hne]
  · intro hl1 hl2
    rw [hparse, scanLine_plain rest _ hrest hl1]
    exact scanLines_plain headers _ hhdr hl2
  · intro before after clLine n hsplit hcl hn hl1 hl2
    subst hsplit
    have hb : ∀ l ∈ before, noMethod (tokens isSP l) ∧ noLength (tokens isSP l) :=
      fun l hl => ⟨hhdr l (List.mem_append_left _ hl), hl2 l (List.mem_append_left _ hl)⟩
    have ha : ∀ l ∈ after, noMethod (tokens isSP l) ∧ noLength (tokens isSP l) :=
      fun l hl => ⟨hhdr l (List.mem_append_right _ (List.mem_cons_of_mem _ hl)),
        hl2 l (List.mem_append_right _ hl)⟩
    have hclne : ¬ (str "Content-Length:" = str "GET" ∨ str "Content-Length:" = str "PUT") := by
      decide
    have hline : ∀ p : Parsed, scanLine [str "Content-Length:", dec n] p
        = some { p with content_length := (n : Int) } := by
      intro p
      rw [scanLine_nonMethod _ _ _ hclne]
      simp only [if_true, atoi_dec n hn]
      rfl
    rw [hparse, scanLine_plain rest _ hrest hl1, Option.some_bind, scanLines_append,
      scanLines_plain before _ (fun l hl => (hb l hl).1) (fun l hl => (hb l hl).2),
      Option.some_bind]
    simp only [scanLines, hcl, hline]
    exact scanLines_plain after _ (fun l hl => (ha l hl).1) (fun l hl => (ha l hl).2)

set_option maxRecDepth 100000 in
/-- Witness of the amended C10: the request `PUT AAA...A HTTP/1.1` with the header
`Content-Length: 5`. -/
theorem parser_passes_request_line_resource_witness :
    parse_request (str ("PUT AAAAAAAAAAAAAAAAAAAAAAAAAAA HTTP/1.1\r\n"
        ++ "Content-Length: 5\r\n\r\n"))
      = some { resource := some (str "AAAAAAAAAAAAAAAAAAAAAAAAAAA"), content_length := 5 } :=
  (parser_passes_request_line_resource (World.init 3 [] true)
    (requestConn (str ("PUT AAAAAAAAAAAAAAAAAAAAAAAAAAA HTTP/1.1\r\n"
        ++ "Content-Length: 5\r\n\r\n")) [])
    { incoming := [], sent := [], closed := false }
    (str ("PUT AAAAAAAAAAAAAAAAAAAAAAAAAAA HTTP/1.1\r\n" ++ "Content-Length: 5\r\n\r\n"))
    (str "PUT") (str "AAAAAAAAAAAAAAAAAAAAAAAAAAA")
    (str "PUT AAAAAAAAAAAAAAAAAAAAAAAAAAA HTTP/1.1") [str "HTTP/1.1"]
    [str "Content-Length: 5"] 0
    (by decide) (Or.inr rfl) (by decide) (by decide) (by decide) (by decide)
    (by decide)).2.2 [] [] (str "Content-Length: 5") 5 (by decide) (by decide) (by decide)
    (by decide) (by decide)

/-! ## C8: a PUT followed by a GET -/

theorem findFile_storeFile (files : List (List Nat × File)) (name : List Nat) (f : File) :
    findFile (storeFile files name f) name = some f := by
  induction files with
  | nil => simp [storeFile, findFile]
  | cons p rest ih =>
    obtain ⟨n, g⟩ := p
    simp only [storeFile]
    split
    · rename_i h
      simp [findFile, h]
    · rename_i h
      simp [findFile, h, ih]

theorem hexBytes_files (content : List Nat) (upto : Int) : ∀ (k : Nat) (j : Int) (s : HexState),
    (hexBytes content upto k j s).w.files = s.w.files := by
  intro k
  induction k with
  | zero => intro j s; rfl
  | succ k ih =>
    intro j s
    simp only [hexBytes]
    rw [ih]
    split <;> simp only [pwrite_files]

theorem hexLines_files (content : List Nat) (bytes_read lines : Int) :
    ∀ (k : Nat) (i : Int) (s : HexState),
      (hexLines content bytes_read lines k i s).w.files = s.w.files := by
  intro k
  induction k with
  | zero => intro i s; rfl
  | succ k ih =>
    intro i s
    simp only [hexLines]
    rw [ih]
    simp only [pwrite_files, hexBytes_files]

theorem write_hex_to_log_files (w : World) (bytes_read total offset : Int) (content : List Nat) :
    (write_hex_to_log w bytes_read total offset content).1.files = w.files := by
  unfold write_hex_to_log
  split
  · rfl
  · simp only [hexLines_files]

theorem log_put_files (w : World) (resource : List Nat) (content_length : Int) :
    (log_put w resource content_length).1.files = w.files := by
  unfold log_put
  split
  · rfl
  · simp only [pwrite_files]

theorem file_write_find (w : World) (resource buf : List Nat) (f : File)
    (h : findFile w.files resource = some f) :
    findFile (file_write w resource buf).files resource
      = some { f with content := f.content ++ buf } := by
  simp only [file_write, h, findFile_storeFile]

theorem Conn.read_data (c : Conn) (s : List Nat) (rest : List Recv) (count : Nat)
    (h : c.incoming = Recv.data s :: rest) :
    c.read count =
      if s.length ≤ count then ({ c with incoming := rest }, some s)
      else ({ c with incoming := Recv.data (s.drop count) :: rest }, some (s.take count)) := by
  unfold Conn.read
  rw [h]

theorem flatten_eq_nil_of_ne (segs : List (List Nat)) (hne : ∀ s ∈ segs, s ≠ [])
    (h : segs.flatten.length = 0) : segs = [] := by
  cases segs with
  | nil => rfl
  | cons s rest =>
    have hs := hne s (List.mem_cons_self _ _)
    have : s.length ≠ 0 := fun h0 => hs (List.length_eq_zero.1 h0)
    simp only [List.flatten_cons, List.length_append] at h
    omega

/-- The receive loop for a known length stores the bytes the socket delivers, however they
are split into segments, and leaves the rest of the stream unread. -/
theorem put_known_stores (R : List Nat) (N : Int) : ∀ (fuel : Nat) (w : World) (c : Conn)
    (total offset : Int) (segs : List (List Nat)) (tail : List Recv) (f : File),
    c.incoming = segs.map Recv.data ++ tail → (∀ s ∈ segs, s ≠ []) →
    total + (segs.flatten.length : Int) = N → segs.flatten.length < fuel →
    findFile w.files R = some f →
    ∃ w1 c1 off1, put_known R N fuel w c total offset = some (LoopEnd.finished w1 c1 off1) ∧
      findFile w1.files R = some { f with content := f.content ++ segs.flatten } ∧
      c1 = { c with incoming := tail } := by
  intro fuel
  induction fuel with
  | zero => intro w c total offset segs tail f _ _ _ h; omega
  | succ k ih =>
    intro w c total offset segs tail f hin hne htot hfuel hfind
    by_cases hrem : segs.flatten.length = 0
    · have hs := flatten_eq_nil_of_ne segs hne hrem
      subst hs
      have hnot : ¬ total < N := by simp at htot; omega
      simp only [put_known, hnot, if_false]
      refine ⟨w, c, offset, rfl, ?_, ?_⟩
      · simp [hfind]
      · simp only [List.map_nil, List.nil_append] at hin
        rw [← hin]
    · have hlt : total < N := by omega
      cases segs with
      | nil => simp at hrem
      | cons s rest =>
        have hs : s ≠ [] := hne s (List.mem_cons_self _ _)
        have hslen : 1 ≤ s.length := by
          rcases Nat.eq_zero_or_pos s.length with h0 | h0
          · exact absurd (List.length_eq_zero.1 h0) hs
          · exact h0
        have hrest : ∀ x ∈ rest, x ≠ [] := fun x hx => hne x (List.mem_cons_of_mem _ hx)
        simp only [List.flatten_cons, List.length_append, Nat.cast_add] at htot hfuel
        simp only [List.map_cons, List.cons_append] at hin
        have hB : (BUF_SIZE : Int) = 8000 := rfl
        generalize hcount : (if N - total < (BUF_SIZE : Int) then N - total
          else (BUF_SIZE : Int)) = count
        have hc1 : 1 ≤ count ∧ count ≤ N - total := by
          rw [← hcount]; split <;> omega
        obtain ⟨cnt, rfl⟩ : ∃ cnt : Nat, count = (cnt : Int) := ⟨count.toNat, by omega⟩
        simp only [put_known, hlt, if_true, hcount, Int.toNat_ofNat, Conn.read_data c s _ cnt hin]
        by_cases hfit : s.length ≤ cnt
        · simp only [hfit, if_true]
          have hfind1 := file_write_find w R s f hfind
          obtain ⟨w1, c1, off1, h1, h2, h3⟩ := ih
            (write_hex_to_log (file_write w R s) (s.length : Int) (total + (s.length : Int))
              offset s).1
            { c with incoming := rest.map Recv.data ++ tail }
            (total + (s.length : Int))
            (write_hex_to_log (file_write w R s) (s.length : Int) (total + (s.length : Int))
              offset s).2
            rest tail { f with content := f.content ++ s } rfl hrest (by omega) (by omega)
            (by rw [write_hex_to_log_files]; exact hfind1)
          refine ⟨w1, c1, off1, h1, ?_, ?_⟩
          · rw [h2]; simp
          · rw [h3]
        · simp only [hfit, if_false]
          have hdrop : s.drop cnt ≠ [] := by
            intro h0
            have := congrArg List.length h0
            simp at this
            omega
          have htake : (s.take cnt).length = cnt := by
            simp only [List.length_take]; omega
          have hfind1 := file_write_find w R (s.take cnt) f hfind
          obtain ⟨w1, c1, off1, h1, h2, h3⟩ := ih
            (write_hex_to_log (file_write w R (s.take cnt)) ((s.take cnt).length : Int)
              (total + ((s.take cnt).length : Int)) offset (s.take cnt)).1
            { c with incoming := Recv.data (s.drop cnt) :: (rest.map Recv.data ++ tail) }
            (total + ((s.take cnt).length : Int))
            (write_hex_to_log (file_write w R (s.take cnt)) ((s.take cnt).length : Int)
              (total + ((s.take cnt).length : Int)) offset (s.take cnt)).2
            (s.drop cnt :: rest) tail { f with content := f.content ++ s.take cnt } rfl
            (by
              intro x hx
              rcases List.mem_cons.1 hx with rfl | hx
              · exact hdrop
              · exact hrest x hx)
            (by
              simp only [List.flatten_cons, List.length_append, List.length_drop, htake]
              push_cast
              omega)
            (by
              simp only [List.flatten_cons, List.length_append, List.length_drop]
              omega)
            (by rw [write_hex_to_log_files]; exact hfind1)
          refine ⟨w1, c1, off1, h1, ?_, ?_⟩
          · rw [h2]
            simp only [List.flatten_cons, List.append_assoc, List.take_append_drop]
            rw [← List.append_assoc (s.take cnt), List.take_append_drop]
          · rw [h3]

/-- The transfer loop of `get` sends the whole file. -/
theorem get_loop_sends (N : Int) : ∀ (fuel : Nat) (remaining : List Nat) (total : Int) (c : Conn),
    total + (remaining.length : Int) = N → remaining.length < fuel →
    get_loop N fuel remaining total c = some { c with sent := c.sent ++ remaining } := by
  intro fuel
  induction fuel with
  | zero => intro remaining total c _ h; omega
  | succ k ih =>
    intro remaining total c htot hfuel
    have hB : BUF_SIZE = 8000 := rfl
    simp only [get_loop]
    have hlen : (remaining.take BUF_SIZE).length = min BUF_SIZE remaining.length :=
      List.length_take _ _
    by_cases hmore : total + ((remaining.take BUF_SIZE).length : Int) < N
    · simp only [hmore, if_true]
      rw [ih (remaining.drop BUF_SIZE) _ (c.write (remaining.take BUF_SIZE))
        (by simp only [List.length_drop]; omega) (by simp only [List.length_drop]; omega)]
      simp only [Conn.write, List.append_assoc, List.take_append_drop]
    · simp only [hmore, if_false]
      have hall : remaining.take BUF_SIZE = remaining :=
        List.take_of_length_le (by omega)
      simp only [Conn.write, hall]

theorem open_trunc_spec (w w1 : World) (R : List Nat) (h : open_trunc w R = some w1) :
    (access_F_OK w R && !access_W_OK w R) = false ∧
      ∃ f, findFile w1.files R = some f ∧ f.readable = true ∧ f.content = [] := by
  unfold open_trunc at h
  cases hf : findFile w.files R with
  | none =>
    rw [hf] at h
    simp only at h
    split at h
    · cases h
      exact ⟨by simp [access_F_OK, hf], _, findFile_storeFile _ _ _, rfl, rfl⟩
    · cases h
  | some f =>
    rw [hf] at h
    simp only at h
    split at h
    · rename_i hp
      cases h
      exact ⟨by simp [access_F_OK, access_W_OK, hf, hp.2], _, findFile_storeFile _ _ _, hp.1, rfl⟩
    · cases h

theorem ok_send_payload_sent (c : Conn) (n : Nat) (h : n < 2147483648) :
    ok_send_payload c (n : Int)
      = { c with sent := c.sent ++ (str "HTTP/1.1 200 OK\r\nContent-Length: " ++ dec n
          ++ str "\r\n\r\n") } := by
  have hd : (dec n).length ≤ 10 := dec_length_le 9 n (by omega)
  have e1 : str "HTTP/1.1 200 OK\r\n" ++ str "Content-Length: " ++ fmt_d (n : Int) ++ str "\r\n"
      ++ str "\r\n" = str "HTTP/1.1 200 OK\r\nContent-Length: " ++ dec n ++ str "\r\n\r\n" := by
    rw [fmt_d_natCast]
    have a : str "HTTP/1.1 200 OK\r\nContent-Length: "
        = str "HTTP/1.1 200 OK\r\n" ++ str "Content-Length: " := by decide
    have b : str "\r\n\r\n" = str "\r\n" ++ str "\r\n" := by decide
    rw [a, b]
    simp only [List.append_assoc]
  have e2 : (str "HTTP/1.1 200 OK\r\nContent-Length: " ++ dec n ++ str "\r\n\r\n").length < 512 := by
    have a : (str "HTTP/1.1 200 OK\r\nContent-Length: ").length = 33 := by decide
    have b : (str "\r\n\r\n").length = 4 := by decide
    simp only [List.length_append, a, b]
    omega
  simp only [ok_send_payload, e1, snprintf_of_length_lt _ _ e2, Conn.write]

/-- C8. For every byte sequence `B` (the empty one included, of a length that fits the
content length) and every valid name `R` that the server can open for writing, whatever `R`
held before and however the socket delivers `B` in non-empty segments, `put` of `R` with
content length `|B|` returns with 201, and a `get` of `R` on the state it leaves sends
exactly the 200 header with `Content-Length: |B|` followed by the bytes of `B`. -/
theorem put_then_get_roundtrip (w : World) (c1 c2 : Conn) (R B : List Nat)
    (segs : List (List Nat)) (tail : List Recv) (fuel : Nat)
    (hvalid : valid_filename R = true)
    (hopen : (open_trunc w R).isSome = true)
    (hsegs : segs.flatten = B) (hne : ∀ s ∈ segs, s ≠ [])
    (hin : c1.incoming = segs.map Recv.data ++ tail)
    (hlen : B.length < 2147483648)
    (hfuel : B.length < fuel) :
    ∃ w1 c1', put w c1 R (B.length : Int) fuel = some (w1, c1') ∧
      c1' = created { c1 with incoming := tail } R ∧
      ∃ w2, get w1 c2 R fuel = some (w2,
        { c2 with
          sent := c2.sent ++ (str "HTTP/1.1 200 OK\r\nContent-Length: " ++ dec B.length
            ++ str "\r\n\r\n") ++ B,
          closed := true }) := by
  obtain ⟨w0, hw0⟩ := Option.isSome_iff_exists.1 hopen
  obtain ⟨hguard, f0, hf0, hread0, hcont0⟩ := open_trunc_spec w w0 R hw0
  -- the state after the receive loop
  have hloop : ∃ w1 c1' off,
      (if (B.length : Int) = 0 then
          some (LoopEnd.finished
            (file_write (log w0 (str "PUT") R (B.length : Int)).1 R []) c1
            (log w0 (str "PUT") R (B.length : Int)).2)
        else if (B.length : Int) < 0 then
          put_unspecified R fuel (log w0 (str "PUT") R (B.length : Int)).1 c1 0
            (log w0 (str "PUT") R (B.length : Int)).2
        else put_known R (B.length : Int) fuel (log w0 (str "PUT") R (B.length : Int)).1 c1 0
            (log w0 (str "PUT") R (B.length : Int)).2)
        = some (LoopEnd.finished w1 c1' off) ∧
      findFile w1.files R = some { f0 with content := B } ∧
      c1' = { c1 with incoming := tail } := by
    have hlogfiles : (log w0 (str "PUT") R (B.length : Int)).1.files = w0.files := by
      have hne' : ¬ (str "PUT" = str "GET") := by decide
      simp only [log, hne', if_false, if_true, log_put_files]
    by_cases hz : (B.length : Int) = 0
    · have hB : B = [] := List.length_eq_zero.1 (by omega)
      have hsegs0 : segs = [] := flatten_eq_nil_of_ne segs hne (by rw [hsegs, hB]; rfl)
      subst hsegs0
      simp only [hz, if_true]
      refine ⟨_, _, _, rfl, ?_, ?_⟩
      · rw [hz] at hlogfiles
        rw [file_write_find _ R [] f0 (by rw [hlogfiles]; exact hf0)]
        simp [hcont0, hB]
      · simp only [List.map_nil, List.nil_append] at hin
        rw [← hin]
    · have hneg : ¬ (B.length : Int) < 0 := by omega
      simp only [hz, hneg, if_false]
      obtain ⟨w1, c1', off, h1, h2, h3⟩ := put_known_stores R (B.length : Int) fuel
        (log w0 (str "PUT") R (B.length : Int)).1 c1 0
        (log w0 (str "PUT") R (B.length : Int)).2 segs tail f0 hin hne
        (by rw [hsegs]; omega) (by rw [hsegs]; exact hfuel) (by rw [hlogfiles]; exact hf0)
      refine ⟨w1, c1', off, h1, ?_, h3⟩
      rw [h2, hsegs, hcont0]
      rfl
  obtain ⟨w1, c1', off, hl1, hl2, hl3⟩ := hloop
  have hputeq : put w c1 R (B.length : Int) fuel
      = some (if off ≠ -1 then (pwrite w1 (str "========\n") off).1 else w1,
          created c1' R) := by
    simp only [put, hvalid, Bool.not_true, Bool.false_eq_true, if_false, hguard, hw0, hl1]
  refine ⟨_, _, hputeq, by rw [hl3], ?_⟩
  -- the GET on the state left by the PUT
  have hfiles : (if off ≠ -1 then (pwrite w1 (str "========\n") off).1 else w1).files
      = w1.files := by
    split
    · exact (pwrite_files _ _ _).1
    · rfl
  generalize (if off ≠ -1 then (pwrite w1 (str "========\n") off).1 else w1) = w3 at hfiles ⊢
  have hfind3 : findFile w3.files R = some { f0 with content := B } := by rw [hfiles]; exact hl2
  have hwrap : wrap32 (B.length : Int) = (B.length : Int) :=
    wrap32_of_range _ (by omega) (by omega)
  have hget_loop := get_loop_sends (B.length : Int) fuel B 0
    (ok_send_payload c2 (B.length : Int)) (by omega) hfuel
  refine ⟨(log w3 (str "GET") R 0).1, ?_⟩
  simp only [get, hvalid, Bool.not_true, Bool.false_eq_true, if_false, access_F_OK, access_R_OK,
    open_rdonly, hfind3, Option.isSome_some, if_true, hread0, hwrap, hget_loop]
  rw [ok_send_payload_sent c2 B.length hlen]
  simp only [Conn.close]

set_option maxRecDepth 100000 in
/-- Witness of C8: the payload `hello` delivered as `he` then `llo`, over an older file. -/
theorem put_then_get_roundtrip_witness :
    ∃ w1 c1', put
        (World.init (-1) [(str "AAAAAAAAAAAAAAAAAAAAAAAAAAA",
          { readable := true, writable := true, content := str "old content" })] true)
        { incoming := [Recv.data (str "he"), Recv.data (str "llo")], sent := [], closed := false }
        (str "AAAAAAAAAAAAAAAAAAAAAAAAAAA") 5 6 = some (w1, c1') ∧
      c1' = created { incoming := [], sent := [], closed := false }
        (str "AAAAAAAAAAAAAAAAAAAAAAAAAAA") ∧
      ∃ w2, get w1 { incoming := [], sent := [], closed := false }
          (str "AAAAAAAAAAAAAAAAAAAAAAAAAAA") 6
        = some (w2,
            { incoming := [],
              sent := str "HTTP/1.1 200 OK\r\nContent-Length: 5\r\n\r\nhello",
              closed := true }) :=
  put_then_get_roundtrip _ _ { incoming := [], sent := [], closed := false }
    (str "AAAAAAAAAAAAAAAAAAAAAAAAAAA") (str "hello") [str "he", str "llo"] [] 6
    (by decide) (by decide) (by decide) (by decide) (by decide) (by decide) (by decide)

/-! ## C11: the content length the parser finds -/

theorem scanLine_noLength (n : Nat) : ∀ (toks : List (List Nat)) (p : Parsed),
    toks.length ≤ n → noLength toks →
      ∃ p1, scanLine toks p = some p1 ∧ p1.content_length = p.content_length := by
  induction n with
  | zero =>
    intro toks p hlen _
    have : toks = [] := List.length_eq_zero.1 (by omega)
    subst this
    exact ⟨p, rfl, rfl⟩
  | succ n ih =>
    intro toks p hlen hno
    cases toks with
    | nil => exact ⟨p, rfl, rfl⟩
    | cons t rest =>
      have hcl : t ≠ str "Content-Length:" := hno t (List.mem_cons_self _ _)
      have hrest : noLength rest := fun x hx => hno x (List.mem_cons_of_mem _ hx)
      simp only [List.length_cons] at hlen
      by_cases hm : t = str "GET" ∨ t = str "PUT"
      · cases rest with
        | nil =>
          rw [scanLine.eq_def]
          simp only [hm, if_true]
          exact ⟨_, rfl, rfl⟩
        | cons r rest1 =>
          rw [scanLine.eq_def]
          simp only [hm, if_true]
          simp only [List.length_cons] at hlen
          obtain ⟨p1, h1, h2⟩ := ih rest1 { p with resource := some r } (by omega)
            (fun x hx => hrest x (List.mem_cons_of_mem _ hx))
          exact ⟨p1, h1, h2⟩
      · rw [scanLine_nonMethod t rest p hm, if_neg hcl]
        exact ih rest p (by omega) hrest

theorem scanLines_noLength : ∀ (ls : List (List Nat)) (p : Parsed),
    (∀ l ∈ ls, noLength (tokens isSP l)) →
      ∃ p1, scanLines ls p = some p1 ∧ p1.content_length = p.content_length := by
  intro ls
  induction ls with
  | nil => intro p _; exact ⟨p, rfl, rfl⟩
  | cons l rest ih =>
    intro p hno
    obtain ⟨p1, h1, h2⟩ := scanLine_noLength _ (tokens isSP l) p (le_refl _)
      (hno l (List.mem_cons_self _ _))
    obtain ⟨p2, h3, h4⟩ := ih p1 (fun x hx => hno x (List.mem_cons_of_mem _ hx))
    refine ⟨p2, ?_, by rw [h4, h2]⟩
    simp only [scanLines, h1, h3]

theorem atoi_of_not_number (d : Nat) (tl : List Nat) (hsp : isspace d = false)
    (h45 : d ≠ 45) (h43 : d ≠ 43) (hdig : ¬ (48 ≤ d ∧ d ≤ 57)) : atoi (d :: tl) = 0 := by
  have hdw : (d :: tl).dropWhile isspace = d :: tl := by
    simp [List.dropWhile, hsp]
  unfold atoi
  rw [hdw]
  split
  · rename_i heq; cases heq; exact absurd rfl h45
  · rename_i heq; cases heq; exact absurd rfl h43
  · simp only [atoiDigits, hdig, if_false]
    decide

set_option maxRecDepth 100000 in
/-- C11 fails on the code as stated: for the header `Content-Length: abc` the parser yields
the content length 0, and the request is handled as a zero-length PUT (the log holds the PUT
record of length 0 and the client receives 201); when `Content-Length:` ends its line the
parser passes NULL to `atoi` and yields no content length at all. -/
theorem unparseable_length_is_zero :
    parse_request (str ("PUT AAAAAAAAAAAAAAAAAAAAAAAAAAA HTTP/1.1\r\n"
          ++ "Content-Length: abc\r\n\r\n"))
        = some { resource := some (str "AAAAAAAAAAAAAAAAAAAAAAAAAAA"), content_length := 0 } ∧
      (accept_job
          (World.init 3 [(str "AAAAAAAAAAAAAAAAAAAAAAAAAAA",
            { readable := true, writable := true, content := str "hello" })] true)
          (requestConn (str ("PUT AAAAAAAAAAAAAAAAAAAAAAAAAAA HTTP/1.1\r\n"
            ++ "Content-Length: abc\r\n\r\n")) []) 10).observe
        = some ((str ("PUT AAAAAAAAAAAAAAAAAAAAAAAAAAA length 0\n" ++ "========\n")).map some,
            str ("HTTP/1.1 201 Created\r\nContent-Length: 29\r\n\r\n"
              ++ "AAAAAAAAAAAAAAAAAAAAAAAAAAA\r\n")) ∧
      parse_request (str ("PUT AAAAAAAAAAAAAAAAAAAAAAAAAAA HTTP/1.1\r\n"
          ++ "Content-Length:\r\n\r\n")) = none ∧
      accept_job (World.init 3 [] true)
          (requestConn (str ("PUT AAAAAAAAAAAAAAAAAAAAAAAAAAA HTTP/1.1\r\n"
            ++ "Content-Length:\r\n\r\n")) []) 10
        = Outcome.crash := by
  refine ⟨by decide, by decide, by decide, by decide⟩

/-- C11 as amended. The parser yields content length -1 whenever no token of the first chunk
is `Content-Length:`. When the only token `Content-Length:` of the chunk starts a line
`Content-Length: <v>`, the content length is what `atoi` makes of `v`, and that is 0 for
every `v` that does not begin with a digit, a sign or white space: such a value is handled
as a zero-length PUT. -/
theorem parser_content_length (chunk : List Nat) :
    ((∀ l ∈ tokens isCRLF (cstr chunk), noLength (tokens isSP l)) →
      ∃ p, parse_request chunk = some p ∧ p.content_length = -1) ∧
    (∀ (before after : List (List Nat)) (clLine v : List Nat),
      tokens isCRLF (cstr chunk) = before ++ clLine :: after →
      tokens isSP clLine = [str "Content-Length:", v] →
      (∀ l ∈ before ++ after, noLength (tokens isSP l)) →
      ∃ p, parse_request chunk = some p ∧ p.content_length = atoi v) ∧
    (∀ (d : Nat) (tl : List Nat), isspace d = false → d ≠ 45 → d ≠ 43 → ¬ (48 ≤ d ∧ d ≤ 57) →
      atoi (d :: tl) = 0) := by
  refine ⟨?_, ?_, atoi_of_not_number⟩
  · intro hno
    exact scanLines_noLength _ _ hno
  · intro before after clLine v hsplit hcl hno
    obtain ⟨p1, h1, h2⟩ := scanLines_noLength before
      { resource := none, content_length := -1 }
      (fun l hl => hno l (List.mem_append_left _ hl))
    have hclne : ¬ (str "Content-Length:" = str "GET" ∨ str "Content-Length:" = str "PUT") := by
      decide
    have hline : scanLine [str "Content-Length:", v] p1
        = some { p1 with content_length := atoi v } := by
      rw [scanLine_nonMethod _ _ _ hclne]
      simp only [if_true]
      rfl
    obtain ⟨p3, h3, h4⟩ := scanLines_noLength after { p1 with content_length := atoi v }
      (fun l hl => hno l (List.mem_append_right _ hl))
    refine ⟨p3, ?_, h4⟩
    simp only [parse_request, hsplit, scanLines_append, h1, Option.some_bind, scanLines, hcl,
      hline, h3]

set_option maxRecDepth 100000 in
/-- Witness of the amended C11: a GET without the header gives -1, the header
`Content-Length: abc` gives what `atoi` makes of `abc`, and that is 0. -/
theorem parser_content_length_witness :
    (∃ p, parse_request (str "GET AAAAAAAAAAAAAAAAAAAAAAAAAAA HTTP/1.1\r\n\r\n") = some p ∧
      p.content_length = -1) ∧
    (∃ p, parse_request (str ("PUT AAAAAAAAAAAAAAAAAAAAAAAAAAA HTTP/1.1\r\n"
        ++ "Content-Length: abc\r\n\r\n")) = some p ∧ p.content_length = atoi (str "abc")) ∧
    atoi [97, 98, 99] = 0 :=
  ⟨(parser_content_length (str "GET AAAAAAAAAAAAAAAAAAAAAAAAAAA HTTP/1.1\r\n\r\n")).1
      (by decide),
    (parser_content_length (str ("PUT AAAAAAAAAAAAAAAAAAAAAAAAAAA HTTP/1.1\r\n"
      ++ "Content-Length: abc\r\n\r\n"))).2.1
      [str "PUT AAAAAAAAAAAAAAAAAAAAAAAAAAA HTTP/1.1"] [] (str "Content-Length: abc")
      (str "abc") (by decide) (by decide) (by decide),
    (parser_content_length []).2.2 97 [98, 99] (by decide) (by decide) (by decide)
      (by decide)⟩

/-! ## C12 and C13: requests with another method -/

/-- A chunk that does not start with the bytes `GET` or `PUT`, once parsed, is answered with
400 and leaves the process state, the log included, as it was. -/
theorem unsupported_method_reply (w : World) (c c1 : Conn) (chunk : List Nat) (p : Parsed)
    (fuel : Nat) (hread : c.read BUF_SIZE = (c1, some chunk))
    (hparse : parse_request chunk = some p)
    (hget : (cstr chunk).take 3 ≠ str "GET") (hput : (cstr chunk).take 3 ≠ str "PUT") :
    accept_job w c fuel = Outcome.done w (bad_request c1 (str "Unsupported method")) := by
  simp only [accept_job, hread, hparse, hget, hput, if_false]

set_option maxRecDepth 100000 in
/-- C12 fails on the code: the worker chooses the handler from the first three bytes of the
request. For `GETX /a` and `PUTS /a` no token is `GET` or `PUT`, the resource stays NULL,
and `get` or `put` is called with it (a NULL pointer handed to `strlen`); with a later
token `GET` the request `GETX GET AAA...A` is served as a GET of that file. -/
theorem method_prefix_reaches_handler :
    accept_job (World.init 3 [] true)
        (requestConn (str "GETX /a HTTP/1.1\r\n\r\n") []) 10 = Outcome.crash ∧
      accept_job (World.init 3 [] true)
        (requestConn (str "PUTS /a HTTP/1.1\r\nContent-Length: 1\r\n\r\n") [[65]]) 10
        = Outcome.crash ∧
      (accept_job
          (World.init 3 [(str "AAAAAAAAAAAAAAAAAAAAAAAAAAA",
            { readable := true, writable := true, content := str "hello" })] true)
          (requestConn (str "GETX GET AAAAAAAAAAAAAAAAAAAAAAAAAAA\r\n\r\n") []) 10).observe
        = some ((str ("GET AAAAAAAAAAAAAAAAAAAAAAAAAAA length 0\n" ++ "========\n")).map some,
            str "HTTP/1.1 200 OK\r\nContent-Length: 5\r\n\r\nhello") := by
  refine ⟨by decide, by decide, by decide⟩

set_option maxRecDepth 100000 in
/-- C13 fails on the code: with logging enabled, the request `POST /x` is answered with 400
`Unsupported method` and the process state is unchanged, so the log stays empty and the
counter stays 0; the request `GET /x`, whose name is invalid, is answered with 400 and
leaves the error record in the log. -/
theorem unsupported_method_not_logged :
    accept_job (World.init 3 [] true)
        (requestConn (str "POST /x HTTP/1.1\r\n\r\n") []) 10
      = Outcome.done (World.init 3 [] true)
          { incoming := [],
            sent := str ("HTTP/1.1 400 Bad Request\r\nContent-Length: 20\r\n\r\n"
              ++ "Unsupported method\r\n"),
            closed := true } ∧
      (accept_job (World.init 3 [] true)
        (requestConn (str "GET /x HTTP/1.1\r\n\r\n") []) 10).observe
      = some ((str "FAIL: GET /x HTTP/1.1 --- response 400\n========\n").map some,
          str ("HTTP/1.1 400 Bad Request\r\nContent-Length: 23\r\n\r\n"
            ++ "Invalid resource name\r\n")) := by
  refine ⟨by decide, by decide⟩

/-! ## C16: the receive loop for a known length -/

theorem Conn.read_eof (c : Conn) (count : Nat) (h : c.incoming = []) :
    c.read count = (c, some []) := by
  unfold Conn.read
  rw [h]

/-- When fewer bytes than the content length are still to arrive and no `read` fails, the
receive loop for a known length does not end, whatever the fuel: once the peer has shut
down, `read` returns 0 and the loop repeats it. -/
theorem put_known_short_stream (R : List Nat) (N : Int) : ∀ (fuel : Nat) (w : World) (c : Conn)
    (total offset : Int), (∀ r ∈ c.incoming, r ≠ Recv.error) →
    total + (pendingBytes c.incoming : Int) < N →
    put_known R N fuel w c total offset = none := by
  intro fuel
  induction fuel with
  | zero => intro w c total offset _ _; rfl
  | succ k ih =>
    intro w c total offset hdata hshort
    have hlt : total < N := by omega
    simp only [put_known, hlt, if_true]
    cases hin : c.incoming with
    | nil =>
      rw [Conn.read_eof c _ hin]
      simp only
      apply ih
      · exact hdata
      · simp only [List.length_nil, Nat.cast_zero, add_zero]
        exact hshort
    | cons r rest =>
      cases r with
      | error => exact absurd rfl (hdata Recv.error (by rw [hin]; exact List.mem_cons_self _ _))
      | data bs =>
        have hrest : ∀ x ∈ rest, x ≠ Recv.error := fun x hx =>
          hdata x (by rw [hin]; exact List.mem_cons_of_mem _ hx)
        rw [hin] at hshort
        simp only [pendingBytes, Nat.cast_add] at hshort
        rw [Conn.read_data c bs rest _ hin]
        generalize (if N - total < (BUF_SIZE : Int) then N - total
          else (BUF_SIZE : Int)).toNat = cnt
        by_cases hfit : bs.length ≤ cnt
        · simp only [hfit, if_true]
          apply ih
          · exact hrest
          · simp only
            omega
        · simp only [hfit, if_false]
          apply ih
          · intro x hx
            rcases List.mem_cons.1 hx with rfl | hx
            · exact fun h => Recv.noConfusion h
            · exact hrest x hx
          · simp only [pendingBytes, List.length_take, List.length_drop, Nat.cast_add]
            omega

theorem put_none_of_known_loop_none (w w1 : World) (c : Conn) (R : List Nat) (n : Int)
    (fuel : Nat) (hvalid : valid_filename R = true) (hopen : open_trunc w R = some w1)
    (hn : 0 < n)
    (hloop : put_known R n fuel (log w1 (str "PUT") R n).1 c 0 (log w1 (str "PUT") R n).2
      = none) :
    put w c R n fuel = none := by
  have hg := (open_trunc_spec w w1 R hopen).1
  have h0 : ¬ n = 0 := by omega
  have hneg : ¬ n < 0 := by omega
  simp only [put, hvalid, Bool.not_true, Bool.false_eq_true, if_false, hg, hopen, h0, hneg,
    hloop]

/-- C16 fails on the code: for a PUT with content length 5 whose client sends the two bytes
`AB` and then shuts down, every further `read` returns 0, the loop
`while(total_bytes_read < content_length)` repeats it with 2 bytes received for ever, and
`put` does not return for any number of reads. -/
theorem put_known_never_returns_after_eof : ∀ fuel : Nat,
    put (World.init 3 [] true)
      { incoming := [Recv.data (str "AB")], sent := [], closed := false }
      (str "AAAAAAAAAAAAAAAAAAAAAAAAAAA") 5 fuel = none := by
  intro fuel
  apply put_none_of_known_loop_none (World.init 3 [] true)
    (World.init 3 [(str "AAAAAAAAAAAAAAAAAAAAAAAAAAA",
      { readable := true, writable := true, content := [] })] true)
    _ _ 5 fuel (by decide) (by decide) (by decide)
  apply put_known_short_stream
  · intro r hr
    simp only [List.mem_singleton] at hr
    rw [hr]
    exact fun h => Recv.noConfusion h
  · decide

/-! ## C18: logging disabled -/

theorem file_write_log (w : World) (resource buf : List Nat) :
    (file_write w resource buf).log = w.log ∧
      (file_write w resource buf).log_offset = w.log_offset ∧
      (file_write w resource buf).log_fd = w.log_fd := by
  unfold file_write
  split <;> exact ⟨rfl, rfl, rfl⟩

theorem write_hex_to_log_disabled (w : World) (bytes_read total offset : Int)
    (content : List Nat) (hfd : w.log_fd < 0) :
    write_hex_to_log w bytes_read total offset content = (w, -1) := by
  simp only [write_hex_to_log, hfd, if_true]

theorem put_known_disabled (R : List Nat) (N : Int) : ∀ (fuel : Nat) (w : World) (c : Conn)
    (total : Int) (e : LoopEnd), w.log_fd < 0 →
    put_known R N fuel w c total (-1) = some e →
      e.world.log = w.log ∧ e.world.log_offset = w.log_offset ∧
      (∀ w1 c1 off, e = LoopEnd.finished w1 c1 off → off = -1) := by
  intro fuel
  induction fuel with
  | zero => intro w c total e _ h; simp [put_known] at h
  | succ k ih =>
    intro w c total e hfd h
    simp only [put_known] at h
    split at h
    · split at h
      · simp only [Option.some.injEq] at h
        subst h
        exact ⟨rfl, rfl, fun _ _ _ he => LoopEnd.noConfusion he⟩
      · rename_i c1 buf _
        have hw := file_write_log w R buf
        rw [write_hex_to_log_disabled _ _ _ _ _ (by rw [hw.2.2]; exact hfd)] at h
        obtain ⟨h1, h2, h3⟩ := ih _ _ _ e (by rw [hw.2.2]; exact hfd) h
        exact ⟨by rw [h1, hw.1], by rw [h2, hw.2.1], h3⟩
    · simp only [Option.some.injEq] at h
      subst h
      refine ⟨rfl, rfl, ?_⟩
      intro w1 c1 off he
      cases he
      rfl

theorem put_unspecified_disabled (R : List Nat) : ∀ (fuel : Nat) (w : World) (c : Conn)
    (total : Int) (e : LoopEnd), w.log_fd < 0 →
    put_unspecified R fuel w c total (-1) = some e →
      e.world.log = w.log ∧ e.world.log_offset = w.log_offset ∧
      (∀ w1 c1 off, e = LoopEnd.finished w1 c1 off → off = -1) := by
  intro fuel
  induction fuel with
  | zero => intro w c total e _ h; simp [put_unspecified] at h
  | succ k ih =>
    intro w c total e hfd h
    simp only [put_unspecified] at h
    split at h
    · simp only [Option.some.injEq] at h
      subst h
      exact ⟨rfl, rfl, fun _ _ _ he => LoopEnd.noConfusion he⟩
    · rename_i c1 buf _
      have hw := file_write_log w R buf
      rw [write_hex_to_log_disabled _ _ _ _ _ (by rw [hw.2.2]; exact hfd)] at h
      split at h
      · obtain ⟨h1, h2, h3⟩ := ih _ _ _ e (by rw [hw.2.2]; exact hfd) h
        exact ⟨by rw [h1, hw.1], by rw [h2, hw.2.1], h3⟩
      · simp only [Option.some.injEq] at h
        subst h
        refine ⟨hw.1, hw.2.1, ?_⟩
        intro w1 c1 off he
        cases he
        rfl

theorem open_trunc_log (w w1 : World) (R : List Nat) (h : open_trunc w R = some w1) :
    w1.log = w.log ∧ w1.log_offset = w.log_offset ∧ w1.log_fd = w.log_fd := by
  unfold open_trunc at h
  split at h
  · split at h
    · cases h; exact ⟨rfl, rfl, rfl⟩
    · cases h
  · split at h
    · cases h; exact ⟨rfl, rfl, rfl⟩
    · cases h

theorem log_error_disabled (w : World) (method resource : List Nat) (code : Int)
    (hfd : w.log_fd < 0) : log_error w method resource code = w := by
  simp only [log_error, hfd, if_true]

theorem log_put_disabled (w : World) (resource : List Nat) (n : Int) (hfd : w.log_fd < 0) :
    log_put w resource n = (w, -1) := by
  simp only [log_put, hfd, true_or, if_true]

theorem put_disabled (w : World) (c : Conn) (R : List Nat) (n : Int) (fuel : Nat)
    (w1 : World) (c1 : Conn) (hfd : w.log_fd < 0) (h : put w c R n fuel = some (w1, c1)) :
    w1.log = w.log ∧ w1.log_offset = w.log_offset := by
  have hne : ¬ (str "PUT" = str "GET") := by decide
  simp only [put] at h
  split at h
  · simp only [Option.some.injEq, Prod.mk.injEq] at h
    rw [← h.1, log_error_disabled _ _ _ _ hfd]
    exact ⟨rfl, rfl⟩
  · split at h
    · simp only [Option.some.injEq, Prod.mk.injEq] at h
      rw [← h.1, log_error_disabled _ _ _ _ hfd]
      exact ⟨rfl, rfl⟩
    · split at h
      · simp only [Option.some.injEq, Prod.mk.injEq] at h
        rw [← h.1, log_error_disabled _ _ _ _ hfd]
        exact ⟨rfl, rfl⟩
      · rename_i w0 hopen
        obtain ⟨ho1, ho2, ho3⟩ := open_trunc_log w w0 R hopen
        have hfd0 : w0.log_fd < 0 := by rw [ho3]; exact hfd
        have hlog : log w0 (str "PUT") R n = (w0, -1) := by
          simp only [log, hne, if_false, if_true, log_put_disabled w0 R n hfd0]
        rw [hlog] at h
        simp only at h
        split at h
        · cases h
        · simp only [Option.some.injEq, Prod.mk.injEq] at h
          rename_i w2 c2 hloop
          have hw2 : w2.log = w0.log ∧ w2.log_offset = w0.log_offset := by
            split at hloop
            · cases hloop
            · split at hloop
              · have := put_unspecified_disabled R fuel w0 c 0 _ hfd0 hloop
                exact ⟨this.1, this.2.1⟩
              · have := put_known_disabled R n fuel w0 c 0 _ hfd0 hloop
                exact ⟨this.1, this.2.1⟩
          rw [← h.1, hw2.1, hw2.2, ho1, ho2]
          exact ⟨rfl, rfl⟩
        · rename_i w2 c2 off hloop
          have hw2 : w2.log = w0.log ∧ w2.log_offset = w0.log_offset ∧ off = -1 := by
            split at hloop
            · cases hloop
              exact ⟨(file_write_log _ _ _).1, (file_write_log _ _ _).2.1, rfl⟩
            · split at hloop
              · have := put_unspecified_disabled R fuel w0 c 0 _ hfd0 hloop
                exact ⟨this.1, this.2.1, this.2.2 _ _ _ rfl⟩
              · have := put_known_disabled R n fuel w0 c 0 _ hfd0 hloop
                exact ⟨this.1, this.2.1, this.2.2 _ _ _ rfl⟩
          simp only [hw2.2.2, ne_eq, not_true_eq_false, if_false, Option.some.injEq,
            Prod.mk.injEq] at h
          rw [← h.1, hw2.1, hw2.2.1, ho1, ho2]
          exact ⟨rfl, rfl⟩

/-- C18. When no log target is configured (`log_fd < 0`), `log_get`, `log_put`,
`write_hex_to_log` and `log_error` return the process state as it was for every input, so the
offset counter is unchanged and nothing is written (`log_put` and `write_hex_to_log` return
-1); and whatever `put` does, in any of its three content-length modes, the log and the
counter after it are those before it: no header, no dump, no footer. -/
theorem logging_disabled_noop (w : World) (hfd : w.log_fd < 0) :
    (∀ resource, log_get w resource = w) ∧
    (∀ resource n, log_put w resource n = (w, -1)) ∧
    (∀ bytes_read total offset content,
      write_hex_to_log w bytes_read total offset content = (w, -1)) ∧
    (∀ method resource code, log_error w method resource code = w) ∧
    (∀ c R n fuel w1 c1, put w c R n fuel = some (w1, c1) →
      w1.log = w.log ∧ w1.log_offset = w.log_offset) := by
  refine ⟨?_, fun resource n => log_put_disabled w resource n hfd,
    fun bytes_read total offset content =>
      write_hex_to_log_disabled w bytes_read total offset content hfd,
    fun method resource code => log_error_disabled w method resource code hfd,
    fun c R n fuel w1 c1 h => put_disabled w c R n fuel w1 c1 hfd h⟩
  intro resource
  simp only [log_get, hfd, if_true]

set_option maxRecDepth 100000 in
/-- Witness of C18: without a log, a PUT in each of the three modes runs to its 201 and
leaves the log empty and the counter at 0. -/
theorem logging_disabled_noop_witness :
    (∀ n ∈ [(0 : Int), -1, 2],
      (put (World.init (-1) [] true)
          { incoming := [Recv.data (str "AB")], sent := [], closed := false }
          (str "AAAAAAAAAAAAAAAAAAAAAAAAAAA") n 10).map
        (fun r => (r.1.log, r.1.log_offset, r.2.sent.take 12))
      = some ([], 0, str "HTTP/1.1 201")) ∧
    log_error (World.init (-1) [] true) (str "GET") (str "/x") 400 = World.init (-1) [] true :=
  ⟨by decide, (logging_disabled_noop (World.init (-1) [] true) (by decide)).2.2.2.1 _ _ _⟩

/-! ## C19: a GET of a missing or unreadable file -/

/-- C19. For a valid name, a GET of a file that does not exist sends the 404 response and
leaves the process state, log and counter included, as it was; a GET of a file that exists
and that the server cannot read sends the 403 response and calls `log_error` with code 403
once, which with logging enabled is exactly one error record, written at the counter. -/
theorem get_missing_or_unreadable (w : World) (c : Conn) (R : List Nat) (fuel : Nat)
    (hvalid : valid_filename R = true) :
    (findFile w.files R = none →
      get w c R fuel = some (w, not_found c (str "Resource not available")) ∧
      not_found c (str "Resource not available") = { c with
        sent := c.sent ++ str ("HTTP/1.1 404 Not Found\r\nContent-Length: 24\r\n\r\n"
          ++ "Resource not available\r\n"),
        closed := true }) ∧
    (∀ f, findFile w.files R = some f → f.readable = false →
      get w c R fuel
        = some (log_error w (str "GET") R 403, forbidden c (str "No permission to read")) ∧
      forbidden c (str "No permission to read") = { c with
        sent := c.sent ++ str ("HTTP/1.1 403 Forbidden\r\nContent-Length: 23\r\n\r\n"
          ++ "No permission to read\r\n"),
        closed := true } ∧
      (0 ≤ w.log_fd → 0 ≤ w.log_offset →
        log_error w (str "GET") R 403 = { w with
          log_offset := w.log_offset + 73,
          log := w.log ++ [(w.log_offset, str "FAIL: GET " ++ R
            ++ str " HTTP/1.1 --- response 403\n========\n")] })) := by
  have hlen : R.length = 27 := ((valid_filename_iff R).1 hvalid).1
  refine ⟨?_, ?_⟩
  · intro hnone
    refine ⟨?_, ?_⟩
    · simp [get, hvalid, access_F_OK, hnone]
    · have e : snprintf 512
          (str "HTTP/1.1 " ++ fmt_d 404 ++ str " " ++ str "Not Found" ++ str "\r\n"
            ++ str "Content-Length: "
            ++ fmt_d (wrap32 (((str "Resource not available").length : Int) + 2)) ++ str "\r\n"
            ++ str "\r\n" ++ str "Resource not available" ++ str "\r\n")
          = str ("HTTP/1.1 404 Not Found\r\nContent-Length: 24\r\n\r\n"
                  ++ "Resource not available\r\n") := by decide
      simp only [not_found, base_response, e, if_true, Conn.write, Conn.close]
  · intro f hf hread
    refine ⟨?_, ?_, ?_⟩
    · simp [get, hvalid, access_F_OK, access_R_OK, hf, hread]
    · have e : snprintf 512
          (str "HTTP/1.1 " ++ fmt_d 403 ++ str " " ++ str "Forbidden" ++ str "\r\n"
            ++ str "Content-Length: "
            ++ fmt_d (wrap32 (((str "No permission to read").length : Int) + 2)) ++ str "\r\n"
            ++ str "\r\n" ++ str "No permission to read" ++ str "\r\n")
          = str ("HTTP/1.1 403 Forbidden\r\nContent-Length: 23\r\n\r\n"
                  ++ "No permission to read\r\n") := by decide
      simp only [forbidden, base_response, e, if_true, Conn.write, Conn.close]
    · intro hfd hoff
      have hg := (log_error_eq w (str "GET") R 403 hfd hoff (by decide) (by decide)).1
      have e1 : str "FAIL: " ++ str "GET" ++ str " " ++ R
          ++ str " HTTP/1.1 --- response " ++ dec 403 ++ str "\n========\n"
          = str "FAIL: GET " ++ R ++ str " HTTP/1.1 --- response 403\n========\n" := by
        have a : str " HTTP/1.1 --- response 403\n========\n"
            = str " HTTP/1.1 --- response " ++ dec 403 ++ str "\n========\n" := by decide
        have b : str "FAIL: GET " = str "FAIL: " ++ str "GET" ++ str " " := by decide
        rw [a, b]
        simp only [List.append_assoc]
      simp only [Nat.cast_ofNat, e1, hlen] at hg
      rw [hg]
      rfl

set_option maxRecDepth 100000 in
/-- Witness of C19: with logging enabled, a GET of a missing file, then of a file without
read permission. -/
theorem get_missing_or_unreadable_witness :
    get (World.init 3 [] true) { incoming := [], sent := [], closed := false }
        (str "AAAAAAAAAAAAAAAAAAAAAAAAAAA") 1
      = some (World.init 3 [] true,
          not_found { incoming := [], sent := [], closed := false }
            (str "Resource not available")) ∧
    (get (World.init 3 [(str "AAAAAAAAAAAAAAAAAAAAAAAAAAA",
          { readable := false, writable := true, content := str "secret" })] true)
        { incoming := [], sent := [], closed := false }
        (str "AAAAAAAAAAAAAAAAAAAAAAAAAAA") 1).map (fun r => (r.1.log, r.2.sent.take 12))
      = some ([(0, str ("FAIL: GET AAAAAAAAAAAAAAAAAAAAAAAAAAA HTTP/1.1 --- response 403\n"
          ++ "========\n"))], str "HTTP/1.1 403") :=
  ⟨((get_missing_or_unreadable (World.init 3 [] true)
      { incoming := [], sent := [], closed := false } (str "AAAAAAAAAAAAAAAAAAAAAAAAAAA") 1
      (by decide)).1 (by decide)).1, by decide⟩

/-! ## C20: status responses -/

theorem Conn.read_sent (c c1 : Conn) (count : Nat) (r : Option (List Nat))
    (h : c.read count = (c1, r)) : c1.sent = c.sent ∧ c1.closed = c.closed := by
  unfold Conn.read at h
  split at h
  · cases h; exact ⟨rfl, rfl⟩
  · cases h; exact ⟨rfl, rfl⟩
  · split at h <;> cases h <;> exact ⟨rfl, rfl⟩

theorem put_known_sent (R : List Nat) (N : Int) : ∀ (fuel : Nat) (w : World) (c : Conn)
    (total offset : Int) (e : LoopEnd),
    put_known R N fuel w c total offset = some e →
      e.conn.sent = c.sent ∧ (∀ w1 c1, e = LoopEnd.aborted w1 c1 → c1.closed = true) := by
  intro fuel
  induction fuel with
  | zero => intro w c total offset e h; simp [put_known] at h
  | succ k ih =>
    intro w c total offset e h
    simp only [put_known] at h
    split at h
    · split at h
      · rename_i c1 hr
        simp only [Option.some.injEq] at h
        subst h
        have := (Conn.read_sent c c1 _ _ hr).1
        refine ⟨this, ?_⟩
        intro w1 c2 he
        cases he
        rfl
      · rename_i c1 buf hr
        obtain ⟨h1, h2⟩ := ih _ _ _ _ e h
        have := (Conn.read_sent c c1 _ _ hr).1
        exact ⟨by rw [h1]; exact this, h2⟩
    · simp only [Option.some.injEq] at h
      subst h
      exact ⟨rfl, fun _ _ he => LoopEnd.noConfusion he⟩

theorem put_unspecified_sent (R : List Nat) : ∀ (fuel : Nat) (w : World) (c : Conn)
    (total offset : Int) (e : LoopEnd),
    put_unspecified R fuel w c total offset = some e →
      e.conn.sent = c.sent ∧ (∀ w1 c1, e = LoopEnd.aborted w1 c1 → c1.closed = true) := by
  intro fuel
  induction fuel with
  | zero => intro w c total offset e h; simp [put_unspecified] at h
  | succ k ih =>
    intro w c total offset e h
    simp only [put_unspecified] at h
    split at h
    · rename_i c1 hr
      simp only [Option.some.injEq] at h
      subst h
      have := (Conn.read_sent c c1 _ _ hr).1
      refine ⟨this, ?_⟩
      intro w1 c2 he
      cases he
      rfl
    · rename_i c1 buf hr
      have hs := (Conn.read_sent c c1 _ _ hr).1
      split at h
      · obtain ⟨h1, h2⟩ := ih _ _ _ _ e h
        exact ⟨by rw [h1]; exact hs, h2⟩
      · simp only [Option.some.injEq] at h
        subst h
        exact ⟨hs, fun _ _ he => LoopEnd.noConfusion he⟩

/-- Every way `put` can end: one of its three error responses, a connection dropped without
a response, or the response `created` whose message is the resource name. -/
theorem put_outcome (w : World) (c : Conn) (R : List Nat) (n : Int) (fuel : Nat)
    (w1 : World) (c1 : Conn) (h : put w c R n fuel = some (w1, c1)) :
    c1 = bad_request c (str "Invalid resource name") ∨
      c1 = forbidden c (str "No permission to write") ∨
      c1 = internal_server_error c open_error_text ∨
      (c1.sent = c.sent ∧ c1.closed = true) ∨
      (∃ c2, c2.sent = c.sent ∧ c1 = created c2 R) := by
  simp only [put] at h
  split at h
  · simp only [Option.some.injEq, Prod.mk.injEq] at h
    exact Or.inl h.2.symm
  · split at h
    · simp only [Option.some.injEq, Prod.mk.injEq] at h
      exact Or.inr (Or.inl h.2.symm)
    · split at h
      · simp only [Option.some.injEq, Prod.mk.injEq] at h
        exact Or.inr (Or.inr (Or.inl h.2.symm))
      · rename_i w0 hopen
        split at h
        · cases h
        · rename_i w2 c2 hloop
          simp only [Option.some.injEq, Prod.mk.injEq] at h
          have hc : c2.sent = c.sent ∧ c2.closed = true := by
            split at hloop
            · cases hloop
            · split at hloop
              · have := put_unspecified_sent R fuel _ c 0 _ _ hloop
                exact ⟨this.1, this.2 _ _ rfl⟩
              · have := put_known_sent R n fuel _ c 0 _ _ hloop
                exact ⟨this.1, this.2 _ _ rfl⟩
          rw [← h.2]
          exact Or.inr (Or.inr (Or.inr (Or.inl hc)))
        · rename_i w2 c2 off hloop
          simp only [Option.some.injEq, Prod.mk.injEq] at h
          have hc : c2.sent = c.sent := by
            split at hloop
            · cases hloop
              rfl
            · split at hloop
              · exact (put_unspecified_sent R fuel _ c 0 _ _ hloop).1
              · exact (put_known_sent R n fuel _ c 0 _ _ hloop).1
          exact Or.inr (Or.inr (Or.inr (Or.inr ⟨c2, hc, h.2.symm⟩)))

theorem statusReply_length_le (code : Nat) (reason body : List Nat) (hcode : code < 1000)
    (hreason : reason.length ≤ 21) (hbody : body.length ≤ 139) :
    (statusReply code reason body).length ≤ 511 := by
  have h1 : (dec code).length ≤ 3 := dec_length_le 2 code (by omega)
  have h2 : (dec (body.length + 2)).length ≤ 3 := dec_length_le 2 _ (by omega)
  have e1 : (str "HTTP/1.1 ").length = 9 := by decide
  have e2 : (str " ").length = 1 := by decide
  have e3 : (str "\r\n").length = 2 := by decide
  have e4 : (str "Content-Length: ").length = 16 := by decide
  simp only [statusReply, List.length_append, e1, e2, e3, e4]
  omega

/-- C20. For every status response of `base_response` that fits its 512-byte buffer, the
bytes sent are the status line, the `Content-Length` header, a blank line, the message and a
CRLF, and the value of `Content-Length` is the length of the message plus 2, the number of
bytes sent after the blank line. Every response the server builds fits (codes of three
digits, reasons of at most 21 bytes, messages of at most 139 bytes). The only success
response of `put` is `created`, the 201 response whose message is the resource name. -/
theorem base_response_format (c : Conn) (code : Nat) (status message : List Nat)
    (close : Bool) (hfit : (statusReply code status message).length ≤ 511) :
    base_response c (code : Int) status message close
      = { c with sent := c.sent ++ statusReply code status message,
                 closed := if close then true else c.closed } ∧
    statusReply code status message
      = (str "HTTP/1.1 " ++ dec code ++ str " " ++ status ++ str "\r\n")
        ++ (str "Content-Length: " ++ dec (message.length + 2) ++ str "\r\n")
        ++ str "\r\n" ++ (message ++ str "\r\n") ∧
    (message ++ str "\r\n").length = message.length + 2 ∧
    (code < 1000 → status.length ≤ 21 → message.length ≤ 139 →
      (statusReply code status message).length ≤ 511) ∧
    (∀ R : List Nat, created c R = base_response c 201 (str "Created") R true) ∧
    (∀ (w : World) (R : List Nat) (n : Int) (fuel : Nat) (w1 : World) (c1 : Conn),
      put w c R n fuel = some (w1, c1) →
        c1 = bad_request c (str "Invalid resource name") ∨
        c1 = forbidden c (str "No permission to write") ∨
        c1 = internal_server_error c open_error_text ∨
        (c1.sent = c.sent ∧ c1.closed = true) ∨
        (∃ c2, c2.sent = c.sent ∧ c1 = created c2 R)) := by
  have e3 : (str "\r\n").length = 2 := by decide
  refine ⟨?_, ?_, ?_, statusReply_length_le code status message, fun R => rfl,
    fun w R n fuel w1 c1 h => put_outcome w c R n fuel w1 c1 h⟩
  · have hm : message.length ≤ 511 := by
      simp only [statusReply, List.length_append] at hfit
      omega
    have hw : wrap32 ((message.length : Int) + 2) = ((message.length + 2 : Nat) : Int) := by
      rw [wrap32_of_range _ (by omega) (by omega)]
      push_cast
      rfl
    have htext : str "HTTP/1.1 " ++ fmt_d (code : Int) ++ str " " ++ status ++ str "\r\n"
        ++ str "Content-Length: " ++ fmt_d (wrap32 ((message.length : Int) + 2)) ++ str "\r\n"
        ++ str "\r\n" ++ message ++ str "\r\n" = statusReply code status message := by
      rw [hw, fmt_d_natCast, fmt_d_natCast]
      rfl
    simp only [base_response, htext,
      snprintf_of_length_lt 512 (statusReply code status message) (by omega), Conn.write,
      Conn.close]
    cases close <;> simp
  · simp only [statusReply, List.append_assoc]
  · simp only [List.length_append, e3]

set_option maxRecDepth 100000 in
/-- Witness of C20: the 201 response for the name of 27 letters `A`. -/
theorem base_response_format_witness :
    base_response { incoming := [], sent := [], closed := false } 201 (str "Created")
        (str "AAAAAAAAAAAAAAAAAAAAAAAAAAA") true
      = { incoming := [],
          sent := str ("HTTP/1.1 201 Created\r\nContent-Length: 29\r\n\r\n"
            ++ "AAAAAAAAAAAAAAAAAAAAAAAAAAA\r\n"),
          closed := true } := by
  have h := (base_response_format { incoming := [], sent := [], closed := false } 201
    (str "Created") (str "AAAAAAAAAAAAAAAAAAAAAAAAAAA") true (by decide)).1
  simp only [Nat.cast_ofNat] at h
  rw [h]
  decide

/-! ## C17: the receive loop for an unspecified length -/

theorem Conn.read_length_le (c c1 : Conn) (count : Nat) (buf : List Nat)
    (h : c.read count = (c1, some buf)) : buf.length ≤ count := by
  unfold Conn.read at h
  split at h
  · cases h; simp
  · cases h
  · split at h
    · cases h; assumption
    · cases h
      simp only [List.length_take]
      omega

theorem readsUntilShort_shape : ∀ (fuel : Nat) (c c1 : Conn) (rs : List (List Nat)),
    readsUntilShort fuel c = some (rs, c1) →
      ∃ fulls last, rs = fulls ++ [last] ∧ (∀ b ∈ fulls, b.length = BUF_SIZE) ∧
        last.length < BUF_SIZE := by
  intro fuel
  induction fuel with
  | zero => intro c c1 rs h; simp [readsUntilShort] at h
  | succ k ih =>
    intro c c1 rs h
    simp only [readsUntilShort] at h
    split at h
    · cases h
    · rename_i c2 buf hr
      have hle := Conn.read_length_le c c2 _ buf hr
      split at h
      · rename_i hfull
        split at h
        · cases h
        · rename_i r hrec
          simp only [Option.some.injEq, Prod.mk.injEq] at h
          obtain ⟨fulls, last, h1, h2, h3⟩ := ih c2 r.2 r.1 (by rw [hrec])
          refine ⟨buf :: fulls, last, ?_, ?_, h3⟩
          · rw [← h.1, h1]
            rfl
          · intro b hb
            rcases List.mem_cons.1 hb with rfl | hb
            · exact hfull
            · exact h2 b hb
      · rename_i hshort
        simp only [Option.some.injEq, Prod.mk.injEq] at h
        refine ⟨[], buf, by rw [← h.1]; rfl, by simp, ?_⟩
        omega

theorem readsUntilShort_total : ∀ (fuel : Nat) (c : Conn),
    (∀ r ∈ c.incoming, r ≠ Recv.error) → pendingBytes c.incoming < fuel →
      ∃ rs c1, readsUntilShort fuel c = some (rs, c1) := by
  intro fuel
  induction fuel with
  | zero => intro c _ h; omega
  | succ k ih =>
    intro c hdata hpend
    have hB : BUF_SIZE = 8000 := rfl
    simp only [readsUntilShort]
    cases hin : c.incoming with
    | nil =>
      rw [Conn.read_eof c _ hin]
      simp only [List.length_nil, hB]
      exact ⟨_, _, rfl⟩
    | cons r rest =>
      cases r with
      | error => exact absurd rfl (hdata Recv.error (by rw [hin]; exact List.mem_cons_self _ _))
      | data bs =>
        have hrest : ∀ x ∈ rest, x ≠ Recv.error := fun x hx =>
          hdata x (by rw [hin]; exact List.mem_cons_of_mem _ hx)
        rw [hin] at hpend
        simp only [pendingBytes] at hpend
        rw [Conn.read_data c bs rest _ hin]
        by_cases hfit : bs.length ≤ BUF_SIZE
        · simp only [hfit, if_true]
          by_cases hfull : bs.length = BUF_SIZE
          · simp only [hfull, if_true]
            obtain ⟨rs, c1, h1⟩ := ih { c with incoming := rest } hrest (by simp only; omega)
            rw [h1]
            exact ⟨_, _, rfl⟩
          · simp only [hfull, if_false]
            exact ⟨_, _, rfl⟩
        · simp only [hfit, if_false]
          have htake : (bs.take BUF_SIZE).length = BUF_SIZE := by
            simp only [List.length_take]
            omega
          simp only [htake, if_true]
          obtain ⟨rs, c1, h1⟩ := ih
            { c with incoming := Recv.data (bs.drop BUF_SIZE) :: rest }
            (by
              intro x hx
              rcases List.mem_cons.1 hx with rfl | hx
              · exact fun h => Recv.noConfusion h
              · exact hrest x hx)
            (by simp only [pendingBytes, List.length_drop]; omega)
          rw [h1]
          exact ⟨_, _, rfl⟩

/-- The receive loop for an unspecified length appends to the file the bytes of every
read up to the first short one and stops there. -/
theorem put_unspecified_stores (R : List Nat) : ∀ (fuel : Nat) (w : World) (c c1 : Conn)
    (total offset : Int) (rs : List (List Nat)) (f : File),
    readsUntilShort fuel c = some (rs, c1) → findFile w.files R = some f →
    ∃ w1 off1, put_unspecified R fuel w c total offset = some (LoopEnd.finished w1 c1 off1) ∧
      findFile w1.files R = some { f with content := f.content ++ rs.flatten } := by
  intro fuel
  induction fuel with
  | zero => intro w c c1 total offset rs f h; simp [readsUntilShort] at h
  | succ k ih =>
    intro w c c1 total offset rs f h hfind
    simp only [readsUntilShort] at h
    simp only [put_unspecified]
    split at h
    · cases h
    · rename_i c2 buf hr
      have hfind1 : findFile (write_hex_to_log (file_write w R buf) (buf.length : Int)
          (total + (buf.length : Int)) offset buf).1.files R
            = some { f with content := f.content ++ buf } := by
        rw [write_hex_to_log_files]
        exact file_write_find w R buf f hfind
      split at h
      · rename_i hfull
        have hfull' : (buf.length : Int) = (BUF_SIZE : Int) := by rw [hfull]
        simp only [hfull', if_true]
        split at h
        · cases h
        · rename_i r hrec
          simp only [Option.some.injEq, Prod.mk.injEq] at h
          obtain ⟨w1, off1, h1, h2⟩ := ih _ c2 r.2 _ _ r.1 _ (by rw [hrec]) hfind1
          rw [hfull'] at h1
          refine ⟨w1, off1, by rw [← h.2]; exact h1, ?_⟩
          rw [h2, ← h.1]
          simp
      · rename_i hshort
        have hshort' : ¬ (buf.length : Int) = (BUF_SIZE : Int) := by
          intro he
          exact hshort (by exact_mod_cast he)
        simp only [hshort', if_false]
        simp only [Option.some.injEq, Prod.mk.injEq] at h
        refine ⟨_, _, by rw [← h.2], ?_⟩
        rw [hfind1, ← h.1]
        simp

/-- C17. In unspecified-length mode (a negative content length, -1 from the parser) the
receive loop of `put` stops at the first read that returns fewer than 8000 bytes: `put`
returns with 201 on the connection as that read left it, and the stored file holds exactly
the concatenation, in order, of the bytes returned by every read up to and including the
short one; all reads before it returned 8000 bytes. On a connection where no read fails
the short read always comes. -/
theorem put_unspecified_stores_reads (w : World) (c c1 : Conn) (R : List Nat) (n : Int)
    (fuel : Nat) (rs : List (List Nat))
    (hvalid : valid_filename R = true) (hopen : (open_trunc w R).isSome = true)
    (hn : n < 0) (hreads : readsUntilShort fuel c = some (rs, c1)) :
    (∃ w1, put w c R n fuel = some (w1, created c1 R) ∧
      ∃ f, findFile w1.files R = some f ∧ f.content = rs.flatten) ∧
    (∃ fulls last, rs = fulls ++ [last] ∧ (∀ b ∈ fulls, b.length = 8000) ∧
      last.length < 8000) ∧
    (∀ c0 : Conn, (∀ r ∈ c0.incoming, r ≠ Recv.error) →
      ∃ fuel0 rs0 c2, readsUntilShort fuel0 c0 = some (rs0, c2)) := by
  refine ⟨?_, readsUntilShort_shape fuel c c1 rs hreads, ?_⟩
  · obtain ⟨w0, hw0⟩ := Option.isSome_iff_exists.1 hopen
    obtain ⟨hguard, f0, hf0, _, hcont0⟩ := open_trunc_spec w w0 R hw0
    have hlogfiles : (log w0 (str "PUT") R n).1.files = w0.files := by
      have hne' : ¬ (str "PUT" = str "GET") := by decide
      simp only [log, hne', if_false, if_true, log_put_files]
    obtain ⟨w1, off1, h1, h2⟩ := put_unspecified_stores R fuel (log w0 (str "PUT") R n).1 c c1 0
      (log w0 (str "PUT") R n).2 rs f0 hreads (by rw [hlogfiles]; exact hf0)
    have h0 : ¬ n = 0 := by omega
    refine ⟨if off1 ≠ -1 then (pwrite w1 (str "========\n") off1).1 else w1, ?_,
      { f0 with content := f0.content ++ rs.flatten }, ?_, ?_⟩
    · simp only [put, hvalid, Bool.not_true, Bool.false_eq_true, if_false, hguard, hw0, h0, hn,
        if_true, h1]
    · split
      · rw [(pwrite_files _ _ _).1]; exact h2
      · exact h2
    · simp [hcont0]
  · intro c0 hdata
    obtain ⟨rs0, c2, h⟩ := readsUntilShort_total (pendingBytes c0.incoming + 1) c0 hdata
      (by omega)
    exact ⟨_, rs0, c2, h⟩

set_option maxRecDepth 100000 in
/-- Witness of C17: the payload `hello` read in one short read, over an older file. -/
theorem put_unspecified_stores_reads_witness :
    ∃ w1, put
        (World.init 3 [(str "AAAAAAAAAAAAAAAAAAAAAAAAAAA",
          { readable := true, writable := true, content := str "old content" })] true)
        { incoming := [Recv.data (str "hello"), Recv.data (str "next")], sent := [],
          closed := false }
        (str "AAAAAAAAAAAAAAAAAAAAAAAAAAA") (-1) 3
        = some (w1, created
            { incoming := [Recv.data (str "next")], sent := [], closed := false }
            (str "AAAAAAAAAAAAAAAAAAAAAAAAAAA")) ∧
      ∃ f, findFile w1.files (str "AAAAAAAAAAAAAAAAAAAAAAAAAAA") = some f ∧
        f.content = [str "hello"].flatten :=
  (put_unspecified_stores_reads _ _ _ (str "AAAAAAAAAAAAAAAAAAAAAAAAAAA") (-1) 3
    [str "hello"] (by decide) (by decide) (by decide) (by decide)).1

/-! ## C14 and C15: the work queue -/

/-- With reads of freed memory undefined, no call of `dequeue` on a non-empty queue is
defined: the node is freed before its `next` field is read. -/
theorem dequeue_undefined (q : Queue) (h : queue_is_empty q = false) :
    dequeue FreedRead.undefined q = Dequeued.undefined := by
  unfold dequeue
  rw [h]
  simp only [Bool.false_eq_true, if_false]
  cases hf : q.first with
  | none => simp [queue_is_empty, hf] at h
  | some tmp =>
    simp only
    cases hl : load FreedRead.undefined q.heap tmp with
    | none => rfl
    | some node =>
      simp only
      have hlt : tmp < q.heap.length := by
        by_contra hge
        have : q.heap[tmp]? = none := List.getElem?_eq_none (by omega)
        simp [load, this] at hl
      have : load FreedRead.undefined (q.heap.set tmp (Cell.freed node)) tmp = none := by
        simp only [load, List.getElem?_set_self hlt]
      rw [this]

theorem chain_bounds (heap : List Cell) : ∀ (xs : List Int) (a l : Nat),
    Chain heap a xs l → a ≤ l ∧ l < heap.length ∧
      ∃ x, heap[l]? = some (Cell.live { fd := x, next := none }) := by
  intro xs
  induction xs with
  | nil => intro a l h; exact absurd h (by simp [Chain])
  | cons x rest ih =>
    intro a l h
    cases rest with
    | nil =>
      simp only [Chain] at h
      obtain ⟨h1, rfl⟩ := h
      refine ⟨le_refl _, ?_, x, h1⟩
      by_contra hge
      have : heap[l]? = none := List.getElem?_eq_none (by omega)
      rw [this] at h1
      cases h1
    | cons y rest1 =>
      simp only [Chain] at h
      obtain ⟨b, _, hab, hc⟩ := h
      obtain ⟨h1, h2, h3⟩ := ih b l hc
      exact ⟨by omega, h2, h3⟩

theorem chain_frame (heap heap1 : List Cell) : ∀ (xs : List Int) (a l : Nat),
    Chain heap a xs l → (∀ i, a ≤ i → heap1[i]? = heap[i]?) → Chain heap1 a xs l := by
  intro xs
  induction xs with
  | nil => intro a l h _; exact absurd h (by simp [Chain])
  | cons x rest ih =>
    intro a l h hsame
    cases rest with
    | nil =>
      simp only [Chain] at h ⊢
      exact ⟨by rw [hsame a (le_refl _)]; exact h.1, h.2⟩
    | cons y rest1 =>
      simp only [Chain] at h ⊢
      obtain ⟨b, h1, hab, hc⟩ := h
      exact ⟨b, by rw [hsame a (le_refl _)]; exact h1, hab,
        ih b l hc (fun i hi => hsame i (by omega))⟩

theorem chain_snoc (heap : List Cell) (v : Int) : ∀ (xs : List Int) (a l : Nat) (node : Node),
    Chain heap a xs l → heap[l]? = some (Cell.live node) →
    Chain ((heap ++ [Cell.live { fd := v, next := none }]).set l
        (Cell.live { node with next := some heap.length }))
      a (xs ++ [v]) heap.length := by
  intro xs
  induction xs with
  | nil => intro a l node h _; exact absurd h (by simp [Chain])
  | cons x rest ih =>
    intro a l node h hl
    have hb := chain_bounds heap _ a l h
    cases rest with
    | nil =>
      simp only [Chain] at h
      obtain ⟨h1, rfl⟩ := h
      rw [h1] at hl
      cases hl
      simp only [List.nil_append, List.cons_append, Chain]
      refine ⟨heap.length, ?_, hb.2.1, ?_, rfl⟩
      · rw [List.getElem?_set_self (by simp only [List.length_append, List.length_singleton]; omega)]
      · rw [List.getElem?_set_ne (by omega), List.getElem?_concat_length]
    | cons y rest1 =>
      simp only [Chain] at h
      obtain ⟨b, h1, hab, hc⟩ := h
      have hbl := (chain_bounds heap _ b l hc).1
      simp only [List.cons_append, Chain]
      refine ⟨b, ?_, hab, ih b l node hc hl⟩
      rw [List.getElem?_set_ne (by omega), List.getElem?_append_left (by omega)]
      exact h1

theorem represents_enqueue (q : Queue) (xs : List Int) (v : Int) (h : Represents q xs) :
    ∃ q1, enqueue q v = some q1 ∧ Represents q1 (xs ++ [v]) := by
  cases xs with
  | nil =>
    simp only [Represents] at h
    refine ⟨{ heap := q.heap ++ [Cell.live { fd := v, next := none }],
              first := some q.heap.length, last := some q.heap.length },
      by simp only [enqueue, h.2], ?_⟩
    simp only [List.nil_append, Represents, Chain]
    exact ⟨q.heap.length, q.heap.length, rfl, rfl, List.getElem?_concat_length _ _, rfl⟩
  | cons x rest =>
    simp only [Represents] at h
    obtain ⟨a, l, hf, hl, hc⟩ := h
    obtain ⟨_, hlt, x1, hlast⟩ := chain_bounds q.heap _ a l hc
    have hget : (q.heap ++ [Cell.live { fd := v, next := none }])[l]?
        = some (Cell.live { fd := x1, next := none }) := by
      rw [List.getElem?_append_left hlt]
      exact hlast
    refine ⟨{ heap := (q.heap ++ [Cell.live { fd := v, next := none }]).set l
                (Cell.live { fd := x1, next := some q.heap.length }),
              first := q.first, last := some q.heap.length },
      by simp only [enqueue, hl, hget], ?_⟩
    have hsn := chain_snoc q.heap v _ a l _ hc hlast
    cases hr : rest ++ [v] with
    | nil => simp at hr
    | cons y rest1 =>
      simp only [List.cons_append, hr] at hsn ⊢
      simp only [Represents]
      exact ⟨a, q.heap.length, hf, rfl, hsn⟩

theorem represents_dequeue (q : Queue) (x : Int) (rest : List Int)
    (h : Represents q (x :: rest)) :
    ∃ q1, dequeue FreedRead.stale q = Dequeued.value q1 x ∧ Represents q1 rest := by
  simp only [Represents] at h
  obtain ⟨a, l, hf, hl, hc⟩ := h
  have hne : queue_is_empty q = false := by simp [queue_is_empty, hf]
  cases rest with
  | nil =>
    simp only [Chain] at hc
    obtain ⟨h1, rfl⟩ := hc
    have hlt : l < q.heap.length := by
      by_contra hge
      have : q.heap[l]? = none := List.getElem?_eq_none (by omega)
      rw [this] at h1
      cases h1
    refine ⟨{ heap := q.heap.set l (Cell.freed { fd := x, next := none }),
              first := none, last := none }, ?_, ⟨rfl, rfl⟩⟩
    simp only [dequeue, hne, Bool.false_eq_true, if_false, hf, load, h1,
      List.getElem?_set_self hlt, if_true]
  | cons y rest1 =>
    simp only [Chain] at hc
    obtain ⟨b, h1, hab, hc1⟩ := hc
    have hlt : a < q.heap.length := by
      by_contra hge
      have : q.heap[a]? = none := List.getElem?_eq_none (by omega)
      rw [this] at h1
      cases h1
    refine ⟨{ heap := q.heap.set a (Cell.freed { fd := x, next := some b }),
              first := some b, last := q.last }, ?_, ?_⟩
    · have hsome : ¬ (some b = (none : Option Nat)) := by simp
      simp only [dequeue, hne, Bool.false_eq_true, if_false, hf, load, h1,
        List.getElem?_set_self hlt, hsome]
    · simp only [Represents]
      refine ⟨b, l, rfl, hl, ?_⟩
      apply chain_frame q.heap _ _ b l hc1
      intro i hi
      rw [List.getElem?_set_ne (by omega)]

/-- If a freed block keeps its bytes until it is allocated again, the queue is a FIFO list:
`enqueue` appends, `dequeue` returns and removes the oldest descriptor, and
`queue_is_empty` tells the empty list. -/
theorem queue_fifo_if_freed_memory_kept (q : Queue) (xs : List Int) (h : Represents q xs) :
    (queue_is_empty q = true ↔ xs = []) ∧
      (∀ v, ∃ q1, enqueue q v = some q1 ∧ Represents q1 (xs ++ [v])) ∧
      (∀ x rest, xs = x :: rest →
        ∃ q1, dequeue FreedRead.stale q = Dequeued.value q1 x ∧ Represents q1 rest) := by
  refine ⟨?_, fun v => represents_enqueue q xs v h, ?_⟩
  · cases xs with
    | nil =>
      simp only [Represents] at h
      simp [queue_is_empty, h.1]
    | cons x rest =>
      simp only [Represents] at h
      obtain ⟨a, l, hf, _, _⟩ := h
      simp [queue_is_empty, hf]
  · intro x rest hx
    subst hx
    exact represents_dequeue q x rest h

theorem represents_new_queue : Represents new_queue [] := ⟨rfl, rfl⟩

/-- C14 fails on the code: `dequeue` calls `free(tmp)` and then reads `queue->first->next`
out of the block it has just freed. With reads of freed memory undefined, the first
`dequeue` after `enqueue(7)` is already undefined, and so is the first `dequeue` on the
queue holding 7 and 8. -/
theorem dequeue_reads_freed_node :
    (enqueue new_queue 7).map (dequeue FreedRead.undefined) = some Dequeued.undefined ∧
      (enqueue_all new_queue [7, 8]).map (dequeue FreedRead.undefined)
        = some Dequeued.undefined ∧
      (enqueue_all new_queue [7, 8]).map (dequeue FreedRead.stale)
        = some (Dequeued.value
            { heap := [Cell.freed { fd := 7, next := some 1 },
                Cell.live { fd := 8, next := none }],
              first := some 1, last := some 1 } 7) := by
  refine ⟨by decide, by decide, by decide⟩

/-- C15 fails on the code, from the same defect as C14: after `main` has enqueued one
connection and the value -2 for its one worker, the first pass of the worker's loop calls
`dequeue`, which reads the node it has freed; with reads of freed memory undefined the
pass is undefined, so neither the dispatch of the connection nor the exit on -2 is
reached. The same holds when the queue holds the value -2 alone. -/
theorem shutdown_dequeue_reads_freed_node :
    (main_shutdown [5] 1).map (accept_job_dequeue FreedRead.undefined) = some Turn.undefined ∧
      (main_shutdown [] 1).map (accept_job_dequeue FreedRead.undefined)
        = some Turn.undefined := by
  refine ⟨by decide, by decide⟩

theorem split_at_first_sentinel : ∀ (a h b : List Int) (W : Nat),
    (∀ s ∈ a, s ≠ -2) → (∀ s ∈ h, s ≠ -2) →
    a ++ (-2 :: b) = h ++ List.replicate W (-2) → a = h ∧ -2 :: b = List.replicate W (-2) := by
  intro a
  induction a with
  | nil =>
    intro h b W _ hh heq
    cases h with
    | nil => exact ⟨rfl, by simpa using heq⟩
    | cons y h1 =>
      simp only [List.nil_append, List.cons_append, List.cons.injEq] at heq
      exact absurd heq.1.symm (hh y (List.mem_cons_self _ _))
  | cons x a1 ih =>
    intro h b W ha hh heq
    cases h with
    | nil =>
      simp only [List.nil_append, List.cons_append] at heq
      have hx : x ∈ List.replicate W (-2 : Int) := by rw [← heq]; exact List.mem_cons_self _ _
      exact absurd (List.eq_of_mem_replicate hx) (ha x (List.mem_cons_self _ _))
    | cons y h1 =>
      simp only [List.cons_append, List.cons.injEq] at heq
      obtain ⟨e1, e2⟩ := ih h1 b W (fun s hs => ha s (List.mem_cons_of_mem _ hs))
        (fun s hs => hh s (List.mem_cons_of_mem _ hs)) heq.2
      exact ⟨by rw [heq.1, e1], e2⟩

theorem count_false_set (l : List Bool) (i : Nat) (h : l[i]? = some true) :
    (l.set i false).count false = l.count false + 1 := by
  have hlt : i < l.length := by
    by_contra hge
    have : l[i]? = none := List.getElem?_eq_none (by omega)
    rw [this] at h
    cases h
  have hi : l[i] = true := by
    rw [List.getElem?_eq_getElem hlt] at h
    exact Option.some.inj h
  rw [List.count_set false false l i hlt, hi]
  simp

theorem accept_job_dequeue_of_represents (q : Queue) (x : Int) (rest : List Int)
    (h : Represents q (x :: rest)) :
    ∃ q1, Represents q1 rest ∧
      accept_job_dequeue FreedRead.stale q
        = if x = -2 then Turn.exit q1 else Turn.serve q1 x := by
  obtain ⟨q1, h1, h2⟩ := represents_dequeue q x rest h
  exact ⟨q1, h2, by simp only [accept_job_dequeue, h1]⟩

theorem accept_job_dequeue_of_empty (r : FreedRead) (q : Queue) (h : Represents q []) :
    accept_job_dequeue r q = Turn.waiting := by
  simp only [Represents] at h
  simp [accept_job_dequeue, dequeue, queue_is_empty, h.1]

theorem pool_inv_start (accepted : List Int) (workers : Nat) :
    Pool.Inv accepted workers (Pool.start accepted workers) := by
  refine ⟨by simp [Pool.start], by simp [Pool.start], [], represents_new_queue, Or.inl ⟨?_, ?_⟩⟩
  · simp only [Pool.start, List.count_replicate]
    rfl
  · simp [Pool.start]

theorem pool_inv_step (accepted : List Int) (workers : Nat)
    (hacc : ∀ fd ∈ accepted, fd ≠ -2) (p p1 : Pool)
    (hinv : Pool.Inv accepted workers p) (hstep : Pool.Step FreedRead.stale p p1) :
    Pool.Inv accepted workers p1 ∧ p.served <+: p1.served ∧
      (0 < p.running.count false → p1.served = p.served) := by
  obtain ⟨hlen, hserved, xs, hrep, hphase⟩ := hinv
  cases hstep with
  | enqueue v rest q1 hown henq =>
    obtain ⟨q2, h2, hrep2⟩ := represents_enqueue p.queue xs v hrep
    rw [henq] at h2
    cases h2
    refine ⟨⟨hlen, hserved, xs ++ [v], hrep2, ?_⟩, List.prefix_refl _, fun _ => rfl⟩
    rw [hown] at hphase
    rcases hphase with ⟨hk, heq⟩ | ⟨hs, heq⟩
    · exact Or.inl ⟨hk, by simpa using heq⟩
    · exact Or.inr ⟨hs, by simpa using heq⟩
  | exit i q1 hrun hdeq =>
    cases xs with
    | nil => rw [accept_job_dequeue_of_empty _ _ hrep] at hdeq; cases hdeq
    | cons x rest =>
      obtain ⟨q2, hrep2, hturn⟩ := accept_job_dequeue_of_represents p.queue x rest hrep
      rw [hturn] at hdeq
      split at hdeq
      · rename_i hx
        cases hdeq
        subst hx
        have hcount := count_false_set p.running i hrun
        refine ⟨⟨by simp only [List.length_set]; exact hlen, hserved, rest, hrep2, ?_⟩,
          List.prefix_refl _, fun _ => rfl⟩
        right
        rcases hphase with ⟨hk, heq⟩ | ⟨hs, heq⟩
        · rw [List.append_assoc] at heq
          obtain ⟨e1, e2⟩ := split_at_first_sentinel p.served accepted (rest ++ p.owner) workers
            hserved hacc (by simpa using heq)
          refine ⟨e1, ?_⟩
          simp only [hcount, hk, zero_add, List.replicate_one, List.singleton_append,
            List.cons_append, List.nil_append]
          exact e2
        · refine ⟨hs, ?_⟩
          simp only [hcount]
          rw [List.replicate_succ', ← heq]
          simp
      · cases hdeq
  | serve i q1 fd hrun hdeq =>
    cases xs with
    | nil => rw [accept_job_dequeue_of_empty _ _ hrep] at hdeq; cases hdeq
    | cons x rest =>
      obtain ⟨q2, hrep2, hturn⟩ := accept_job_dequeue_of_represents p.queue x rest hrep
      rw [hturn] at hdeq
      split at hdeq
      · cases hdeq
      · rename_i hx
        cases hdeq
        rcases hphase with ⟨hk, heq⟩ | ⟨hs, heq⟩
        · refine ⟨⟨hlen, ?_, rest, hrep2, Or.inl ⟨hk, by simpa using heq⟩⟩,
            List.prefix_append _ _, fun hpos => by omega⟩
          intro s hs
          rcases List.mem_append.1 hs with hs | hs
          · exact hserved s hs
          · simp only [List.mem_singleton] at hs
            rw [hs]
            exact hx
        · have hmem : fd ∈ List.replicate workers (-2 : Int) := by
            rw [← heq]
            simp
          exact absurd (List.eq_of_mem_replicate hmem) hx

theorem prefix_of_no_sentinel (l a : List Int) (W : Nat) (hl : ∀ s ∈ l, s ≠ -2)
    (h : l <+: a ++ List.replicate W (-2)) : l <+: a := by
  rcases List.prefix_or_prefix_of_prefix h (List.prefix_append a _) with h1 | h1
  · exact h1
  · obtain ⟨t, ht⟩ := h1
    subst ht
    have h2 : t <+: List.replicate W (-2 : Int) := (List.prefix_append_right_inj a).1 h
    cases t with
    | nil => simp
    | cons y t1 =>
      have hy : y ∈ List.replicate W (-2 : Int) := h2.subset (List.mem_cons_self _ _)
      exact absurd (List.eq_of_mem_replicate hy) (hl y (by simp))

theorem exists_running : ∀ (l : List Bool), l.count false < l.length →
    ∃ i : Nat, l[i]? = some true := by
  intro l
  induction l with
  | nil => intro h; simp at h
  | cons b l1 ih =>
    intro h
    cases b with
    | true => exact ⟨0, by simp⟩
    | false =>
      simp only [List.count_cons_self, List.length_cons] at h
      obtain ⟨i, hi⟩ := ih (by omega)
      exact ⟨i + 1, by simpa using hi⟩

/-- If a freed block keeps its bytes until it is allocated again, the shutdown protocol
works in every interleaving: in every state the pool reaches, the connections served are a
prefix of the accepted ones in order, and all of them once a worker has left its loop; and in
every state where no step is left, every worker has left, the queue is empty, every accepted
connection was served and the owner has nothing left to enqueue. -/
theorem shutdown_if_freed_memory_kept (accepted : List Int) (workers : Nat)
    (hacc : ∀ fd ∈ accepted, fd ≠ -2) (hw : 1 ≤ workers) (p : Pool)
    (hrun : Relation.ReflTransGen (Pool.Step FreedRead.stale)
      (Pool.start accepted workers) p) :
    p.served <+: accepted ∧
      (0 < p.running.count false → p.served = accepted) ∧
      ((∀ p1, ¬ Pool.Step FreedRead.stale p p1) →
        p.running = List.replicate workers false ∧ queue_is_empty p.queue = true ∧
        p.served = accepted ∧ p.owner = []) := by
  have hinv : Pool.Inv accepted workers p := by
    induction hrun with
    | refl => exact pool_inv_start accepted workers
    | tail _ hstep ih => exact (pool_inv_step accepted workers hacc _ _ ih hstep).1
  obtain ⟨hlen, hserved, xs, hrep, hphase⟩ := hinv
  refine ⟨?_, ?_, ?_⟩
  · rcases hphase with ⟨_, heq⟩ | ⟨hs, _⟩
    · apply prefix_of_no_sentinel _ _ workers hserved
      rw [← heq, List.append_assoc]
      exact List.prefix_append _ _
    · rw [hs]
  · intro hpos
    rcases hphase with ⟨hk, _⟩ | ⟨hs, _⟩
    · omega
    · exact hs
  · intro hstuck
    have hown : p.owner = [] := by
      cases hp : p.owner with
      | nil => rfl
      | cons v rest =>
        obtain ⟨q2, h2, _⟩ := represents_enqueue p.queue xs v hrep
        exact absurd (Pool.Step.enqueue p v rest q2 hp h2) (hstuck _)
    have hidle : xs ≠ [] → ∀ i : Nat, p.running[i]? ≠ some true := by
      intro hxs i hi
      cases xs with
      | nil => exact hxs rfl
      | cons x rest =>
        obtain ⟨q2, _, hturn⟩ := accept_job_dequeue_of_represents p.queue x rest hrep
        by_cases hx : x = -2
        · rw [if_pos hx] at hturn
          exact absurd (Pool.Step.exit p i q2 hi hturn) (hstuck _)
        · rw [if_neg hx] at hturn
          exact absurd (Pool.Step.serve p i q2 x hi hturn) (hstuck _)
    rw [hown] at hphase
    simp only [List.append_nil] at hphase
    rcases hphase with ⟨hk, heq⟩ | ⟨hs, heq⟩
    · exfalso
      have hex : ∃ i : Nat, p.running[i]? = some true := exists_running p.running (by omega)
      obtain ⟨i, hi⟩ := hex
      cases xs with
      | cons x rest => exact hidle (by simp) i hi
      | nil =>
        simp only [List.append_nil] at heq
        have hmem : (-2 : Int) ∈ p.served := by
          rw [heq]
          apply List.mem_append_right
          cases workers with
          | zero => omega
          | succ n => simp [List.replicate_succ]
        exact hserved _ hmem rfl
    · have hlens := congrArg List.length heq
      simp only [List.length_append, List.length_replicate] at hlens
      cases xs with
      | cons x rest =>
        exfalso
        simp only [List.length_cons] at hlens
        obtain ⟨i, hi⟩ := exists_running p.running (by omega)
        exact hidle (by simp) i hi
      | nil =>
        simp only [List.length_nil, add_zero] at hlens
        refine ⟨?_, ?_, hs, hown⟩
        · rw [← hlen]
          apply List.eq_replicate_iff.2
          refine ⟨rfl, ?_⟩
          intro b hb
          have hall := List.count_eq_length.1 (by rw [hlens, hlen] : p.running.count false = p.running.length)
          exact (hall b hb).symm
        · simp only [Represents] at hrep
          simp [queue_is_empty, hrep.1]

/-! ## C21 and C22: the size of a PUT record -/

theorem Logged.unchanged (w : World) (off : Int) : Logged w w off [] :=
  ⟨[], by simp, trivial, rfl⟩

theorem Logged.followed {w w1 w2 : World} {off : Int} {t1 t2 : List Nat}
    (h1 : Logged w w1 off t1) (h2 : Logged w1 w2 (off + (t1.length : Int)) t2) :
    Logged w w2 off (t1 ++ t2) := by
  obtain ⟨xs, hx, hc1, rfl⟩ := h1
  obtain ⟨ys, hy, hc2, rfl⟩ := h2
  refine ⟨xs ++ ys, by rw [hy, hx, List.append_assoc], ?_, writtenBytes_append xs ys⟩
  exact (contiguousFrom_append off xs ys).2 ⟨hc1, hc2⟩

theorem Logged.of_wrote {w0 w w1 : World} {off : Int} {text : List Nat} (hlog : w.log = w0.log)
    (h : Wrote w w1 off text) :
    Logged w0 w1 off text ∧ w1.log_offset = w.log_offset ∧ w1.log_fd = w.log_fd := by
  obtain ⟨ws, rfl, hc, ht⟩ := h
  exact ⟨⟨ws, by simp only [hlog], hc, ht⟩, rfl, rfl⟩

theorem dec_length_digits (n : Nat) : (dec n).length = digits n := by
  unfold digits
  rcases Nat.eq_zero_or_pos n with h0 | hpos
  · subst h0
    rw [Nat.log_zero_right]
    rfl
  · exact dec_length_eq (Nat.log 10 n) n (Nat.pow_log_le_self 10 (by omega))
      (Nat.lt_pow_succ_log_self (by omega) n)

theorem fieldsText_length : ∀ (l : List Nat), l ≠ [] → (fieldsText l).length + 1 = 3 * l.length
  | [], h => absurd rfl h
  | [b], _ => by simp [fieldsText, hexField_length]
  | b :: b1 :: rest, _ => by
    have ih := fieldsText_length (b1 :: rest) (by simp)
    simp only [fieldsText, List.length_append, hexField_length, List.length_cons,
      List.length_nil] at ih ⊢
    omega

theorem dumpText_nil (b0 : Int) : dumpText b0 [] = [] := by
  simp [dumpText]

theorem dumpText_append (b0 : Int) (a b : List Nat) (ha : a.length % 20 = 0) :
    dumpText b0 (a ++ b) = dumpText b0 a ++ dumpText (b0 + (a.length : Int)) b := by
  obtain ⟨m, hm⟩ : ∃ m, a.length = 20 * m := ⟨a.length / 20, by omega⟩
  have h1 : (a.length + b.length + 19) / 20 = m + (b.length + 19) / 20 := by omega
  have h2 : (a.length + 19) / 20 = m := by omega
  simp only [dumpText, List.length_append, h1, h2, List.range_add, List.map_append,
    List.flatten_append, List.map_map]
  congr 1
  · congr 1
    apply List.map_congr_left
    intro i hi
    have hi1 : i < m := List.mem_range.1 hi
    simp only [lineAt]
    rw [List.drop_append_of_le_length (by omega),
      List.take_append_of_le_length (by simp only [List.length_drop]; omega)]
  · congr 1
    apply List.map_congr_left
    intro i _
    simp only [lineAt, Function.comp]
    have hd : (a ++ b).drop (20 * (m + i)) = b.drop (20 * i) := by
      have : 20 * (m + i) = a.length + 20 * i := by omega
      rw [this, List.drop_append]
    rw [hd, hm]
    push_cast
    congr 3
    omega

theorem dumpText_short (b0 : Int) (a : List Nat) (h1 : 1 ≤ a.length) (h2 : a.length ≤ 20) :
    (dumpText b0 a).length = 9 + 3 * a.length := by
  have hc : (a.length + 19) / 20 = 1 := by omega
  have hne : a ≠ [] := by
    intro h
    rw [h] at h1
    simp at h1
  have hf := fieldsText_length a hne
  have hr : List.range 1 = [0] := rfl
  simp only [dumpText, hc, hr, List.map_cons, List.map_nil, List.flatten_cons,
    List.flatten_nil, List.append_nil, lineAt, List.length_append, linePrefix_length,
    List.length_singleton, Nat.mul_zero, List.drop_zero, List.take_of_length_le h2]
  omega

/-- The dump of a chunk of n bytes has 9 bytes for each of its ceil(n/20) lines and 3 bytes
for each byte of the chunk, whatever the bytes and the running index. -/
theorem dumpText_length (b0 : Int) (chunk : List Nat) :
    (dumpText b0 chunk).length = 9 * ((chunk.length + 19) / 20) + 3 * chunk.length := by
  generalize hn : chunk.length = n
  induction n using Nat.strong_induction_on generalizing b0 chunk with
  | _ n ih =>
    by_cases h0 : n = 0
    · subst h0
      rw [List.length_eq_zero.1 hn, dumpText_nil]
      rfl
    · by_cases h20 : n ≤ 20
      · rw [dumpText_short b0 chunk (by omega) (by omega), hn]
        omega
      · have hsplit : chunk = chunk.take 20 ++ chunk.drop 20 := (List.take_append_drop 20 chunk).symm
        have htl : (chunk.take 20).length = 20 := by
          simp only [List.length_take]; omega
        have hdl : (chunk.drop 20).length = n - 20 := by
          simp only [List.length_drop]; omega
        rw [hsplit, dumpText_append b0 _ _ (by rw [htl]), List.length_append,
          dumpText_short b0 _ (by omega) (by omega),
          ih (n - 20) (by omega) _ (chunk.drop 20) hdl, htl]
        omega

/-- The reservation of `log_put` is the size of the specification exactly when that size
fits an `int`. -/
theorem log_put_size_of_fits (N : Nat) (h : specRecordSize N ≤ 2147483647) :
    log_put_size (N : Int) = (specRecordSize N : Int) := by
  have hdiv : Int.tdiv (N : Int) 20 = ((N / 20 : Nat) : Int) := by
    rw [Int.tdiv_eq_ediv (by omega) (by omega)]; rfl
  have hmod : Int.tmod (N : Int) 20 = ((N % 20 : Nat) : Int) := by
    rw [Int.tmod_eq_emod (by omega) (by omega)]; rfl
  simp only [log_put_size, fmt_d_natCast, hdiv, hmod, iadd, imul, dec_length_digits]
  unfold specRecordSize at h ⊢
  generalize digits N = d at h ⊢
  have hr : N % 20 < 20 := Nat.mod_lt _ (by omega)
  by_cases hp : N % 20 > 0
  · have hp1 : ((N % 20 : Nat) : Int) > 0 := by omega
    simp only [hp, hp1, if_true] at h ⊢
    rw [wrap32_of_range (39 + (d : Int)) (by omega) (by omega),
      wrap32_of_range (39 + (d : Int) + 1) (by omega) (by omega),
      wrap32_of_range (69 * ((N / 20 : Nat) : Int)) (by omega) (by omega),
      wrap32_of_range (((N % 20 : Nat) : Int) * 3) (by omega) (by omega),
      wrap32_of_range (9 + ((N % 20 : Nat) : Int) * 3) (by omega) (by omega),
      wrap32_of_range (39 + (d : Int) + 1 + 69 * ((N / 20 : Nat) : Int))
        (by omega) (by omega),
      wrap32_of_range (39 + (d : Int) + 1 + 69 * ((N / 20 : Nat) : Int)
        + (9 + ((N % 20 : Nat) : Int) * 3)) (by omega) (by omega),
      wrap32_of_range (39 + (d : Int) + 1 + 69 * ((N / 20 : Nat) : Int)
        + (9 + ((N % 20 : Nat) : Int) * 3) + 9) (by omega) (by omega)]
    push_cast
    omega
  · have hp1 : ¬ ((N % 20 : Nat) : Int) > 0 := by omega
    simp only [hp, hp1, if_false] at h ⊢
    rw [wrap32_of_range (39 + (d : Int)) (by omega) (by omega),
      wrap32_of_range (39 + (d : Int) + 1) (by omega) (by omega),
      wrap32_of_range (69 * ((N / 20 : Nat) : Int)) (by omega) (by omega),
      wrap32_of_range (39 + (d : Int) + 1 + 69 * ((N / 20 : Nat) : Int))
        (by omega) (by omega),
      wrap32_of_range (39 + (d : Int) + 1 + 69 * ((N / 20 : Nat) : Int) + 0)
        (by omega) (by omega),
      wrap32_of_range (39 + (d : Int) + 1 + 69 * ((N / 20 : Nat) : Int) + 0 + 9)
        (by omega) (by omega)]
    push_cast
    omega

/-- With logging enabled and a counter that is a file position, `log_put` for a
27-character name adds its reservation to the counter, writes the header line at the old
counter and returns the offset after it. -/
theorem log_put_eq (w : World) (name : List Nat) (N : Nat) (hfd : 0 ≤ w.log_fd)
    (hoff : 0 ≤ w.log_offset) (hname : name.length = 27) (hfit : specRecordSize N ≤ 2147483647) :
    log_put w name (N : Int)
      = ({ w with
            log_offset := w.log_offset + (specRecordSize N : Int),
            log := w.log ++ [(w.log_offset,
              str "PUT " ++ name ++ str " length " ++ dec N ++ str "\n")] },
          w.log_offset + (40 + (digits N : Int))) := by
  have hd : digits N + 49 ≤ 2147483647 := by
    unfold specRecordSize at hfit
    omega
  have hlen : (str "PUT " ++ name ++ str " length " ++ dec N ++ str "\n").length
      = 40 + digits N := by
    have h1 : (str "PUT ").length = 4 := by decide
    have h2 : (str " length ").length = 8 := by decide
    have h3 : (str "\n").length = 1 := by decide
    simp only [List.length_append, h1, h2, h3, hname, dec_length_digits]
    omega
  have hnot : ¬ (w.log_fd < 0 ∨ ((N : Nat) : Int) < 0) := by
    intro h
    rcases h with h | h <;> omega
  simp only [log_put, hnot, if_false, log_put_size_of_fits N hfit, fmt_d_natCast, iadd,
    dec_length_digits]
  rw [wrap32_of_range (39 + (digits N : Int)) (by omega) (by omega),
    wrap32_of_range (39 + (digits N : Int) + 1) (by omega) (by omega)]
  have hsz : (39 + (digits N : Int) + 1 + 1).toNat = 40 + digits N + 1 := by omega
  rw [hsz, snprintf_of_length_lt _ _ (by rw [hlen]; omega),
    bufBytes_of_length _ _ (by rw [hlen]; push_cast; omega),
    pwrite_of_nonneg _ _ hoff, hlen]
  simp only [Prod.mk.injEq, true_and]
  push_cast
  omega

theorem dumpText_append_of_aligned (b0 : Int) (a b : List Nat)
    (h : a.length % 20 = 0 ∨ b = []) :
    dumpText b0 (a ++ b) = dumpText b0 a ++ dumpText (b0 + (a.length : Int)) b := by
  rcases h with h | h
  · exact dumpText_append b0 a b h
  · subst h
    simp [dumpText_nil]

theorem fullReads_cons (s r : List Nat) (rest : List (List Nat))
    (h : fullReads (s :: r :: rest)) :
    (s ≠ [] ∧ s.length % 8000 = 0) ∧ fullReads (r :: rest) := by
  have hd : (s :: r :: rest).dropLast = s :: (r :: rest).dropLast := rfl
  unfold fullReads at h ⊢
  rw [hd] at h
  exact ⟨h s (List.mem_cons_self _ _), fun x hx => h x (List.mem_cons_of_mem _ hx)⟩

theorem fullReads_drop (s : List Nat) (rest : List (List Nat)) (h : fullReads (s :: rest))
    (hlen : 8000 < s.length) : fullReads (s.drop 8000 :: rest) := by
  cases rest with
  | nil =>
    intro x hx
    simp at hx
  | cons r rest1 =>
    obtain ⟨⟨_, hs⟩, hrest⟩ := fullReads_cons s r rest1 h
    have hd : (s.drop 8000 :: r :: rest1).dropLast = s.drop 8000 :: (r :: rest1).dropLast := rfl
    intro x hx
    rw [hd] at hx
    rcases List.mem_cons.1 hx with rfl | hx
    · have hB : BUF_SIZE = 8000 := rfl
      refine ⟨?_, ?_⟩
      · intro h0
        have := congrArg List.length h0
        simp only [List.length_drop, List.length_nil] at this
        omega
      · simp only [List.length_drop, hB]
        omega
    · exact hrest x hx

/-- A payload that is all there when `put` starts to read is read in full amounts: the
socket hands out 8000 bytes at a time, then the remainder. -/
theorem fullReads_single (payload : List Nat) : fullReads [payload] := by
  intro s hs
  have hd : [payload].dropLast = [] := rfl
  rw [hd] at hs
  exact absurd hs (List.not_mem_nil s)

/-- A payload that arrives as a first segment of exactly 8000 bytes and a second segment with
the rest is read in full amounts. -/
theorem fullReads_pair (a b : List Nat) (ha : a.length = 8000) : fullReads [a, b] := by
  intro s hs
  have hd : [a, b].dropLast = [a] := rfl
  rw [hd, List.mem_singleton] at hs
  subst hs
  have hB : BUF_SIZE = 8000 := rfl
  refine ⟨?_, by rw [ha, hB]⟩
  intro h
  rw [h] at ha
  simp at ha

/-- One pass of the known-length loop in the log: the dump of the chunk read, appended at the
offset the loop carries. -/
theorem put_known_pass (w : World) (R chunk : List Nat) (total offset : Int)
    (hfd : 0 ≤ w.log_fd) (hoff : 0 ≤ offset) :
    Logged w
        (write_hex_to_log (file_write w R chunk) (chunk.length : Int)
          (total + (chunk.length : Int)) offset chunk).1 offset (dumpText total chunk) ∧
      (write_hex_to_log (file_write w R chunk) (chunk.length : Int)
          (total + (chunk.length : Int)) offset chunk).1.log_offset = w.log_offset ∧
      (write_hex_to_log (file_write w R chunk) (chunk.length : Int)
          (total + (chunk.length : Int)) offset chunk).1.log_fd = w.log_fd ∧
      (write_hex_to_log (file_write w R chunk) (chunk.length : Int)
          (total + (chunk.length : Int)) offset chunk).2
        = offset + ((dumpText total chunk).length : Int) := by
  obtain ⟨hl, ho, hf⟩ := file_write_log w R chunk
  obtain ⟨h1, h2⟩ := write_hex_to_log_wrote (file_write w R chunk) chunk
    (total + (chunk.length : Int)) offset (by rw [hf]; exact hfd) hoff
  rw [add_sub_cancel_right] at h1 h2
  obtain ⟨g1, g2, g3⟩ := Logged.of_wrote hl h1
  exact ⟨g1, by rw [g2, ho], by rw [g3, hf], h2⟩

/-- When every `read` returns as many bytes as the known-length loop asks for, the loop ends
and has appended to the log, from the offset it was given, the dump of the whole payload in
lines of 20 bytes. -/
theorem put_known_logs (R : List Nat) (N : Int) : ∀ (fuel : Nat) (w : World) (c : Conn)
    (total offset : Int) (segs : List (List Nat)) (tail : List Recv),
    c.incoming = segs.map Recv.data ++ tail → fullReads segs →
    total + (segs.flatten.length : Int) = N → segs.flatten.length < fuel →
    0 ≤ w.log_fd → 0 ≤ offset →
    ∃ w1 c1, put_known R N fuel w c total offset
        = some (LoopEnd.finished w1 c1
            (offset + ((dumpText total segs.flatten).length : Int))) ∧
      Logged w w1 offset (dumpText total segs.flatten) ∧
      w1.log_offset = w.log_offset ∧ w1.log_fd = w.log_fd := by
  intro fuel
  induction fuel with
  | zero => intro w c total offset segs tail _ _ _ h; omega
  | succ k ih =>
    intro w c total offset segs tail hin hfull htot hfuel hfd hoff
    by_cases hrem : segs.flatten.length = 0
    · have hnil : segs.flatten = [] := List.length_eq_zero.1 hrem
      have hnot : ¬ total < N := by omega
      simp only [put_known, hnot, if_false, hnil, dumpText_nil, List.length_nil]
      exact ⟨w, c, by simp, Logged.unchanged w offset, rfl, rfl⟩
    · have hlt : total < N := by omega
      cases segs with
      | nil => simp at hrem
      | cons s rest =>
        simp only [List.flatten_cons, List.length_append, Nat.cast_add] at htot hfuel hrem
        simp only [List.map_cons, List.cons_append] at hin
        have hB : (BUF_SIZE : Int) = 8000 := rfl
        generalize hcount : (if N - total < (BUF_SIZE : Int) then N - total
          else (BUF_SIZE : Int)) = count
        have hc1 : 1 ≤ count ∧ count ≤ N - total ∧ count ≤ 8000 ∧
            (count < 8000 → count = N - total) := by
          rw [← hcount]; split <;> omega
        obtain ⟨cnt, rfl⟩ : ∃ cnt : Nat, count = (cnt : Int) := ⟨count.toNat, by omega⟩
        simp only [put_known, hlt, if_true, hcount, Int.toNat_ofNat, Conn.read_data c s _ cnt hin,
          List.flatten_cons]
        by_cases hfit : s.length ≤ cnt
        · simp only [hfit, if_true]
          have hal : (s.length % 20 = 0 ∨ rest.flatten = []) ∧ 1 ≤ s.length ∧ fullReads rest := by
            cases rest with
            | nil =>
              simp only [List.flatten_nil, List.length_nil] at hrem
              refine ⟨Or.inr rfl, by omega, ?_⟩
              intro x hx
              simp at hx
            | cons r rest1 =>
              obtain ⟨⟨hne, hs⟩, hrest⟩ := fullReads_cons s r rest1 hfull
              have : s.length ≠ 0 := fun h0 => hne (List.length_eq_zero.1 h0)
              exact ⟨Or.inl (by omega), by omega, hrest⟩
          obtain ⟨p1, p2, p3, p4⟩ := put_known_pass w R s total offset hfd hoff
          generalize write_hex_to_log (file_write w R s) (s.length : Int)
            (total + (s.length : Int)) offset s = r at p1 p2 p3 p4 ⊢
          obtain ⟨w1, c1, h1, h2, h3, h4⟩ := ih r.1
            { c with incoming := rest.map Recv.data ++ tail }
            (total + (s.length : Int)) r.2 rest tail rfl hal.2.2 (by omega) (by omega)
            (by rw [p3]; exact hfd) (by rw [p4]; omega)
          rw [dumpText_append_of_aligned total s rest.flatten hal.1]
          refine ⟨w1, c1, ?_, ?_, by rw [h3, p2], by rw [h4, p3]⟩
          · rw [h1, p4, List.length_append]
            push_cast
            rw [add_assoc]
          · exact Logged.followed p1 (by rw [← p4]; exact h2)
        · simp only [hfit, if_false]
          have hcnt : cnt = 8000 := by omega
          subst hcnt
          have htake : (s.take 8000).length = 8000 := by
            simp only [List.length_take]; omega
          have hfull1 := fullReads_drop s rest hfull (by omega)
          obtain ⟨p1, p2, p3, p4⟩ := put_known_pass w R (s.take 8000) total offset hfd hoff
          generalize write_hex_to_log (file_write w R (s.take 8000))
            ((s.take 8000).length : Int) (total + ((s.take 8000).length : Int)) offset
            (s.take 8000) = r at p1 p2 p3 p4 ⊢
          obtain ⟨w1, c1, h1, h2, h3, h4⟩ := ih r.1
            { c with incoming := Recv.data (s.drop 8000) :: (rest.map Recv.data ++ tail) }
            (total + ((s.take 8000).length : Int)) r.2 (s.drop 8000 :: rest) tail rfl hfull1
            (by
              simp only [List.flatten_cons, List.length_append, List.length_drop, htake]
              push_cast
              omega)
            (by
              simp only [List.flatten_cons, List.length_append, List.length_drop]
              omega)
            (by rw [p3]; exact hfd) (by rw [p4]; omega)
          have hsplit : s ++ rest.flatten = s.take 8000 ++ (s.drop 8000 :: rest).flatten := by
            rw [List.flatten_cons, ← List.append_assoc, List.take_append_drop]
          rw [hsplit, dumpText_append_of_aligned total (s.take 8000) _
            (Or.inl (by rw [htake]))]
          refine ⟨w1, c1, ?_, ?_, by rw [h3, p2], by rw [h4, p3]⟩
          · rw [h1, p4, List.length_append]
            push_cast
            rw [add_assoc]
          · exact Logged.followed p1 (by rw [← p4]; exact h2)

theorem specPutRecord_length (name payload : List Nat) (hname : name.length = 27) :
    (specPutRecord name payload).length = specRecordSize payload.length := by
  have h1 : (str "PUT ").length = 4 := by decide
  have h2 : (str " length ").length = 8 := by decide
  have h3 : (str "\n").length = 1 := by decide
  have h4 : (str "========\n").length = 9 := by decide
  simp only [specPutRecord, specRecordSize, List.length_append, h1, h2, h3, h4, hname,
    dec_length_digits, dumpText_length]
  split <;> omega

/-- The footer `put` writes at the offset its receive loop reached. -/
theorem put_footer (w w2 : World) (off0 off : Int) (text : List Nat)
    (h : Logged w w2 off0 text) (hoff : off = off0 + (text.length : Int)) (h0 : 0 ≤ off) :
    Logged w (if off ≠ -1 then (pwrite w2 (str "========\n") off).1 else w2) off0
        (text ++ str "========\n") ∧
      (if off ≠ -1 then (pwrite w2 (str "========\n") off).1 else w2).log_offset
        = w2.log_offset := by
  have hne : off ≠ -1 := by omega
  simp only [hne, ne_eq, not_false_eq_true, if_true]
  obtain ⟨g1, g2, _⟩ := Logged.of_wrote (rfl : w2.log = w2.log)
    (Wrote.pwrite w2 (str "========\n") h0)
  exact ⟨Logged.followed h (by rw [← hoff]; exact g1), g2⟩

/-- C21. With logging enabled, for every name and every content length N >= 0 whose record
size fits an `int`, `log_put` advances the counter by exactly
40 + digits(N) + 69 floor(N/20) + (9 + 3 (N mod 20) if N mod 20 > 0, else 0) + 9. For a valid
(27-character) name, when the payload of N bytes arrives so that every `read` of `put`
returns the full amount requested, `put` returns, and the header line, the dump of the payload
in lines of 20 bytes and the footer were written without gap from the counter value that
`log_put` read; their total length is the reserved size, so the footer ends where the
counter now stands. -/
theorem put_fills_reservation (w : World) (name : List Nat) (N : Nat)
    (hfd : 0 ≤ w.log_fd) (hfit : specRecordSize N ≤ 2147483647) :
    (log_put w name (N : Int)).1.log_offset = w.log_offset + (specRecordSize N : Int) ∧
    (∀ (c : Conn) (segs : List (List Nat)) (tail : List Recv) (fuel : Nat),
      valid_filename name = true → (open_trunc w name).isSome = true → 0 ≤ w.log_offset →
      c.incoming = segs.map Recv.data ++ tail → fullReads segs → segs.flatten.length = N →
      N < fuel →
      ∃ w1 c1, put w c name (N : Int) fuel = some (w1, c1) ∧
        Logged w w1 w.log_offset (specPutRecord name segs.flatten) ∧
        (specPutRecord name segs.flatten).length = specRecordSize N ∧
        w1.log_offset = w.log_offset + (specRecordSize N : Int)) := by
  refine ⟨?_, ?_⟩
  · have hnot : ¬ (w.log_fd < 0 ∨ (N : Int) < 0) := by
      intro h
      rcases h with h | h <;> omega
    rw [log_put_log_offset, if_neg hnot, log_put_size_of_fits N hfit]
  · intro c segs tail fuel hvalid hopen hoff hin hfull hN hfuel
    have hlen : name.length = 27 := ((valid_filename_iff name).1 hvalid).1
    obtain ⟨w0, hw0⟩ := Option.isSome_iff_exists.1 hopen
    obtain ⟨hguard, _⟩ := open_trunc_spec w w0 name hw0
    obtain ⟨ho1, ho2, ho3⟩ := open_trunc_log w w0 name hw0
    have hne : ¬ (str "PUT" = str "GET") := by decide
    have hlog : log w0 (str "PUT") name (N : Int)
        = ({ w0 with
              log_offset := w0.log_offset + (specRecordSize N : Int),
              log := w0.log ++ [(w0.log_offset,
                str "PUT " ++ name ++ str " length " ++ dec N ++ str "\n")] },
            w0.log_offset + (40 + (digits N : Int))) := by
      simp only [log, hne, if_false, if_true]
      exact log_put_eq w0 name N (by rw [ho3]; exact hfd) (by rw [ho2]; exact hoff) hlen hfit
    have hheadlen : (str "PUT " ++ name ++ str " length " ++ dec N ++ str "\n").length
        = 40 + digits N := by
      have h1 : (str "PUT ").length = 4 := by decide
      have h2 : (str " length ").length = 8 := by decide
      have h3 : (str "\n").length = 1 := by decide
      simp only [List.length_append, h1, h2, h3, hlen, dec_length_digits]
      omega
    generalize hW : ({ w0 with
        log_offset := w0.log_offset + (specRecordSize N : Int),
        log := w0.log ++ [(w0.log_offset,
          str "PUT " ++ name ++ str " length " ++ dec N ++ str "\n")] } : World) = wh at hlog
    have hhead : Logged w wh w.log_offset
        (str "PUT " ++ name ++ str " length " ++ dec N ++ str "\n") := by
      refine ⟨[(w0.log_offset, str "PUT " ++ name ++ str " length " ++ dec N ++ str "\n")],
        ?_, ⟨ho2, trivial⟩, by simp [writtenBytes]⟩
      rw [← hW, ho1]
    have hwh : wh.log_offset = w.log_offset + (specRecordSize N : Int) ∧ wh.log_fd = w.log_fd := by
      rw [← hW]
      exact ⟨by simp only [ho2], ho3⟩
    have hrec : (specPutRecord name segs.flatten).length = specRecordSize N := by
      rw [specPutRecord_length name _ hlen, hN]
    have hspec : specPutRecord name segs.flatten
        = str "PUT " ++ name ++ str " length " ++ dec N ++ str "\n"
          ++ dumpText 0 segs.flatten ++ str "========\n" := by
      simp only [specPutRecord, hN]
    by_cases h0 : N = 0
    · subst h0
      have hnil : segs.flatten = [] := List.length_eq_zero.1 hN
      have hfooter := put_footer w (file_write wh name []) w.log_offset
        (w0.log_offset + (40 + (digits 0 : Int))) _
        (by
          obtain ⟨ws, h1, h2, h3⟩ := hhead
          exact ⟨ws, by rw [(file_write_log wh name []).1, h1], h2, h3⟩)
        (by rw [hheadlen, ho2]; push_cast; rfl) (by rw [ho2]; omega)
      refine ⟨if w0.log_offset + (40 + (digits 0 : Int)) ≠ -1 then
          (pwrite (file_write wh name []) (str "========\n")
            (w0.log_offset + (40 + (digits 0 : Int)))).1
        else file_write wh name [], created c name, ?_, ?_, hrec, ?_⟩
      · simp only [put, hvalid, Bool.not_true, Bool.false_eq_true, if_false, hguard, hw0,
          Nat.cast_zero, if_true]
        rw [show ((0 : Int)) = ((0 : Nat) : Int) from rfl, hlog]
      · rw [hspec, hnil, dumpText_nil, List.append_nil]
        exact hfooter.1
      · rw [hfooter.2, (file_write_log wh name []).2.1]
        exact hwh.1
    · have hpos : ¬ ((N : Int) = 0) := by omega
      have hneg : ¬ ((N : Int) < 0) := by omega
      obtain ⟨w2, c2, hloop, hdump, hoff2, _⟩ := put_known_logs name (N : Int) fuel wh c 0
        (w0.log_offset + (40 + (digits N : Int))) segs tail hin hfull
        (by rw [hN]; omega) (by rw [hN]; exact hfuel) (by rw [hwh.2]; exact hfd)
        (by rw [ho2]; omega)
      have hfooter := put_footer w w2 w.log_offset
        (w0.log_offset + (40 + (digits N : Int)) + ((dumpText 0 segs.flatten).length : Int)) _
        (Logged.followed hhead (by rw [hheadlen, ← ho2]; exact_mod_cast hdump))
        (by rw [List.length_append, hheadlen, ho2]; push_cast; omega) (by rw [ho2]; omega)
      refine ⟨if w0.log_offset + (40 + (digits N : Int))
            + ((dumpText 0 segs.flatten).length : Int) ≠ -1 then
          (pwrite w2 (str "========\n") (w0.log_offset + (40 + (digits N : Int))
            + ((dumpText 0 segs.flatten).length : Int))).1
        else w2, created c2 name, ?_, ?_, hrec, ?_⟩
      · simp only [put, hvalid, Bool.not_true, Bool.false_eq_true, if_false, hguard, hw0, hlog,
          hpos, hneg, hloop]
      · rw [hspec]
        exact hfooter.1
      · rw [hfooter.2, hoff2]
        exact hwh.1

/-! ## C22: the size of a dump depends only on the chunk length -/

theorem hexBytes_congr (content content1 : List Nat) (upto : Int) :
    ∀ (k : Nat) (j : Int) (s : HexState),
      (∀ i, s.char_cur ≤ i → i < s.char_cur + k → content.getD i 0 = content1.getD i 0) →
      hexBytes content upto k j s = hexBytes content1 upto k j s := by
  intro k
  induction k with
  | zero => intro j s _; rfl
  | succ k ih =>
    intro j s h
    simp only [hexBytes]
    rw [h s.char_cur (le_refl _) (by omega)]
    by_cases hj : j < upto - 1
    · simp only [hj, if_true]
      apply ih
      intro i h1 h2
      simp only at h1 h2
      exact h i (by omega) (by omega)
    · simp only [hj, if_false]
      apply ih
      intro i h1 h2
      simp only at h1 h2
      exact h i (by omega) (by omega)

theorem hexBytes_char_cur (content : List Nat) (upto : Int) :
    ∀ (k : Nat) (j : Int) (s : HexState),
      (hexBytes content upto k j s).char_cur = s.char_cur + k := by
  intro k
  induction k with
  | zero => intro j s; rfl
  | succ k ih =>
    intro j s
    simp only [hexBytes]
    by_cases hj : j < upto - 1
    · simp only [hj, if_true]
      rw [ih]
      simp only
      omega
    · simp only [hj, if_false]
      rw [ih]
      simp only
      omega

theorem hexLines_congr (content content1 : List Nat) (n : Nat)
    (hsame : ∀ idx, idx < n → content.getD idx 0 = content1.getD idx 0) :
    ∀ (k i : Nat) (s : HexState), i + k = (n + 19) / 20 → (k ≠ 0 → s.char_cur = 20 * i) →
      hexLines content (n : Int) (((n + 19) / 20 : Nat) : Int) k (i : Int) s
        = hexLines content1 (n : Int) (((n + 19) / 20 : Nat) : Int) k (i : Int) s := by
  intro k
  induction k with
  | zero => intro i s _ _; rfl
  | succ k ih =>
    intro i s hik hcur
    replace hcur := hcur (Nat.succ_ne_zero k)
    simp only [hexLines]
    generalize hu : (if (i : Int) = (((n + 19) / 20 : Nat) : Int) - 1
        then (n : Int) - 20 * (i : Int) else 20) = upto
    have hupto : 1 ≤ upto ∧ upto ≤ 20 ∧ 20 * (i : Int) + upto ≤ n ∧ (k ≠ 0 → upto = 20) := by
      rw [← hu]; split <;> omega
    obtain ⟨u, rfl⟩ : ∃ u : Nat, upto = (u : Int) := ⟨upto.toNat, by omega⟩
    simp only [Int.toNat_ofNat]
    generalize pwrite s.w (snprintf 10 (fmt_08d s.bytes ++ [32])) s.new_offset = r
    generalize hs1 : ({ s with w := r.1, new_offset := s.new_offset + r.2 } : HexState) = s1
    have hc1 : s1.char_cur = 20 * i := by rw [← hs1]; exact hcur
    rw [hexBytes_congr content content1 (u : Int) u 0 s1
      (fun idx h1 h2 => hsame idx (by omega))]
    have hc2 := hexBytes_char_cur content1 (u : Int) u 0 s1
    generalize hexBytes content1 (u : Int) u 0 s1 = s2 at hc2 ⊢
    have := ih (i + 1)
      { s2 with bytes := s2.bytes + 20, w := (pwrite s2.w [10] s2.new_offset).1,
                new_offset := s2.new_offset + 1 }
      (by omega) (by simp only; intro hk; have := hupto.2.2.2 hk; omega)
    exact_mod_cast this

/-- The function `write_hex_to_log` reads only the first `bytes_read` bytes of its buffer. -/
theorem write_hex_to_log_congr (w : World) (n : Nat) (t offset : Int)
    (content content1 : List Nat)
    (hsame : ∀ idx, idx < n → content.getD idx 0 = content1.getD idx 0) :
    write_hex_to_log w (n : Int) t offset content
      = write_hex_to_log w (n : Int) t offset content1 := by
  unfold write_hex_to_log
  split
  · rfl
  · simp only [lines_eq, Int.toNat_ofNat]
    have := hexLines_congr content content1 n hsame ((n + 19) / 20) 0
      { w := w, bytes := t - (n : Int), char_cur := 0, new_offset := offset }
      (by omega) (by intro _; rfl)
    rw [show ((0 : Nat) : Int) = 0 from rfl] at this
    rw [this]

/-- C22. With logging enabled, for every chunk length n, every buffer content and every
running index, `write_hex_to_log` started at a file position (so that every positional write
succeeds) writes without gap 9 ceil(n/20) + 3 n bytes from `offset` and returns
`offset + 9 ceil(n/20) + 3 n`: the size depends on the chunk length alone, not on the byte
values nor on the number of digits of the index. For n = 0 it leaves the state as it was and
returns `offset`. -/
theorem write_hex_to_log_size (w : World) (n : Nat) (content : List Nat) (total offset : Int)
    (hfd : 0 ≤ w.log_fd) :
    (0 ≤ offset →
      (write_hex_to_log w (n : Int) total offset content).2
          = offset + ((9 * ((n + 19) / 20) + 3 * n : Nat) : Int) ∧
        ∃ text, Wrote w (write_hex_to_log w (n : Int) total offset content).1 offset text ∧
          text.length = 9 * ((n + 19) / 20) + 3 * n) ∧
    write_hex_to_log w 0 total offset content = (w, offset) := by
  refine ⟨?_, ?_⟩
  · intro hoff
    have hlen : ((List.range n).map (fun i => content.getD i 0)).length = n := by simp
    have hsame : ∀ idx, idx < n →
        content.getD idx 0 = ((List.range n).map (fun i => content.getD i 0)).getD idx 0 := by
      intro idx hidx
      have h : ((List.range n).map (fun i => content.getD i 0)).getD idx 0
          = content.getD idx 0 := by
        rw [List.getD_eq_getElem _ _ (by rw [hlen]; exact hidx)]
        simp only [List.getElem_map, List.getElem_range]
      exact h.symm
    rw [write_hex_to_log_congr w n total offset content _ hsame]
    generalize (List.range n).map (fun i => content.getD i 0) = chunk at hlen
    subst hlen
    obtain ⟨h1, h2⟩ := write_hex_to_log_wrote w chunk total offset hfd hoff
    have hd := dumpText_length (total - (chunk.length : Int)) chunk
    exact ⟨by rw [h2, hd], _, h1, hd⟩
  · have hnot : ¬ w.log_fd < 0 := by omega
    simp only [write_hex_to_log, hnot, if_false]
    rfl

/-- Witness of C22: a chunk of 21 bytes of value 0xc8 at running index 10^8, dumped from
offset 5, takes 2 lines and 81 bytes. -/
theorem write_hex_to_log_size_witness :
    (write_hex_to_log (World.init 3 [] true) ((21 : Nat) : Int) 100000021 5
        (List.replicate 21 200)).2
      = 5 + ((9 * ((21 + 19) / 20) + 3 * 21 : Nat) : Int) ∧
    ∃ text, Wrote (World.init 3 [] true)
        (write_hex_to_log (World.init 3 [] true) ((21 : Nat) : Int) 100000021 5
          (List.replicate 21 200)).1 5 text ∧
      text.length = 9 * ((21 + 19) / 20) + 3 * 21 :=
  (write_hex_to_log_size (World.init 3 [] true) 21 (List.replicate 21 200) 100000021 5
    (by decide)).1 (by decide)

/-- Witness of C21: a payload of 25 bytes that arrives in one segment, with logging enabled
on an empty log; the record takes 40 + 2 + 69 + 24 + 9 bytes. -/
theorem put_fills_reservation_witness :
    ∃ w1 c1, put (World.init 3 [] true)
        { incoming := [str "0123456789abcdefghijklmno"].map Recv.data ++ [],
          sent := [], closed := false }
        (str "AAAAAAAAAAAAAAAAAAAAAAAAAAA") ((25 : Nat) : Int) 26 = some (w1, c1) ∧
      Logged (World.init 3 [] true) w1 (World.init 3 [] true).log_offset
        (specPutRecord (str "AAAAAAAAAAAAAAAAAAAAAAAAAAA")
          [str "0123456789abcdefghijklmno"].flatten) ∧
      (specPutRecord (str "AAAAAAAAAAAAAAAAAAAAAAAAAAA")
          [str "0123456789abcdefghijklmno"].flatten).length
        = specRecordSize 25 ∧
      w1.log_offset = (World.init 3 [] true).log_offset + (specRecordSize 25 : Int) :=
  (put_fills_reservation (World.init 3 [] true) (str "AAAAAAAAAAAAAAAAAAAAAAAAAAA") 25
    (by decide)
    (by
      have h : Nat.log 10 25 ≤ 25 := Nat.log_le_self 10 25
      unfold specRecordSize digits
      rw [if_pos (by decide)]
      omega)).2
    { incoming := [str "0123456789abcdefghijklmno"].map Recv.data ++ [],
      sent := [], closed := false }
    [str "0123456789abcdefghijklmno"] [] 26 (by decide) (by decide) (by decide)
    rfl
    (by
      intro s hs
      have hd : [str "0123456789abcdefghijklmno"].dropLast = [] := rfl
      rw [hd] at hs
      exact absurd hs (List.not_mem_nil s))
    (by decide)
    (by omega)

end HttpServer
